import Mathlib

/-! # traceMS gateway: circuit breaker, retry executor, pipeline and event stream

A shallow embedding of `src/gateway/circuitbreaker.go`, of the retry executor
of `src/gateway/httputil.go` and of the pipeline handlers of
`src/gateway/handlers.go`, followed by the properties proved of them.

Modelling conventions.

* A `time.Time` is the integer number of nanoseconds since Go's zero time;
  `Time.IsZero` is equality with `0` and `Time.Sub` saturates at the bounds of
  a `time.Duration`, as the library documents.
* A `time.Duration` is an integer number of nanoseconds; the products the code
  computes on durations (`backoff *= 3`, and the unit conversions of
  `loadClientConfig`) wrap at 64 bits.
* The Go `int` counters (`failures`, `attempt`) advance by one per call, so
  their wrap-around is 2^63 calls away; they are unbounded integers here.
* `nowFunc` is read once per `Allow` and `Failure` call; the reading is an
  explicit argument `now`.
* `byKey` holds pointers to records mutated in place; here it is a function
  from keys to optional records, and a mutation is a point update.
* A decoded JSON value is a value of `JSON`; a `map[string]interface{}` is the
  list of its entries, read with `Object.get`. The strings of decoded JSON are
  texts; the strings the code cuts by byte index are byte sequences.
* `encoding/json` is not embedded: `Deployment.Decode` stands for the decoding
  of a body into a map. The transport, the clock and the context act through
  a `World` per executor call.
* A handler that dereferences a nil response panics; such a run is `none`.
-/

namespace Gateway

/-! ## Time -/

abbrev Time := Int

abbrev Duration := Int

def minDuration : Duration := -(2 ^ 63)

def maxDuration : Duration := 2 ^ 63 - 1

def Time.IsZero (t : Time) : Bool := t == 0

/-- `t.Sub(u)`: the duration `t - u`, or the largest (smallest) duration when
the difference does not fit one. -/
def Time.Sub (t u : Time) : Duration :=
  if t - u > maxDuration then maxDuration
  else if t - u < minDuration then minDuration
  else t - u

/-! ## circuitbreaker.go -/

inductive circuitState where
  | stateClosed
  | stateOpen
  | stateHalfOpen
  deriving DecidableEq, Repr

open circuitState

structure circuit where
  state : circuitState
  failures : Int
  lastFailure : Time
  lastTry : Time
  deriving DecidableEq, Repr

/-- The record `&circuit{state: stateClosed}`: every other field has its zero
value. -/
def circuit.fresh : circuit :=
  { state := stateClosed, failures := 0, lastFailure := 0, lastTry := 0 }

structure CircuitBreaker where
  byKey : String → Option circuit
  threshold : Int
  window : Duration
  cooldown : Duration

def NewCircuitBreaker (threshold : Int) (window cooldown : Duration) : CircuitBreaker :=
  { byKey := fun _ => none, threshold := threshold, window := window, cooldown := cooldown }

/-- The breaker after the record of `key` has been overwritten by `c`. -/
def CircuitBreaker.store (cb : CircuitBreaker) (key : String) (c : circuit) : CircuitBreaker :=
  { cb with byKey := fun k => if k = key then some c else cb.byKey k }

def CircuitBreaker.Allow (cb : CircuitBreaker) (now : Time) (key : String) :
    Bool × CircuitBreaker :=
  match cb.byKey key with
  | none => (true, cb)
  | some c =>
    match c.state with
    | stateClosed => (true, cb)
    | stateOpen =>
      if Time.Sub now c.lastFailure ≥ cb.cooldown then
        (true, cb.store key { c with state := stateHalfOpen, lastTry := now })
      else
        (false, cb)
    | stateHalfOpen => (true, cb)

def CircuitBreaker.Success (cb : CircuitBreaker) (key : String) : CircuitBreaker :=
  match cb.byKey key with
  | none => cb
  | some c => cb.store key { c with state := stateClosed, failures := 0 }

def CircuitBreaker.Failure (cb : CircuitBreaker) (now : Time) (key : String) : CircuitBreaker :=
  let c₀ : circuit := match cb.byKey key with
    | none => circuit.fresh
    | some c => c
  let c₁ : circuit := { c₀ with lastTry := now }
  if c₁.state = stateHalfOpen then
    cb.store key { c₁ with state := stateOpen, lastFailure := now, failures := cb.threshold }
  else
    let c₂ : circuit :=
      if c₁.state = stateClosed ∧ c₁.lastFailure.IsZero = false
          ∧ Time.Sub now c₁.lastFailure > cb.window then
        { c₁ with failures := 0 }
      else c₁
    let c₃ : circuit := { c₂ with failures := c₂.failures + 1, lastFailure := now }
    let c₄ : circuit := if c₃.failures ≥ cb.threshold then { c₃ with state := stateOpen } else c₃
    cb.store key c₄

/-- The breaker after `Failure(key)` has been called once at each of the clock
readings `ts`, in order. -/
def CircuitBreaker.Failures (cb : CircuitBreaker) (key : String) : List Time → CircuitBreaker
  | [] => cb
  | t :: ts => (cb.Failure t key).Failures key ts

/-! ## httputil.go -/

/-- The value of a signed 64-bit word holding `n` modulo 2^64. -/
def wrapInt64 (n : Int) : Int := (n + 2 ^ 63) % 2 ^ 64 - 2 ^ 63

def Millisecond : Duration := 1000000

def Second : Duration := 1000000000

structure ClientConfig where
  MaxRetries : Int
  BackoffBase : Duration
  CircuitThreshold : Int
  CircuitWindow : Duration
  CircuitCooldown : Duration
  deriving DecidableEq, Repr

/-- The environment variables `loadClientConfig` reads. A variable is `none`
when `os.Getenv` returns the empty string, and otherwise `some n` with `n` the
number `strconv.Atoi` returns for it (0 for text that is not a number). -/
structure ClientEnv where
  PIPELINE_MAX_RETRIES : Option Int
  PIPELINE_RETRY_BACKOFF_MS : Option Int
  PIPELINE_CIRCUIT_FAILURE_THRESHOLD : Option Int
  PIPELINE_CIRCUIT_WINDOW_SEC : Option Int
  PIPELINE_CIRCUIT_COOLDOWN_SEC : Option Int

def intEnv (v : Option Int) (d : Int) : Int :=
  match v with
  | none => d
  | some n => if n < 0 then d else n

def durEnv (v : Option Int) (d : Duration) : Duration :=
  match v with
  | none => d
  | some n => if n < 0 then d else wrapInt64 (n * Second)

def loadClientConfig (e : ClientEnv) : ClientConfig :=
  let backoffMs := intEnv e.PIPELINE_RETRY_BACKOFF_MS 100
  let backoffMs := if backoffMs ≤ 0 then 100 else backoffMs
  { MaxRetries := intEnv e.PIPELINE_MAX_RETRIES 3
    BackoffBase := wrapInt64 (backoffMs * Millisecond)
    CircuitThreshold := intEnv e.PIPELINE_CIRCUIT_FAILURE_THRESHOLD 5
    CircuitWindow := durEnv e.PIPELINE_CIRCUIT_WINDOW_SEC (30 * Second)
    CircuitCooldown := durEnv e.PIPELINE_CIRCUIT_COOLDOWN_SEC (30 * Second) }

/-- What `ctx.Err()` returns once `ctx.Done()` is closed. -/
inductive ContextError where
  | Canceled
  | DeadlineExceeded
  deriving DecidableEq, Repr

/-- The errors `PostWithRetryAndCircuit` returns; `transport` is an error
returned by `postWithTrace`, kept by its message. -/
inductive Error where
  | circuitOpenError
  | httpStatusError (status : Int)
  | transport (msg : String)
  | context (e : ContextError)
  deriving DecidableEq, Repr

structure Response where
  StatusCode : Int
  Body : String
  deriving DecidableEq, Repr

/-- What one call of `PostWithRetryAndCircuit` does that is visible outside
it, in order: a completed backoff wait of the given length, a call of
`postWithTrace` (with the attempt index), a `Failure` or `Success` report to
the breaker. -/
inductive Event where
  | wait (d : Duration)
  | attempt (n : Nat)
  | failure
  | success
  deriving DecidableEq, Repr

/-- The surroundings of one call of `PostWithRetryAndCircuit`.
`allowNow` is the clock reading inside `Allow`; `post n` is what
`postWithTrace` returns at attempt `n`; `done n` tells whether the `select`
before attempt `n` takes the `ctx.Done()` branch; `ctxErr` is what `ctx.Err()`
then returns; `failNow n` is the clock reading inside the `Failure` call that
follows attempt `n`. -/
structure World where
  allowNow : Time
  post : Nat → Except String Response
  done : Nat → Bool
  ctxErr : ContextError
  failNow : Nat → Time

/-- The pair `PostWithRetryAndCircuit` returns, with the breaker as the call
leaves it and the events of the call. -/
structure Result where
  resp : Option Response
  err : Option Error
  cb : CircuitBreaker
  log : List Event

/-- The same outcome, with the events `es` having happened first. -/
def Result.after (es : List Event) (r : Result) : Result :=
  { r with log := es ++ r.log }

/-- The two statements that follow the wait: `backoff *= 3`, then the cap at
`5 * time.Second`. -/
def nextBackoff (backoff : Duration) : Duration :=
  let b := wrapInt64 (backoff * 3)
  if b > 5 * Second then 5 * Second else b

/-- The `for` loop of `PostWithRetryAndCircuit`. The first argument counts the
iterations left, `MaxRetries + 1 - attempt`; the others are the loop variables
`attempt`, `backoff`, `lastErr` and the breaker. -/
def attemptLoop (w : World) (circuitKey : String) :
    Nat → Nat → Duration → Option Error → CircuitBreaker → Result
  | 0, _, _, lastErr, cb => { resp := none, err := lastErr, cb := cb, log := [] }
  | n + 1, attempt, backoff, _, cb =>
    if attempt > 0 ∧ w.done attempt = true then
      { resp := none, err := some (Error.context w.ctxErr), cb := cb, log := [] }
    else
      let waited : List Event := if attempt > 0 then [Event.wait backoff] else []
      let backoff : Duration := if attempt > 0 then nextBackoff backoff else backoff
      match w.post attempt with
      | Except.error e =>
        (attemptLoop w circuitKey n (attempt + 1) backoff (some (Error.transport e))
          (cb.Failure (w.failNow attempt) circuitKey)).after
          (waited ++ [Event.attempt attempt, Event.failure])
      | Except.ok resp =>
        if resp.StatusCode ≥ 200 ∧ resp.StatusCode < 300 then
          { resp := some resp, err := none, cb := cb.Success circuitKey,
            log := waited ++ [Event.attempt attempt, Event.success] }
        else if resp.StatusCode = 429 ∨ (resp.StatusCode ≥ 500 ∧ resp.StatusCode < 600) then
          (attemptLoop w circuitKey n (attempt + 1) backoff
            (some (Error.httpStatusError resp.StatusCode))
            (cb.Failure (w.failNow attempt) circuitKey)).after
            (waited ++ [Event.attempt attempt, Event.failure])
        else
          { resp := some resp, err := none, cb := cb.Success circuitKey,
            log := waited ++ [Event.attempt attempt, Event.success] }

/-- The package variables `clientConfig` and `circuitBreaker` are the
arguments `cfg` and `cb`; the request (`ctx`, `client`, `url`, `contentType`,
`body`) acts through `w` alone. -/
def PostWithRetryAndCircuit (cfg : ClientConfig) (w : World) (cb : CircuitBreaker)
    (circuitKey : String) : Result :=
  if (cb.Allow w.allowNow circuitKey).1 = false then
    { resp := none, err := some Error.circuitOpenError,
      cb := (cb.Allow w.allowNow circuitKey).2, log := [] }
  else
    attemptLoop w circuitKey (cfg.MaxRetries + 1).toNat 0 cfg.BackoffBase none
      (cb.Allow w.allowNow circuitKey).2

/-- The attempt indices of a call, in order. -/
def attempts (log : List Event) : List Nat :=
  log.filterMap fun e => match e with
    | Event.attempt n => some n
    | _ => none

/-- The lengths of the completed backoff waits of a call, in order. -/
def waits (log : List Event) : List Duration :=
  log.filterMap fun e => match e with
    | Event.wait d => some d
    | _ => none

/-- The attempts and breaker reports of a call, in order, without the waits. -/
def calls (log : List Event) : List Event :=
  log.filter fun e => match e with
    | Event.wait _ => false
    | _ => true

/-- The outcomes after which the loop goes on: an error of `postWithTrace`, a
status of 429, a status from 500 to 599. -/
def retryable (o : Except String Response) : Bool :=
  match o with
  | Except.error _ => true
  | Except.ok resp =>
    decide (resp.StatusCode = 429 ∨ (resp.StatusCode ≥ 500 ∧ resp.StatusCode < 600))

/-- The value `lastErr` takes after an attempt with a retryable outcome. -/
def attemptError (o : Except String Response) : Error :=
  match o with
  | Except.error e => Error.transport e
  | Except.ok resp => Error.httpStatusError resp.StatusCode

/-- A world for examples: attempt `n` returns status `codes n`, no wait is
cancelled, and the clock reads `100 + n` at the report after attempt `n`. -/
def statusWorld (codes : Nat → Int) : World :=
  { allowNow := 100
    post := fun n => Except.ok { StatusCode := codes n, Body := "" }
    done := fun _ => false
    ctxErr := ContextError.Canceled
    failNow := fun n => 100 + n }

/-- The environment in which none of the five variables is set. -/
def unsetEnv : ClientEnv :=
  { PIPELINE_MAX_RETRIES := none
    PIPELINE_RETRY_BACKOFF_MS := none
    PIPELINE_CIRCUIT_FAILURE_THRESHOLD := none
    PIPELINE_CIRCUIT_WINDOW_SEC := none
    PIPELINE_CIRCUIT_COOLDOWN_SEC := none }

/-- A world for examples: every attempt returns status 503, and the context
is cancelled during the wait that precedes attempt `k`. -/
def cancelWorld (k : Nat) : World :=
  { statusWorld (fun _ => 503) with done := fun n => decide (n = k) }

/-- The breaker reports and attempts of `m` consecutive attempts that all end
in a retryable outcome, starting at attempt `a` with `backoff = b`. -/
def retryLog : Nat → Nat → Duration → List Event
  | 0, _, _ => []
  | m + 1, a, b =>
    ((if a > 0 then [Event.wait b] else []) ++ [Event.attempt a, Event.failure])
      ++ retryLog m (a + 1) (if a > 0 then nextBackoff b else b)

/-- The value of `backoff` after `m` iterations that start at attempt `a`
with `backoff = b`. -/
def backoffAfter : Nat → Nat → Duration → Duration
  | 0, _, b => b
  | m + 1, a, b => backoffAfter m (a + 1) (if a > 0 then nextBackoff b else b)

/-! ## handlers.go -/

/-- A value of Go type `interface{}` as `encoding/json` decodes it: `nil`, a
`bool`, a `float64` (never inspected by this code, kept by an integer code), a
`string` (valid UTF-8 text), a `[]interface{}` or a `map[string]interface{}`. -/
inductive JSON where
  | null
  | bool (b : Bool)
  | number (x : Int)
  | string (s : String)
  | array (xs : List JSON)
  | object (kvs : List (String × JSON))

/-- A `map[string]interface{}`, as the list of its entries. The nil map is the
empty list: this code only reads maps, and a read of the nil map returns what
a read of the empty map returns. -/
abbrev Object := List (String × JSON)

/-- The index expression `m[key]`: `nil` for a key that is absent. -/
def Object.get (m : Object) (key : String) : JSON :=
  match m.lookup key with
  | some v => v
  | none => JSON.null

def JSON.isNil : JSON → Bool
  | JSON.null => true
  | _ => false

/-- The type assertion `v.(string)`: `none` when it does not hold. -/
def JSON.asString : JSON → Option String
  | JSON.string s => some s
  | _ => none

/-- The type assertion `v.(map[string]interface{})`. -/
def JSON.asObject : JSON → Option (List (String × JSON))
  | JSON.object m => some m
  | _ => none

/-- The type assertion `v.([]interface{})`. -/
def JSON.asArray : JSON → Option (List JSON)
  | JSON.array xs => some xs
  | _ => none

/-- A Go `string` that the code computes by slicing: a sequence of bytes,
which need not be valid UTF-8. -/
abbrev GoString := List UInt8

/-- The bytes of a text. -/
def utf8 (s : String) : GoString := s.toUTF8.data.toList

def normalizeIncomingFromRequest (raw : Object) : Object :=
  match (raw.get "payload").asObject with
  | some p => p
  | none =>
    if (raw.get "type").isNil = false ∧ (raw.get "data").isNil = false then
      let metadata := if (raw.get "metadata").isNil then JSON.object [] else raw.get "metadata"
      [("type", raw.get "type"), ("data", raw.get "data"), ("metadata", metadata)]
    else
      match (raw.get "text").asString with
      | some t =>
        [("type", JSON.string "text"), ("data", JSON.string t), ("metadata", JSON.object [])]
      | none =>
        [("type", JSON.string "text"), ("data", JSON.string ""), ("metadata", JSON.object [])]

def normalizeIncoming (data : Object) : Object :=
  match (data.get "payload").asObject with
  | some p => p
  | none =>
    let t : String := match (data.get "type").asString with
      | some v => v
      | none => "text"
    let d : String := match (data.get "data").asString with
      | some v => v
      | none => ""
    let d : String :=
      if d = "" then
        let d₁ : String := match (data.get "text").asString with
          | some v => v
          | none => d
        match (data.get "result").asString with
        | some v => if d₁ = "" then v else d₁
        | none => d₁
      else d
    let metadata := if (data.get "metadata").isNil then JSON.object [] else data.get "metadata"
    [("type", JSON.string t), ("data", JSON.string d), ("metadata", metadata)]

def bodyForService (payload : Object) (steps : List JSON) : Object :=
  let t : String := match (payload.get "type").asString with
    | some v => v
    | none => ""
  let text : String :=
    if t = "text" then
      match (payload.get "data").asString with
      | some v => v
      | none => ""
    else ""
  [("payload", JSON.object payload), ("steps", JSON.array steps), ("text", JSON.string text)]

/-- The call `previewPayload(payload)`. The nil check of the source returns the
empty string, which is also what the body returns for the empty map. -/
def previewPayload (payload : Object) : GoString :=
  let t : String := match (payload.get "type").asString with
    | some v => v
    | none => ""
  let t : String := if t = "" then "text" else t
  let d : String := match (payload.get "data").asString with
    | some v => v
    | none => ""
  if t = "image" ∨ t = "video" ∨ t = "binary" then
    utf8 ("[" ++ t ++ "] " ++ toString (utf8 d).length ++ " chars")
  else if (utf8 d).length ≤ 80 then utf8 d
  else (utf8 d).take 80 ++ utf8 "…"

def getStr (m : Object) (key : String) (d : GoString) : GoString :=
  match (m.get key).asString with
  | some v => utf8 v
  | none => d

/-- The method `Error()` of the errors the executor returns. -/
def Error.Error : Error → String
  | Error.circuitOpenError => "service unavailable (circuit open)"
  | Error.httpStatusError status => "HTTP " ++ toString status
  | Error.transport msg => msg
  | Error.context ContextError.Canceled => "context canceled"
  | Error.context ContextError.DeadlineExceeded => "context deadline exceeded"

/-- What surrounds the handlers. `env` holds the variables `clientConfig` is
loaded from; `services` is what `PipelineNamesURLs()` returns, pairs of a name
and a base URL; `world i body` is the surroundings of the executor call made
for stage `i` (counted from 0) with request body `body`; `Decode` is
`json.NewDecoder(_).Decode` into a `map[string]interface{}`, from the bytes of
a body to the decoded map or the message of the error. -/
structure Deployment where
  env : ClientEnv
  services : List (String × String)
  world : Nat → Object → World
  Decode : String → Except String Object

/-- What one run of the pipeline leaves: the map `runPipeline` returns, the
breaker after the run, and what the executor returned for each stage it was
called for, in order. -/
structure Run where
  out : Object
  cb : CircuitBreaker
  posts : List Result

/-- The map literal of the three `return` statements of `runPipeline`. -/
def pipelineResult (payload : Object) (steps : List JSON) (stored : Bool) : Object :=
  [("payload", JSON.object payload), ("steps", JSON.array steps),
    ("result", payload.get "data"), ("stored", JSON.bool stored)]

/-- The `for` loop of `runPipeline` over the services left, with the loop
variables `payload` and `steps`, the index of the next stage and the breaker.
The result is `none` when the run dereferences a nil response. A failed
`Decode`, whose error the source drops, leaves `data` the nil map. -/
def runLoop (g : Deployment) :
    List (String × String) → Nat → Object → List JSON → CircuitBreaker → Option Run
  | [], _, payload, steps, cb =>
    some { out := pipelineResult payload steps true, cb := cb, posts := [] }
  | (_, baseURL) :: rest, i, payload, steps, cb =>
    let body := bodyForService payload steps
    let r := PostWithRetryAndCircuit (loadClientConfig g.env) (g.world i body) cb baseURL
    match r.err with
    | some _ => some { out := pipelineResult payload steps false, cb := r.cb, posts := [r] }
    | none =>
      match r.resp with
      | none => none
      | some resp =>
        if resp.StatusCode ≠ 200 then
          some { out := pipelineResult payload steps false, cb := r.cb, posts := [r] }
        else
          let data : Object := match g.Decode resp.Body with
            | Except.ok m => m
            | Except.error _ => []
          let payload := normalizeIncoming data
          let steps := match (data.get "steps").asArray with
            | some s => s
            | none => steps
          (runLoop g rest (i + 1) payload steps r.cb).map fun run =>
            { run with posts := r :: run.posts }

def runPipeline (g : Deployment) (initial : Object) (cb : CircuitBreaker) : Option Run :=
  runLoop g g.services 0 initial [] cb

def parseProcessBody (g : Deployment) (body : String) : Except String Object :=
  match g.Decode body with
  | Except.error e => Except.error e
  | Except.ok raw => Except.ok (normalizeIncomingFromRequest raw)

/-- A reply written with `replyJSON`: the status code and the map encoded. -/
structure Reply where
  status : Nat
  body : Object

/-- The handler `processJSON` on a request with the given body, for the trace
identifier of its span: the reply, and the run behind it when there is one. -/
def processJSON (g : Deployment) (traceID : String) (body : String) (cb : CircuitBreaker) :
    Option (Reply × Option Run) :=
  match parseProcessBody g body with
  | Except.error e => some ({ status := 400, body := [("detail", JSON.string e)] }, none)
  | Except.ok payload =>
    (runPipeline g payload cb).map fun result =>
      ({ status := 200,
         body := [("trace_id", JSON.string traceID), ("result", result.out.get "result"),
           ("stored", JSON.bool true), ("steps", result.out.get "steps"),
           ("payload", result.out.get "payload")] }, some result)

/-- One call of `send`: the event name with the fields of its data. The
string fields of a `step` event are computed strings, kept as bytes. -/
inductive SSE where
  | started (trace_id : String) (payload : Object)
  | step (service : String) (input output status payload_type : GoString)
  | error (service : String) (error : String)
  | done (trace_id : String) (result : JSON) (steps : List JSON) (payload : Object)

/-- What one streaming request leaves: the status code, the body of a reply
written with `replyJSON` (empty when the events were streamed), the events
sent, the breaker, and what the executor returned for each stage called. -/
structure Stream where
  status : Nat
  reply : Object
  events : List SSE
  cb : CircuitBreaker
  posts : List Result

/-- The `for` loop of `processStream` and what follows it. -/
def streamLoop (g : Deployment) (traceID : String) :
    List (String × String) → Nat → Object → List JSON → CircuitBreaker → Option Stream
  | [], _, current, steps, cb =>
    some { status := 200, reply := [],
           events := [SSE.done traceID (current.get "data") steps current],
           cb := cb, posts := [] }
  | (name, baseURL) :: rest, i, current, steps, cb =>
    let body := bodyForService current steps
    let r := PostWithRetryAndCircuit (loadClientConfig g.env) (g.world i body) cb baseURL
    match r.err with
    | some err =>
      some { status := 200, reply := [], events := [SSE.error name err.Error],
             cb := r.cb, posts := [r] }
    | none =>
      match r.resp with
      | none => none
      | some resp =>
        if resp.StatusCode ≠ 200 then
          some { status := 200, reply := [], events := [SSE.error name resp.Body],
                 cb := r.cb, posts := [r] }
        else
          match g.Decode resp.Body with
          | Except.error e =>
            some { status := 200, reply := [], events := [SSE.error name e],
                   cb := r.cb, posts := [r] }
          | Except.ok data =>
            let current := normalizeIncoming data
            let steps := match (data.get "steps").asArray with
              | some s => s
              | none => steps
            let lastStep : Object := match steps.getLast? with
              | some v =>
                match v.asObject with
                | some m => m
                | none => []
              | none => []
            let preview := previewPayload current
            let ev := SSE.step name (getStr lastStep "input" preview)
              (getStr lastStep "output" preview) (getStr lastStep "status" (utf8 "ok"))
              (getStr current "type" (utf8 "text"))
            (streamLoop g traceID rest (i + 1) current steps r.cb).map fun s =>
              { s with events := ev :: s.events, posts := r :: s.posts }

def processStream (g : Deployment) (traceID : String) (body : String) (cb : CircuitBreaker) :
    Option Stream :=
  match parseProcessBody g body with
  | Except.error e =>
    some { status := 400, reply := [("detail", JSON.string e)], events := [],
           cb := cb, posts := [] }
  | Except.ok payload =>
    (streamLoop g traceID g.services 0 payload [] cb).map fun s =>
      { s with events := SSE.started traceID payload :: s.events }

/-- The first non-empty string among the given values, and the empty string
when there is none. -/
def firstNonEmptyString : List JSON → String
  | [] => ""
  | v :: vs =>
    match v.asString with
    | some s => if s = "" then firstNonEmptyString vs else s
    | none => firstNonEmptyString vs

/-- The executor call `runPipeline` and `processStream` make for stage `i`
when the loop variables are `payload` and `steps`. -/
def stageCall (g : Deployment) (i : Nat) (payload : Object) (steps : List JSON)
    (cb : CircuitBreaker) (baseURL : String) : Result :=
  PostWithRetryAndCircuit (loadClientConfig g.env) (g.world i (bodyForService payload steps))
    cb baseURL

/-- The value of `data` after `runPipeline` has decoded a body: the decoded
map, or the nil map when decoding fails. -/
def decodedOrNil (g : Deployment) (body : String) : Object :=
  match g.Decode body with
  | Except.ok m => m
  | Except.error _ => []

/-- The step history after a stage response `data`: its `steps` array when
it supplies one, the history so far when not. -/
def adoptSteps (data : Object) (steps : List JSON) : List JSON :=
  match (data.get "steps").asArray with
  | some s => s
  | none => steps

/-- The executor returned a response with status 200 and no error. -/
def Result.ok200 (r : Result) : Prop :=
  r.err = none ∧ ∃ resp, r.resp = some resp ∧ resp.StatusCode = 200

/-- A world for examples: every attempt returns the given status and body, no
wait is cancelled. -/
def replyWorld (code : Int) (body : String) : World :=
  { allowNow := 100
    post := fun _ => Except.ok { StatusCode := code, Body := body }
    done := fun _ => false
    ctxErr := ContextError.Canceled
    failNow := fun n => 100 + n }

/-- The value of `data` after `runPipeline` has decoded the response of a
stage call. -/
def respData (g : Deployment) (r : Result) : Object :=
  match r.resp with
  | some resp => decodedOrNil g resp.Body
  | none => []

/-- The normalized response of the last of the stage calls `posts`, and
`payload` when there is none. -/
def payloadAfter (g : Deployment) (payload : Object) (posts : List Result) : Object :=
  match posts.getLast? with
  | none => payload
  | some r => normalizeIncoming (respData g r)

/-- The `steps` array of the last response, among those of the stage calls
`posts`, that supplies one, and `steps` when none does. -/
def stepsAfter (g : Deployment) (steps : List JSON) (posts : List Result) : List JSON :=
  match (posts.filterMap fun r => ((respData g r).get "steps").asArray).getLast? with
  | none => steps
  | some s => s

/-- A decoder for examples, which knows three bodies: `hello` is a response
with the one field `text`; `full` is a response with a payload envelope and a
step history of one entry; `long` is a response whose history ends in an entry
with an `input` of 400 characters. Every other body fails to decode. -/
def sampleDecode (body : String) : Except String Object :=
  if body = "hello" then
    Except.ok [("text", JSON.string "hello")]
  else if body = "full" then
    Except.ok
      [("payload", JSON.object [("type", JSON.string "text"), ("data", JSON.string "HELLO"),
          ("metadata", JSON.object [])]),
       ("steps", JSON.array [JSON.object [("service", JSON.string "upper"),
          ("input", JSON.string "hello"), ("output", JSON.string "HELLO"),
          ("status", JSON.string "ok")]])]
  else if body = "long" then
    Except.ok
      [("text", JSON.string "x"),
       ("steps", JSON.array [JSON.object
          [("input", JSON.string (String.mk (List.replicate 400 'a')))]])]
  else
    Except.error "invalid character"

/-- A deployment for examples: stage `i` is named `s` followed by `i`, and
every attempt on it returns the status and body in position `i` of `replies`. -/
def sampleDeployment (replies : List (Int × String)) : Deployment :=
  { env := unsetEnv
    services := (List.range replies.length).map fun i =>
      ("s" ++ toString i, "http://s" ++ toString i)
    world := fun i _ =>
      match replies[i]? with
      | some (code, body) => replyWorld code body
      | none => replyWorld 500 ""
    Decode := sampleDecode }

/-- The breaker of the examples. -/
def sampleBreaker : CircuitBreaker := NewCircuitBreaker 5 (30 * Second) (30 * Second)

/-- The value of `lastStep` in `processStream`: the last entry of the history
when that is a map, the empty map otherwise. -/
def lastStepOf (steps : List JSON) : Object :=
  match steps.getLast? with
  | some v =>
    match v.asObject with
    | some m => m
    | none => []
  | none => []

/-- The `step` event `processStream` sends after a stage named `name`, when the
loop variables are `current` and `steps`. -/
def stepEvent (name : String) (current : Object) (steps : List JSON) : SSE :=
  SSE.step name (getStr (lastStepOf steps) "input" (previewPayload current))
    (getStr (lastStepOf steps) "output" (previewPayload current))
    (getStr (lastStepOf steps) "status" (utf8 "ok"))
    (getStr current "type" (utf8 "text"))

/-- The event name passed to `send`. -/
def SSE.name : SSE → String
  | SSE.started _ _ => "started"
  | SSE.step _ _ _ _ _ => "step"
  | SSE.error _ _ => "error"
  | SSE.done _ _ _ _ => "done"

/-- The `service` field of an event that has one. -/
def SSE.service? : SSE → Option String
  | SSE.step service _ _ _ _ => some service
  | SSE.error service _ => some service
  | _ => none

/-- A stage completed in `processStream`: the executor returned no error and a
response with status 200 whose body decodes. -/
def streamOk (g : Deployment) (r : Result) : Prop :=
  r.err = none ∧ ∃ resp, r.resp = some resp ∧ resp.StatusCode = 200 ∧
    ∃ data, g.Decode resp.Body = Except.ok data

/-- The preview policy as the specification words it, on characters: a text
of at most 80 characters, followed by at most one ellipsis marker; or a
bracketed type tag with a length. -/
def statedPreviewPolicy (x : GoString) : Prop :=
  (∃ t : String, t.length ≤ 80 ∧ (x = utf8 t ∨ x = utf8 t ++ utf8 "…")) ∨
  (∃ (t : String) (n : Nat), x = utf8 ("[" ++ t ++ "] " ++ toString n ++ " chars"))

/-- The value of `t` in `previewPayload` after its default has been applied:
the payload's `type` when that is a non-empty string, and `"text"` otherwise. -/
def previewType (payload : Object) : String :=
  let t : String := match (payload.get "type").asString with
    | some v => v
    | none => ""
  if t = "" then "text" else t

/-- The value of `d` in `previewPayload`: the payload's `data` when that is a
string, and the empty string otherwise. -/
def previewData (payload : Object) : String :=
  match (payload.get "data").asString with
  | some v => v
  | none => ""

/-- The preview of a text as the specification words it, on characters: the
text itself when it has at most 80 characters, and otherwise its first 80
characters followed by the ellipsis marker. -/
def statedTextPreview (d : String) : GoString :=
  if d.length ≤ 80 then utf8 d
  else utf8 (String.mk (d.data.take 80)) ++ utf8 "…"

/-- One call of a method of the breaker, with the clock reading of the call
where the method reads the clock. -/
inductive BreakerCall where
  | allow (now : Time) (key : String)
  | success (key : String)
  | failure (now : Time) (key : String)
  deriving DecidableEq, Repr

/-- The breaker after one call. -/
def CircuitBreaker.call (cb : CircuitBreaker) : BreakerCall → CircuitBreaker
  | BreakerCall.allow now key => (cb.Allow now key).2
  | BreakerCall.success key => cb.Success key
  | BreakerCall.failure now key => cb.Failure now key

/-- The breaker after a sequence of calls, made in order. -/
def CircuitBreaker.calls (cb : CircuitBreaker) : List BreakerCall → CircuitBreaker
  | [] => cb
  | op :: ops => (cb.call op).calls ops

/-- What the reset test of `Failure` leaves between a failure recorded at `a`
and the next one, at `b`, when it does not reset the count: `a` is the zero
time, or `b.Sub(a)` is at most the window. -/
def withinWindow (window : Duration) (a b : Time) : Prop :=
  a = 0 ∨ Time.Sub b a ≤ window

instance (window : Duration) (a b : Time) : Decidable (withinWindow window a b) := by
  unfold withinWindow
  infer_instance

/-- The failure times recorded for `key` after one more call: a `Failure` for
the key adds its clock reading, a `Success` for the key empties the list, every
other call leaves it. -/
def recentFailuresStep (key : String) (acc : List Time) : BreakerCall → List Time
  | BreakerCall.allow _ _ => acc
  | BreakerCall.success k => if k = key then [] else acc
  | BreakerCall.failure now k => if k = key then acc ++ [now] else acc

/-- The times of the failures recorded for `key` by the calls `ops`, in order,
since the last `Success` for that key. -/
def recentFailures (key : String) (ops : List BreakerCall) : List Time :=
  ops.foldl (recentFailuresStep key) []

/-- The count of a record follows the failure times `acc`: it is not negative
and not more than their number, the last of them is the record's
`lastFailure`, and the last `failures` of them each lie within the window of
the one before. -/
def countFollows (window : Duration) (c : circuit) (acc : List Time) : Prop :=
  0 ≤ c.failures ∧ c.failures.toNat ≤ acc.length ∧
  (1 ≤ c.failures → acc.getLast? = some c.lastFailure) ∧
  List.Chain' (withinWindow window) (acc.drop (acc.length - c.failures.toNat))

/-- A world for examples, one second per attempt: the call starts at second
1, every attempt returns status 503, the failure of attempt `n` is recorded at
second `n + 2`, and no wait is cancelled. -/
def outageWorld : World :=
  { allowNow := 1 * Second
    post := fun _ => Except.ok { StatusCode := 503, Body := "" }
    done := fun _ => false
    ctxErr := ContextError.Canceled
    failNow := fun n => (n + 2) * Second }

/-! ## Properties of the circuit breaker -/

section Breaker

@[simp] theorem store_byKey_self (cb : CircuitBreaker) (key : String) (c : circuit) :
    (cb.store key c).byKey key = some c := by
  simp [CircuitBreaker.store]

theorem store_byKey_other (cb : CircuitBreaker) (key k : String) (c : circuit)
    (h : k ≠ key) : (cb.store key c).byKey k = cb.byKey k := by
  simp [CircuitBreaker.store, h]

@[simp] theorem store_threshold (cb : CircuitBreaker) (key : String) (c : circuit) :
    (cb.store key c).threshold = cb.threshold := rfl

@[simp] theorem store_window (cb : CircuitBreaker) (key : String) (c : circuit) :
    (cb.store key c).window = cb.window := rfl

@[simp] theorem store_cooldown (cb : CircuitBreaker) (key : String) (c : circuit) :
    (cb.store key c).cooldown = cb.cooldown := rfl

/-- Within the range of a duration, `Time.Sub` is plain subtraction. -/
theorem Sub_eq_sub (t u : Time) (hlo : minDuration ≤ t - u) (hhi : t - u ≤ maxDuration) :
    Time.Sub t u = t - u := by
  unfold Time.Sub
  rw [if_neg (not_lt.mpr hhi), if_neg (not_lt.mpr hlo)]

/-- What `Allow` answers on a record, as a function of the record alone. -/
theorem Allow_fst_of_some (cb : CircuitBreaker) (now : Time) (key : String) (c : circuit)
    (h : cb.byKey key = some c) :
    (cb.Allow now key).1 =
      !(decide (c.state = stateOpen) && decide (Time.Sub now c.lastFailure < cb.cooldown)) := by
  unfold CircuitBreaker.Allow
  rw [h]
  rcases c with ⟨st, f, lf, lt⟩
  cases st <;> simp
  by_cases hc : cb.cooldown ≤ Time.Sub now lf
  · simp [hc]
  · simp [hc]; exact lt_of_not_le hc

/-- C2. `Allow(key)` at clock reading `now` answers false exactly when the key
has a record in state Open with `now.Sub(lastFailure) < cooldown`, and true
otherwise. When the record is Open with `now.Sub(lastFailure) >= cooldown` the
record becomes HalfOpen with `lastTry = now`, its `failures` and `lastFailure`
kept, and nothing else changes. In every other case (no record, Closed,
HalfOpen, Open still cooling) the breaker is returned unchanged, and no call
creates a record. -/
theorem Allow_spec (cb : CircuitBreaker) (key : String) (now : Time) :
    ((cb.Allow now key).1 = false ↔
        ∃ c, cb.byKey key = some c ∧ c.state = stateOpen
          ∧ Time.Sub now c.lastFailure < cb.cooldown) ∧
    ((cb.Allow now key).1 = true ↔
        ¬ ∃ c, cb.byKey key = some c ∧ c.state = stateOpen
          ∧ Time.Sub now c.lastFailure < cb.cooldown) ∧
    (∀ c, cb.byKey key = some c → c.state = stateOpen →
        Time.Sub now c.lastFailure ≥ cb.cooldown →
        (cb.Allow now key).2 = cb.store key
          { state := stateHalfOpen, failures := c.failures,
            lastFailure := c.lastFailure, lastTry := now }) ∧
    ((¬ ∃ c, cb.byKey key = some c ∧ c.state = stateOpen
          ∧ Time.Sub now c.lastFailure ≥ cb.cooldown) →
        (cb.Allow now key).2 = cb) ∧
    (∀ k, cb.byKey k = none → (cb.Allow now key).2.byKey k = none) := by
  cases h : cb.byKey key with
  | none =>
    have hA : cb.Allow now key = (true, cb) := by
      unfold CircuitBreaker.Allow; rw [h]
    refine ⟨?_, ?_, ?_, ?_, ?_⟩ <;> simp [hA]
  | some c =>
    rcases c with ⟨st, f, lf, lt⟩
    cases st
    · have hA : cb.Allow now key = (true, cb) := by
        unfold CircuitBreaker.Allow; rw [h]
      refine ⟨?_, ?_, ?_, ?_, ?_⟩ <;> simp [hA]
    · by_cases hc : Time.Sub now lf ≥ cb.cooldown
      · have hA : cb.Allow now key
            = (true, cb.store key ⟨stateHalfOpen, f, lf, now⟩) := by
          unfold CircuitBreaker.Allow; rw [h]; simp only [if_pos hc]
        refine ⟨?_, ?_, ?_, ?_, ?_⟩
        · simp [hA]; exact hc
        · simp [hA]; exact hc
        · intro c hc' _ _
          cases hc'
          simp [hA]
        · intro hne
          exact absurd ⟨_, rfl, rfl, hc⟩ hne
        · intro k hk
          have hkk : k ≠ key := by
            intro e; rw [e, h] at hk; cases hk
          rw [hA]
          simpa [store_byKey_other _ _ _ _ hkk] using hk
      · have hA : cb.Allow now key = (false, cb) := by
          unfold CircuitBreaker.Allow; rw [h]; simp only [if_neg hc]
        refine ⟨?_, ?_, ?_, ?_, ?_⟩
        · simp [hA]; exact lt_of_not_le hc
        · simp [hA]; exact lt_of_not_le hc
        · intro c hc' _ hge
          cases hc'
          exact absurd hge hc
        · intro _; rw [hA]
        · intro k hk; rw [hA]; exact hk
    · have hA : cb.Allow now key = (true, cb) := by
        unfold CircuitBreaker.Allow; rw [h]
      refine ⟨?_, ?_, ?_, ?_, ?_⟩ <;> simp [hA]

theorem Allow_spec_witness :
    (((NewCircuitBreaker 5 10 30).store "svc" ⟨stateOpen, 5, 100, 100⟩).Allow 129 "svc").1
      = false ∧
    (((NewCircuitBreaker 5 10 30).store "svc" ⟨stateOpen, 5, 100, 100⟩).Allow 130 "svc").2
      = ((NewCircuitBreaker 5 10 30).store "svc" ⟨stateOpen, 5, 100, 100⟩).store "svc"
          ⟨stateHalfOpen, 5, 100, 130⟩ :=
  ⟨(Allow_spec ((NewCircuitBreaker 5 10 30).store "svc" ⟨stateOpen, 5, 100, 100⟩) "svc"
      129).1.mpr ⟨_, store_byKey_self _ _ _, rfl, by decide⟩,
    (Allow_spec ((NewCircuitBreaker 5 10 30).store "svc" ⟨stateOpen, 5, 100, 100⟩) "svc"
      130).2.2.1 _ (store_byKey_self _ _ _) rfl (by decide)⟩

/-- C5. `Success(key)` on a key with a record, whatever its state, leaves that
record Closed with a failure count of 0 and with `lastFailure` and `lastTry`
as they were, and touches nothing else; on a key without a record it returns
the breaker unchanged, so no record is created. -/
theorem Success_spec (cb : CircuitBreaker) (key : String) :
    (∀ c, cb.byKey key = some c →
        cb.Success key = cb.store key
          { state := stateClosed, failures := 0,
            lastFailure := c.lastFailure, lastTry := c.lastTry }) ∧
    (cb.byKey key = none → cb.Success key = cb) ∧
    (∀ k, cb.byKey k = none → (cb.Success key).byKey k = none) := by
  refine ⟨?_, ?_, ?_⟩
  · intro c h
    unfold CircuitBreaker.Success
    rw [h]
  · intro h
    unfold CircuitBreaker.Success
    rw [h]
  · intro k hk
    unfold CircuitBreaker.Success
    cases h : cb.byKey key with
    | none => exact hk
    | some c =>
      have hkk : k ≠ key := by
        intro e; rw [e, h] at hk; cases hk
      simpa [store_byKey_other _ _ _ _ hkk] using hk

theorem Success_spec_witness :
    ((NewCircuitBreaker 5 10 30).store "svc" ⟨stateHalfOpen, 5, 100, 130⟩).Success "svc"
      = ((NewCircuitBreaker 5 10 30).store "svc" ⟨stateHalfOpen, 5, 100, 130⟩).store "svc"
          ⟨stateClosed, 0, 100, 130⟩ ∧
    (NewCircuitBreaker 5 10 30).Success "svc" = NewCircuitBreaker 5 10 30 :=
  ⟨(Success_spec ((NewCircuitBreaker 5 10 30).store "svc" ⟨stateHalfOpen, 5, 100, 130⟩)
      "svc").1 _ (store_byKey_self _ _ _),
    (Success_spec (NewCircuitBreaker 5 10 30) "svc").2.1 rfl⟩

/-- The record `Failure` leaves for a key that was HalfOpen. -/
theorem Failure_of_halfOpen (cb : CircuitBreaker) (key : String) (c : circuit) (t : Time)
    (h : cb.byKey key = some c) (hs : c.state = stateHalfOpen) :
    cb.Failure t key = cb.store key
      { state := stateOpen, failures := cb.threshold, lastFailure := t, lastTry := t } := by
  unfold CircuitBreaker.Failure
  simp [h, hs]

/-- The record `Failure` leaves for a key that had none. -/
theorem Failure_of_none (cb : CircuitBreaker) (key : String) (t : Time)
    (h : cb.byKey key = none) :
    cb.Failure t key = cb.store key
      { state := if (1 : Int) ≥ cb.threshold then stateOpen else stateClosed,
        failures := 1, lastFailure := t, lastTry := t } := by
  unfold CircuitBreaker.Failure
  simp only [h, circuit.fresh, Time.IsZero]
  by_cases hthr : (1 : Int) ≥ cb.threshold <;> simp [hthr]

/-- The record `Failure` leaves for a Closed key whose count is not reset. -/
theorem Failure_of_closed_keep (cb : CircuitBreaker) (key : String) (c : circuit) (t : Time)
    (h : cb.byKey key = some c) (hs : c.state = stateClosed)
    (hk : c.lastFailure = 0 ∨ Time.Sub t c.lastFailure ≤ cb.window) :
    cb.Failure t key = cb.store key
      { state := if c.failures + 1 ≥ cb.threshold then stateOpen else stateClosed,
        failures := c.failures + 1, lastFailure := t, lastTry := t } := by
  have hno : ¬ (c.lastFailure.IsZero = false ∧ Time.Sub t c.lastFailure > cb.window) := by
    rintro ⟨hz, hw⟩
    rcases hk with hk | hk
    · simp [Time.IsZero, hk] at hz
    · exact absurd hw (not_lt.mpr hk)
  unfold CircuitBreaker.Failure
  simp only [h, hs, true_and, if_neg hno]
  by_cases hthr : c.failures + 1 ≥ cb.threshold <;> simp [hthr, hs]

/-- The record `Failure` leaves for a Closed key whose count is reset. -/
theorem Failure_of_closed_reset (cb : CircuitBreaker) (key : String) (c : circuit) (t : Time)
    (h : cb.byKey key = some c) (hs : c.state = stateClosed)
    (hz : c.lastFailure ≠ 0) (hw : Time.Sub t c.lastFailure > cb.window) :
    cb.Failure t key = cb.store key
      { state := if (1 : Int) ≥ cb.threshold then stateOpen else stateClosed,
        failures := 1, lastFailure := t, lastTry := t } := by
  have hyes : c.lastFailure.IsZero = false ∧ Time.Sub t c.lastFailure > cb.window := by
    refine ⟨?_, hw⟩
    simp [Time.IsZero, hz]
  unfold CircuitBreaker.Failure
  simp only [h, hs, true_and, if_pos hyes]
  by_cases hthr : (1 : Int) ≥ cb.threshold <;> simp [hthr, hs]

theorem Failure_config (cb : CircuitBreaker) (t : Time) (key : String) :
    (cb.Failure t key).threshold = cb.threshold ∧ (cb.Failure t key).window = cb.window
      ∧ (cb.Failure t key).cooldown = cb.cooldown := by
  unfold CircuitBreaker.Failure
  dsimp only
  split_ifs <;> exact ⟨rfl, rfl, rfl⟩

/-- A run of failures on a Closed record, each within the window of the one
before, adds one to the count per failure and keeps the record Closed until
the count reaches the threshold. -/
theorem Failures_accumulate (key : String) :
    ∀ (ts : List Time) (cb : CircuitBreaker) (c : circuit),
      cb.byKey key = some c → c.state = stateClosed →
      List.Chain (fun a b => Time.Sub b a ≤ cb.window) c.lastFailure ts →
      c.failures + (ts.length : Int) ≤ cb.threshold → c.failures < cb.threshold →
      ∃ r, (cb.Failures key ts).byKey key = some r ∧
        (cb.Failures key ts).cooldown = cb.cooldown ∧
        r.failures = c.failures + (ts.length : Int) ∧
        (r.state = if r.failures ≥ cb.threshold then stateOpen else stateClosed) ∧
        (∀ tl, (c.lastFailure :: ts).getLast? = some tl → r.lastFailure = tl) := by
  intro ts
  induction ts with
  | nil =>
    intro cb c h hs _ _ hlt
    refine ⟨c, h, rfl, by simp, ?_, ?_⟩
    · rw [if_neg (not_le.mpr hlt)]; exact hs
    · intro tl htl
      simp at htl
      exact htl
  | cons t ts ih =>
    intro cb c h hs hch hle hlt
    rw [List.chain_cons] at hch
    obtain ⟨hgap, hch⟩ := hch
    have hF := Failure_of_closed_keep cb key c t h hs (Or.inr hgap)
    simp only [List.length_cons, Nat.cast_add, Nat.cast_one] at hle
    have hstep : cb.Failures key (t :: ts) = (cb.Failure t key).Failures key ts := rfl
    rw [hstep, hF]
    by_cases hthr : c.failures + 1 ≥ cb.threshold
    · have hnil : ts = [] := by
        have h0 : (ts.length : Int) = 0 := by
          have := Int.ofNat_nonneg ts.length
          dsimp only [Duration] at *
          omega
        exact List.length_eq_zero.mp (by exact_mod_cast h0)
      subst hnil
      refine ⟨_, store_byKey_self _ _ _, rfl, by simp, ?_, ?_⟩
      · simp
      · intro tl htl
        simp at htl
        exact htl
    · rw [if_neg hthr]
      obtain ⟨r, hr, hcd, hf, hst, hl⟩ :=
        ih (cb.store key ⟨stateClosed, c.failures + 1, t, t⟩) ⟨stateClosed, c.failures + 1, t, t⟩
          (store_byKey_self _ _ _) rfl hch
          (by simp only [store_threshold]; omega)
          (by simp only [store_threshold]; omega)
      refine ⟨r, hr, hcd, ?_, hst, ?_⟩
      · rw [hf]; simp only [List.length_cons, Nat.cast_add, Nat.cast_one]; ring
      · intro tl htl
        apply hl
        simpa using htl

/-- C1. With a threshold of at least 1, start from a breaker in which `key`
has no record and call only `Failure(key)`, at clock readings `ts` whose
consecutive gaps (`Time.Sub` of a reading and the one before) are at most
`window`. While fewer than `threshold` failures have been recorded `Allow(key)`
answers true at every time. Once exactly `threshold` have been recorded, the
last at time `t`, `Allow(key)` answers false at every `t'` with
`t'.Sub(t) < cooldown` and true at every `t'` with `t'.Sub(t) >= cooldown`. -/
theorem Allow_after_failures (cb : CircuitBreaker) (key : String) (ts : List Time)
    (hthr : 1 ≤ cb.threshold) (hnone : cb.byKey key = none)
    (hgaps : List.Chain' (fun a b => Time.Sub b a ≤ cb.window) ts) :
    ((ts.length : Int) < cb.threshold →
        ∀ t', ((cb.Failures key ts).Allow t' key).1 = true) ∧
    ((ts.length : Int) = cb.threshold → ∀ t, ts.getLast? = some t →
        (∀ t', Time.Sub t' t < cb.cooldown →
            ((cb.Failures key ts).Allow t' key).1 = false) ∧
        (∀ t', Time.Sub t' t ≥ cb.cooldown →
            ((cb.Failures key ts).Allow t' key).1 = true)) := by
  cases ts with
  | nil =>
    refine ⟨?_, ?_⟩
    · intro _ t'
      show (cb.Allow t' key).1 = true
      unfold CircuitBreaker.Allow
      rw [hnone]
    · intro h0
      simp only [List.length_nil, Nat.cast_zero] at h0
      dsimp only [Duration] at *
      omega
  | cons t₀ ts =>
    have hstep : cb.Failures key (t₀ :: ts) = (cb.Failure t₀ key).Failures key ts := rfl
    rw [hstep, Failure_of_none cb key t₀ hnone]
    have hch : List.Chain (fun a b => Time.Sub b a ≤ cb.window) t₀ ts := hgaps
    have hlen : ((t₀ :: ts).length : Int) = 1 + (ts.length : Int) := by
      simp only [List.length_cons, Nat.cast_add, Nat.cast_one]; ring
    rw [hlen]
    by_cases h1 : (1 : Int) ≥ cb.threshold
    · -- the threshold is 1: the first failure opens the circuit
      rw [if_pos h1]
      have hnn := Int.ofNat_nonneg ts.length
      refine ⟨?_, ?_⟩
      · intro hlt
        dsimp only [Duration] at *
        omega
      · intro heq tl htl
        have hnil : ts = [] := by
          have h0 : (ts.length : Int) = 0 := by
            dsimp only [Duration] at *
            omega
          exact List.length_eq_zero.mp (by exact_mod_cast h0)
        subst hnil
        simp at htl
        subst htl
        refine ⟨?_, ?_⟩
        · intro t' hlt
          show ((cb.store key ⟨stateOpen, 1, t₀, t₀⟩).Allow t' key).1 = false
          rw [Allow_fst_of_some _ t' key _ (store_byKey_self _ _ _)]
          simpa using hlt
        · intro t' hge
          show ((cb.store key ⟨stateOpen, 1, t₀, t₀⟩).Allow t' key).1 = true
          rw [Allow_fst_of_some _ t' key _ (store_byKey_self _ _ _)]
          simpa using hge
    · -- the threshold exceeds 1: the first failure leaves a Closed record
      rw [if_neg h1]
      have hlt1 : (1 : Int) < cb.threshold := lt_of_not_le h1
      refine ⟨?_, ?_⟩
      · intro hlt t'
        obtain ⟨r, hr, _, hf, hst, _⟩ :=
          Failures_accumulate key ts (cb.store key ⟨stateClosed, 1, t₀, t₀⟩)
            ⟨stateClosed, 1, t₀, t₀⟩ (store_byKey_self _ _ _) rfl hch
            (le_of_lt hlt) hlt1
        have hcl : r.state = stateClosed := by
          rw [hst, if_neg]
          rw [hf]
          exact not_le.mpr hlt
        rw [Allow_fst_of_some _ t' key r hr, hcl]
        simp
      · intro heq tl htl
        obtain ⟨r, hr, hcd, hf, hst, hl⟩ :=
          Failures_accumulate key ts (cb.store key ⟨stateClosed, 1, t₀, t₀⟩)
            ⟨stateClosed, 1, t₀, t₀⟩ (store_byKey_self _ _ _) rfl hch
            (le_of_eq heq) hlt1
        have hop : r.state = stateOpen := by
          rw [hst, if_pos]
          rw [hf]
          exact le_of_eq heq.symm
        have hlf : r.lastFailure = tl := hl tl htl
        simp only [store_cooldown] at hcd
        refine ⟨?_, ?_⟩
        · intro t' hlt
          rw [Allow_fst_of_some _ t' key r hr, hop, hlf, hcd]
          simpa using hlt
        · intro t' hge
          rw [Allow_fst_of_some _ t' key r hr, hop, hlf, hcd]
          simpa using hge

theorem Allow_after_failures_witness :
    (1 : Int) ≤ (NewCircuitBreaker 2 10 30).threshold ∧
    (NewCircuitBreaker 2 10 30).byKey "svc" = none ∧
    List.Chain' (fun a b => Time.Sub b a ≤ (NewCircuitBreaker 2 10 30).window) [100, 105] ∧
    (((NewCircuitBreaker 2 10 30).Failures "svc" [100, 105]).Allow 134 "svc").1 = false ∧
    (((NewCircuitBreaker 2 10 30).Failures "svc" [100, 105]).Allow 135 "svc").1 = true :=
  ⟨by decide, rfl, List.chain'_pair.mpr (by decide),
    ((Allow_after_failures (NewCircuitBreaker 2 10 30) "svc" [100, 105]
        (by decide) rfl (List.chain'_pair.mpr (by decide))).2 rfl 105 rfl).1 134 (by decide),
    ((Allow_after_failures (NewCircuitBreaker 2 10 30) "svc" [100, 105]
        (by decide) rfl (List.chain'_pair.mpr (by decide))).2 rfl 105 rfl).2 135 (by decide)⟩

/-- C3. For a key whose record is HalfOpen, whatever its failure count,
`Failure(key)` at time `t` leaves the record Open with `lastFailure = t` and
`failures = threshold`; `Allow(key)` at a later reading `t'` then answers
false when `t'.Sub(t) < cooldown` and true when `t'.Sub(t) >= cooldown`, so the
cooldown runs from `t`. -/
theorem Failure_halfOpen_rearms (cb : CircuitBreaker) (key : String) (c : circuit)
    (t : Time) (h : cb.byKey key = some c) (hs : c.state = stateHalfOpen) :
    (cb.Failure t key).byKey key = some
        { state := stateOpen, failures := cb.threshold, lastFailure := t, lastTry := t } ∧
    (∀ t', Time.Sub t' t < cb.cooldown → ((cb.Failure t key).Allow t' key).1 = false) ∧
    (∀ t', Time.Sub t' t ≥ cb.cooldown → ((cb.Failure t key).Allow t' key).1 = true) := by
  rw [Failure_of_halfOpen cb key c t h hs]
  refine ⟨store_byKey_self _ _ _, ?_, ?_⟩
  · intro t' hlt
    rw [Allow_fst_of_some _ t' key _ (store_byKey_self _ _ _)]
    simpa using hlt
  · intro t' hge
    rw [Allow_fst_of_some _ t' key _ (store_byKey_self _ _ _)]
    simpa using hge

theorem Failure_halfOpen_rearms_witness :
    ((NewCircuitBreaker 5 10 30).store "svc" ⟨stateHalfOpen, 7, 100, 140⟩).byKey "svc"
        = some ⟨stateHalfOpen, 7, 100, 140⟩ ∧
    (⟨stateHalfOpen, 7, 100, 140⟩ : circuit).state = stateHalfOpen ∧
    ((((NewCircuitBreaker 5 10 30).store "svc" ⟨stateHalfOpen, 7, 100, 140⟩).Failure 150
        "svc").byKey "svc" = some ⟨stateOpen, 5, 150, 150⟩) ∧
    ((((NewCircuitBreaker 5 10 30).store "svc" ⟨stateHalfOpen, 7, 100, 140⟩).Failure 150
        "svc").Allow 179 "svc").1 = false ∧
    ((((NewCircuitBreaker 5 10 30).store "svc" ⟨stateHalfOpen, 7, 100, 140⟩).Failure 150
        "svc").Allow 180 "svc").1 = true :=
  ⟨rfl, rfl,
    (Failure_halfOpen_rearms ((NewCircuitBreaker 5 10 30).store "svc" ⟨stateHalfOpen, 7, 100, 140⟩)
      "svc" ⟨stateHalfOpen, 7, 100, 140⟩ 150 (store_byKey_self _ _ _) rfl).1,
    (Failure_halfOpen_rearms ((NewCircuitBreaker 5 10 30).store "svc" ⟨stateHalfOpen, 7, 100, 140⟩)
      "svc" ⟨stateHalfOpen, 7, 100, 140⟩ 150 (store_byKey_self _ _ _) rfl).2.1 179 (by decide),
    (Failure_halfOpen_rearms ((NewCircuitBreaker 5 10 30).store "svc" ⟨stateHalfOpen, 7, 100, 140⟩)
      "svc" ⟨stateHalfOpen, 7, 100, 140⟩ 150 (store_byKey_self _ _ _) rfl).2.2 180 (by decide)⟩

/-- C4. For a key with no record or a Closed record, `Failure(key)` at time
`now` leaves a record with `lastFailure = now`. Its failure count is 1 when
there was no record, and also when the record holds a previous failure time
(`lastFailure` is not the zero time) with `now.Sub(lastFailure) > window`;
otherwise, and so for a failure exactly `window` after the previous one, it is
the old count plus 1. The record is Open exactly when the new count is at
least `threshold`, and Closed exactly when it is below. -/
theorem Failure_closed_spec (cb : CircuitBreaker) (key : String) (now : Time)
    (h : cb.byKey key = none ∨ ∃ c, cb.byKey key = some c ∧ c.state = stateClosed) :
    ∃ r, (cb.Failure now key).byKey key = some r ∧ r.lastFailure = now ∧
      (cb.byKey key = none → r.failures = 1) ∧
      (∀ c, cb.byKey key = some c → c.lastFailure ≠ 0 →
          Time.Sub now c.lastFailure > cb.window → r.failures = 1) ∧
      (∀ c, cb.byKey key = some c →
          (c.lastFailure = 0 ∨ Time.Sub now c.lastFailure ≤ cb.window) →
          r.failures = c.failures + 1) ∧
      (r.state = stateOpen ↔ r.failures ≥ cb.threshold) ∧
      (r.state = stateClosed ↔ r.failures < cb.threshold) := by
  have hstate : ∀ n : Int,
      ((if n ≥ cb.threshold then stateOpen else stateClosed) = stateOpen ↔ n ≥ cb.threshold) ∧
      ((if n ≥ cb.threshold then stateOpen else stateClosed) = stateClosed
        ↔ n < cb.threshold) := by
    intro n
    by_cases hn : n ≥ cb.threshold
    · simp [hn]
    · simp [hn]; exact lt_of_not_le hn
  rcases h with hnone | ⟨c, hc, hs⟩
  · rw [Failure_of_none cb key now hnone]
    refine ⟨_, store_byKey_self _ _ _, rfl, fun _ => rfl, ?_, ?_, (hstate 1).1, (hstate 1).2⟩
    · intro c hc; rw [hnone] at hc; cases hc
    · intro c hc; rw [hnone] at hc; cases hc
  · by_cases hreset : c.lastFailure ≠ 0 ∧ Time.Sub now c.lastFailure > cb.window
    · rw [Failure_of_closed_reset cb key c now hc hs hreset.1 hreset.2]
      refine ⟨_, store_byKey_self _ _ _, rfl, fun _ => rfl, fun _ _ _ _ => rfl, ?_,
        (hstate 1).1, (hstate 1).2⟩
      · intro c' hc' hk
        rw [hc] at hc'
        cases hc'
        rcases hk with hk | hk
        · exact absurd hk hreset.1
        · exact absurd hreset.2 (not_lt.mpr hk)
    · have hk : c.lastFailure = 0 ∨ Time.Sub now c.lastFailure ≤ cb.window := by
        by_cases hz : c.lastFailure = 0
        · exact Or.inl hz
        · exact Or.inr (not_lt.mp (fun hw => hreset ⟨hz, hw⟩))
      rw [Failure_of_closed_keep cb key c now hc hs hk]
      refine ⟨_, store_byKey_self _ _ _, rfl, ?_, ?_, ?_,
        (hstate (c.failures + 1)).1, (hstate (c.failures + 1)).2⟩
      · intro hn; rw [hc] at hn; cases hn
      · intro c' hc' hz hw
        rw [hc] at hc'
        cases hc'
        exact absurd ⟨hz, hw⟩ hreset
      · intro c' hc' _
        rw [hc] at hc'
        cases hc'
        rfl

theorem Failure_closed_spec_witness :
    (((NewCircuitBreaker 5 10 30).store "svc" ⟨stateClosed, 2, 100, 100⟩).byKey "svc" = none ∨
      ∃ c, ((NewCircuitBreaker 5 10 30).store "svc" ⟨stateClosed, 2, 100, 100⟩).byKey "svc"
            = some c ∧ c.state = stateClosed) ∧
    ∃ r, (((NewCircuitBreaker 5 10 30).store "svc" ⟨stateClosed, 2, 100, 100⟩).Failure 110
            "svc").byKey "svc" = some r ∧
      r.lastFailure = 110 ∧ r.failures = 3 ∧ r.state = stateClosed := by
  have hin : ((NewCircuitBreaker 5 10 30).store "svc" ⟨stateClosed, 2, 100, 100⟩).byKey "svc"
      = some ⟨stateClosed, 2, 100, 100⟩ := store_byKey_self _ _ _
  obtain ⟨r, hr, hlf, _, _, hkeep, _, hcl⟩ :=
    Failure_closed_spec ((NewCircuitBreaker 5 10 30).store "svc" ⟨stateClosed, 2, 100, 100⟩)
      "svc" 110 (Or.inr ⟨_, hin, rfl⟩)
  have hf : r.failures = 3 := hkeep _ hin (Or.inr (by decide))
  refine ⟨Or.inr ⟨_, hin, rfl⟩, r, hr, hlf, hf, hcl.mpr ?_⟩
  rw [hf]
  decide

end Breaker

/-! ## Properties of the retry executor -/

section Executor

theorem after_resp (es : List Event) (r : Result) : (r.after es).resp = r.resp := rfl

theorem after_err (es : List Event) (r : Result) : (r.after es).err = r.err := rfl

theorem after_cb (es : List Event) (r : Result) : (r.after es).cb = r.cb := rfl

theorem after_log (es : List Event) (r : Result) : (r.after es).log = es ++ r.log := rfl

theorem after_after (es es' : List Event) (r : Result) :
    (r.after es').after es = r.after (es ++ es') := by
  simp [Result.after]

theorem after_nil (r : Result) : r.after [] = r := rfl

/-- One iteration whose wait is cancelled. -/
theorem loop_step_cancel (w : World) (key : String) (n a : Nat) (b : Duration)
    (le : Option Error) (cb : CircuitBreaker) (ha : a > 0) (hd : w.done a = true) :
    attemptLoop w key (n + 1) a b le cb
      = { resp := none, err := some (Error.context w.ctxErr), cb := cb, log := [] } := by
  rw [attemptLoop, if_pos ⟨ha, hd⟩]

/-- One iteration whose attempt ends in a retryable outcome. -/
theorem loop_step_retry (w : World) (key : String) (n a : Nat) (b : Duration)
    (le : Option Error) (cb : CircuitBreaker) (hd : a > 0 → w.done a = false)
    (hr : retryable (w.post a) = true) :
    attemptLoop w key (n + 1) a b le cb
      = (attemptLoop w key n (a + 1) (if a > 0 then nextBackoff b else b)
          (some (attemptError (w.post a))) (cb.Failure (w.failNow a) key)).after
          ((if a > 0 then [Event.wait b] else []) ++ [Event.attempt a, Event.failure]) := by
  have hnc : ¬ (a > 0 ∧ w.done a = true) := by
    rintro ⟨ha, hd'⟩
    rw [hd ha] at hd'
    cases hd'
  rw [attemptLoop, if_neg hnc]
  cases hp : w.post a with
  | error e => simp [attemptError]
  | ok resp =>
    rw [hp] at hr
    simp only [retryable, decide_eq_true_eq] at hr
    have h2 : ¬ (resp.StatusCode ≥ 200 ∧ resp.StatusCode < 300) := by
      dsimp only [Duration] at *
      omega
    simp [attemptError, h2, hr]

/-- One iteration whose attempt returns a response with a status that is not
retryable. -/
theorem loop_step_return (w : World) (key : String) (n a : Nat) (b : Duration)
    (le : Option Error) (cb : CircuitBreaker) (resp : Response)
    (hd : a > 0 → w.done a = false) (hp : w.post a = Except.ok resp)
    (hr : retryable (w.post a) = false) :
    attemptLoop w key (n + 1) a b le cb
      = { resp := some resp, err := none, cb := cb.Success key,
          log := (if a > 0 then [Event.wait b] else [])
            ++ [Event.attempt a, Event.success] } := by
  have hnc : ¬ (a > 0 ∧ w.done a = true) := by
    rintro ⟨ha, hd'⟩
    rw [hd ha] at hd'
    cases hd'
  rw [hp] at hr
  simp only [retryable, decide_eq_false_iff_not] at hr
  rw [attemptLoop, if_neg hnc]
  simp only [hp]
  by_cases h2 : resp.StatusCode ≥ 200 ∧ resp.StatusCode < 300
  · rw [if_pos h2]
  · rw [if_neg h2, if_neg hr]

/-- A run of `m` attempts that all end in a retryable outcome, none of their
waits cancelled: the loop reports `m` failures and goes on with what is left. -/
theorem loop_retry_run (w : World) (key : String) :
    ∀ (m n a : Nat) (b : Duration) (le : Option Error) (cb : CircuitBreaker),
      (∀ i, a ≤ i → i < a + m → retryable (w.post i) = true) →
      (∀ i, a ≤ i → i < a + m → 0 < i → w.done i = false) →
      attemptLoop w key (m + n) a b le cb
        = (attemptLoop w key n (a + m) (backoffAfter m a b)
            (if m = 0 then le else some (attemptError (w.post (a + m - 1))))
            (cb.Failures key ((List.range' a m).map w.failNow))).after (retryLog m a b) := by
  intro m
  induction m with
  | zero =>
    intro n a b le cb _ _
    simp [backoffAfter, retryLog, CircuitBreaker.Failures, after_nil]
  | succ m ih =>
    intro n a b le cb hr hd
    have e1 : m + 1 + n = (m + n) + 1 := by omega
    rw [e1, loop_step_retry w key (m + n) a b le cb
      (fun ha => hd a (le_refl a) (by omega) ha) (hr a (le_refl a) (by omega))]
    rw [ih n (a + 1) _ _ _ (fun i h1 h2 => hr i (by omega) (by omega))
      (fun i h1 h2 => hd i (by omega) (by omega))]
    rw [after_after]
    have e2 : a + 1 + m = a + (m + 1) := by omega
    have e3 : (if m = 0 then some (attemptError (w.post a))
        else some (attemptError (w.post (a + (m + 1) - 1))))
        = some (attemptError (w.post (a + (m + 1) - 1))) := by
      by_cases hm : m = 0
      · subst hm; simp
      · simp [hm]
    rw [e2, e3, if_neg (Nat.succ_ne_zero m)]
    rfl

theorem calls_append (l₁ l₂ : List Event) : calls (l₁ ++ l₂) = calls l₁ ++ calls l₂ := by
  simp [calls]

theorem attempts_append (l₁ l₂ : List Event) :
    attempts (l₁ ++ l₂) = attempts l₁ ++ attempts l₂ := by
  simp [attempts]

theorem waits_append (l₁ l₂ : List Event) : waits (l₁ ++ l₂) = waits l₁ ++ waits l₂ := by
  simp [waits]

theorem calls_retryLog : ∀ (m a : Nat) (b : Duration),
    calls (retryLog m a b)
      = (List.range' a m).flatMap fun i => [Event.attempt i, Event.failure] := by
  intro m
  induction m with
  | zero => intro a b; rfl
  | succ m ih =>
    intro a b
    rw [retryLog, calls_append, ih, List.range'_succ, List.flatMap_cons]
    by_cases ha : a > 0 <;> simp [ha, calls]

theorem attempts_calls (l : List Event) : attempts (calls l) = attempts l := by
  induction l with
  | nil => rfl
  | cons e l ih =>
    cases e <;> simp_all [attempts, calls]

theorem attempts_flatMap_failure (l : List Nat) :
    attempts (l.flatMap fun i => [Event.attempt i, Event.failure]) = l := by
  induction l with
  | nil => rfl
  | cons i l ih =>
    rw [List.flatMap_cons, attempts_append, ih]
    rfl

theorem count_failure_flatMap (l : List Nat) :
    (l.flatMap fun i => [Event.attempt i, Event.failure]).count Event.failure = l.length := by
  induction l with
  | nil => rfl
  | cons i l ih =>
    rw [List.flatMap_cons, List.count_append, ih]
    simp [List.count_cons]
    omega

theorem count_success_flatMap (l : List Nat) :
    (l.flatMap fun i => [Event.attempt i, Event.failure]).count Event.success = 0 := by
  induction l with
  | nil => rfl
  | cons i l ih =>
    rw [List.flatMap_cons, List.count_append, ih]
    simp [List.count_cons]

/-- The loop makes no more attempts than it has iterations left. -/
theorem attempts_loop_le (w : World) (key : String) :
    ∀ (n a : Nat) (b : Duration) (le : Option Error) (cb : CircuitBreaker),
      (attempts (attemptLoop w key n a b le cb).log).length ≤ n := by
  intro n
  induction n with
  | zero => intro a b le cb; simp [attemptLoop, attempts]
  | succ n ih =>
    intro a b le cb
    by_cases hc : a > 0 ∧ w.done a = true
    · rw [loop_step_cancel w key n a b le cb hc.1 hc.2]
      simp [attempts]
    · have hd : a > 0 → w.done a = false := by
        intro ha
        cases hda : w.done a with
        | false => rfl
        | true => exact absurd ⟨ha, hda⟩ hc
      cases hr : retryable (w.post a) with
      | true =>
        rw [loop_step_retry w key n a b le cb hd hr, after_log, attempts_append,
          List.length_append]
        have := ih (a + 1) (if a > 0 then nextBackoff b else b)
          (some (attemptError (w.post a))) (cb.Failure (w.failNow a) key)
        have hl : (attempts ((if a > 0 then [Event.wait b] else [])
            ++ [Event.attempt a, Event.failure])).length = 1 := by
          by_cases ha : a > 0 <;> simp [ha, attempts]
        omega
      | false =>
        cases hp : w.post a with
        | error e => rw [hp] at hr; simp [retryable] at hr
        | ok resp =>
          rw [loop_step_return w key n a b le cb resp hd hp hr]
          by_cases ha : a > 0 <;> simp [ha, attempts]

theorem attempts_retryLog : ∀ (m a : Nat) (b : Duration),
    attempts (retryLog m a b) = List.range' a m := by
  intro m
  induction m with
  | zero => intro a b; rfl
  | succ m ih =>
    intro a b
    rw [retryLog, attempts_append, ih, List.range'_succ]
    by_cases ha : a > 0 <;> simp [ha, attempts]

theorem count_failure_retryLog : ∀ (m a : Nat) (b : Duration),
    (retryLog m a b).count Event.failure = m := by
  intro m
  induction m with
  | zero => intro a b; rfl
  | succ m ih =>
    intro a b
    rw [retryLog, List.count_append, ih]
    by_cases ha : a > 0 <;> simp [ha, List.count_cons] <;> omega

theorem count_success_retryLog : ∀ (m a : Nat) (b : Duration),
    (retryLog m a b).count Event.success = 0 := by
  intro m
  induction m with
  | zero => intro a b; rfl
  | succ m ih =>
    intro a b
    rw [retryLog, List.count_append, ih]
    by_cases ha : a > 0 <;> simp [ha, List.count_cons]

theorem Post_of_allowed (cfg : ClientConfig) (w : World) (cb : CircuitBreaker) (key : String)
    (h : (cb.Allow w.allowNow key).1 = true) :
    PostWithRetryAndCircuit cfg w cb key
      = attemptLoop w key (cfg.MaxRetries + 1).toNat 0 cfg.BackoffBase none
          (cb.Allow w.allowNow key).2 := by
  unfold PostWithRetryAndCircuit
  rw [if_neg]
  rw [h]
  simp

theorem Post_of_rejected (cfg : ClientConfig) (w : World) (cb : CircuitBreaker) (key : String)
    (h : (cb.Allow w.allowNow key).1 = false) :
    PostWithRetryAndCircuit cfg w cb key
      = { resp := none, err := some Error.circuitOpenError,
          cb := (cb.Allow w.allowNow key).2, log := [] } := by
  unfold PostWithRetryAndCircuit
  rw [if_pos h]

/-- C6. When `Allow(circuitKey)` answers false at the start of
`PostWithRetryAndCircuit`, the call returns no response and the circuit-open
error, makes no transport attempt, performs no wait and reports neither
`Failure` nor `Success`: the breaker it leaves is the one `Allow` left. -/
theorem Post_circuit_open (cfg : ClientConfig) (w : World) (cb : CircuitBreaker)
    (key : String) (h : (cb.Allow w.allowNow key).1 = false) :
    (PostWithRetryAndCircuit cfg w cb key).resp = none ∧
    (PostWithRetryAndCircuit cfg w cb key).err = some Error.circuitOpenError ∧
    attempts (PostWithRetryAndCircuit cfg w cb key).log = [] ∧
    (PostWithRetryAndCircuit cfg w cb key).log = [] ∧
    (PostWithRetryAndCircuit cfg w cb key).cb = (cb.Allow w.allowNow key).2 := by
  rw [Post_of_rejected cfg w cb key h]
  exact ⟨rfl, rfl, rfl, rfl, rfl⟩

theorem Post_circuit_open_witness :
    (((NewCircuitBreaker 5 30 30).store "svc" ⟨stateOpen, 5, 90, 90⟩).Allow
        (statusWorld fun _ => 200).allowNow "svc").1 = false ∧
    (PostWithRetryAndCircuit (loadClientConfig unsetEnv) (statusWorld fun _ => 200)
        ((NewCircuitBreaker 5 30 30).store "svc" ⟨stateOpen, 5, 90, 90⟩) "svc").err
      = some Error.circuitOpenError ∧
    (PostWithRetryAndCircuit (loadClientConfig unsetEnv) (statusWorld fun _ => 200)
        ((NewCircuitBreaker 5 30 30).store "svc" ⟨stateOpen, 5, 90, 90⟩) "svc").log = [] :=
  ⟨by decide,
    (Post_circuit_open (loadClientConfig unsetEnv) (statusWorld fun _ => 200)
      ((NewCircuitBreaker 5 30 30).store "svc" ⟨stateOpen, 5, 90, 90⟩) "svc" (by decide)).2.1,
    (Post_circuit_open (loadClientConfig unsetEnv) (statusWorld fun _ => 200)
      ((NewCircuitBreaker 5 30 30).store "svc" ⟨stateOpen, 5, 90, 90⟩) "svc"
      (by decide)).2.2.2.1⟩

/-- C7. With `MaxRetries >= 0`, `PostWithRetryAndCircuit` makes at most
`MaxRetries + 1` transport attempts, whatever the attempts return. When the
breaker admits the call, every attempt ends in a retryable outcome (an error of
the transport, a status of 429 or 5xx) and no wait is cancelled, it makes
exactly the attempts `0, ..., MaxRetries`, reports exactly `MaxRetries + 1`
failures and no success, and returns no response and the error of the last
attempt; the breaker it leaves is the one `Allow` left after `MaxRetries + 1`
calls of `Failure` for the key, one at the clock reading of each attempt, in
order. -/
theorem Post_attempts (cfg : ClientConfig) (w : World) (cb : CircuitBreaker) (key : String)
    (hmax : 0 ≤ cfg.MaxRetries) :
    ((attempts (PostWithRetryAndCircuit cfg w cb key).log).length : Int)
        ≤ cfg.MaxRetries + 1 ∧
    ((cb.Allow w.allowNow key).1 = true →
      (∀ i : Nat, (i : Int) ≤ cfg.MaxRetries → retryable (w.post i) = true) →
      (∀ i : Nat, 0 < i → (i : Int) ≤ cfg.MaxRetries → w.done i = false) →
        attempts (PostWithRetryAndCircuit cfg w cb key).log
            = List.range (cfg.MaxRetries + 1).toNat ∧
        ((attempts (PostWithRetryAndCircuit cfg w cb key).log).length : Int)
            = cfg.MaxRetries + 1 ∧
        (((PostWithRetryAndCircuit cfg w cb key).log.count Event.failure : Nat) : Int)
            = cfg.MaxRetries + 1 ∧
        (PostWithRetryAndCircuit cfg w cb key).log.count Event.success = 0 ∧
        (PostWithRetryAndCircuit cfg w cb key).resp = none ∧
        (PostWithRetryAndCircuit cfg w cb key).err
            = some (attemptError (w.post cfg.MaxRetries.toNat)) ∧
        (PostWithRetryAndCircuit cfg w cb key).cb
            = (cb.Allow w.allowNow key).2.Failures key
                ((List.range (cfg.MaxRetries + 1).toNat).map w.failNow) ∧
        ((List.range (cfg.MaxRetries + 1).toNat).map w.failNow).length
            = (cfg.MaxRetries + 1).toNat) := by
  have hN : (((cfg.MaxRetries + 1).toNat : Nat) : Int) = cfg.MaxRetries + 1 :=
    Int.toNat_of_nonneg (by omega)
  refine ⟨?_, ?_⟩
  · cases hA : (cb.Allow w.allowNow key).1 with
    | false =>
      rw [Post_of_rejected cfg w cb key hA]
      simp only [attempts, List.filterMap_nil, List.length_nil, Nat.cast_zero]
      omega
    | true =>
      rw [Post_of_allowed cfg w cb key hA]
      have := attempts_loop_le w key (cfg.MaxRetries + 1).toNat 0 cfg.BackoffBase none
        (cb.Allow w.allowNow key).2
      omega
  · intro hA hr hd
    have hrun := loop_retry_run w key (cfg.MaxRetries + 1).toNat 0 0 cfg.BackoffBase none
      (cb.Allow w.allowNow key).2
      (fun i _ hi => hr i (by omega)) (fun i _ hi h0 => hd i h0 (by omega))
    rw [Nat.add_zero, Nat.zero_add] at hrun
    have hne : (cfg.MaxRetries + 1).toNat ≠ 0 := by omega
    have hlast : (cfg.MaxRetries + 1).toNat - 1 = cfg.MaxRetries.toNat := by omega
    rw [Post_of_allowed cfg w cb key hA, hrun, if_neg hne, hlast]
    rw [show attemptLoop w key 0 (cfg.MaxRetries + 1).toNat
        (backoffAfter (cfg.MaxRetries + 1).toNat 0 cfg.BackoffBase)
        (some (attemptError (w.post cfg.MaxRetries.toNat)))
        ((cb.Allow w.allowNow key).2.Failures key
          (List.map w.failNow (List.range' 0 (cfg.MaxRetries + 1).toNat)))
        = { resp := none, err := some (attemptError (w.post cfg.MaxRetries.toNat)),
            cb := (cb.Allow w.allowNow key).2.Failures key
              (List.map w.failNow (List.range' 0 (cfg.MaxRetries + 1).toNat)),
            log := [] } from rfl]
    rw [after_log, after_resp, after_err, after_cb, List.append_nil]
    refine ⟨?_, ?_, ?_, ?_, rfl, rfl, ?_, ?_⟩
    · rw [attempts_retryLog, List.range_eq_range']
    · rw [attempts_retryLog, List.length_range', hN]
    · rw [count_failure_retryLog, hN]
    · rw [count_success_retryLog]
    · rw [List.range_eq_range']
    · rw [List.length_map, List.length_range]

set_option maxRecDepth 4000 in
theorem Post_attempts_witness :
    (0 : Int) ≤ (loadClientConfig unsetEnv).MaxRetries ∧
    ((NewCircuitBreaker 5 30 30).Allow (statusWorld fun n => 500 + n).allowNow "svc").1 = true ∧
    attempts (PostWithRetryAndCircuit (loadClientConfig unsetEnv)
        (statusWorld fun n => 500 + n) (NewCircuitBreaker 5 30 30) "svc").log = [0, 1, 2, 3] ∧
    (PostWithRetryAndCircuit (loadClientConfig unsetEnv)
        (statusWorld fun n => 500 + n) (NewCircuitBreaker 5 30 30) "svc").err
      = some (Error.httpStatusError 503) ∧
    (PostWithRetryAndCircuit (loadClientConfig unsetEnv)
        (statusWorld fun n => 500 + n) (NewCircuitBreaker 5 30 30) "svc").cb
      = (NewCircuitBreaker 5 30 30).Failures "svc" [100, 101, 102, 103] ∧
    ((NewCircuitBreaker 5 30 30).Failures "svc" [100, 101, 102, 103]).byKey "svc"
      = some { state := stateClosed, failures := 4, lastFailure := 103, lastTry := 103 } := by
  have h := (Post_attempts (loadClientConfig unsetEnv) (statusWorld fun n => 500 + n)
    (NewCircuitBreaker 5 30 30) "svc" (by decide)).2 (by decide)
    (by
      intro i hi
      have h3 : ((loadClientConfig unsetEnv).MaxRetries) = 3 := by decide
      rw [h3] at hi
      simp only [statusWorld, retryable, decide_eq_true_eq]
      omega)
    (fun _ _ _ => rfl)
  exact ⟨by decide, by decide, h.1, h.2.2.2.2.2.1, h.2.2.2.2.2.2.1, rfl⟩

theorem wrapInt64_of_fits (n : Int) (hlo : -(2 ^ 63) ≤ n) (hhi : n < 2 ^ 63) :
    wrapInt64 n = n := by
  unfold wrapInt64
  omega

/-- The `j`-th completed wait of the loop, counted from 0, lasts the loop's
`backoff` after `j` rounds of tripling and capping. -/
theorem waits_loop (w : World) (key : String) :
    ∀ (n a : Nat) (b : Duration) (le : Option Error) (cb : CircuitBreaker) (j : Nat)
      (d : Duration),
      (waits (attemptLoop w key n a b le cb).log)[j]? = some d → d = nextBackoff^[j] b := by
  intro n
  induction n with
  | zero =>
    intro a b le cb j d h
    simp [attemptLoop, waits] at h
  | succ n ih =>
    intro a b le cb j d h
    by_cases hc : a > 0 ∧ w.done a = true
    · rw [loop_step_cancel w key n a b le cb hc.1 hc.2] at h
      simp [waits] at h
    · have hd : a > 0 → w.done a = false := by
        intro ha
        cases hda : w.done a with
        | false => rfl
        | true => exact absurd ⟨ha, hda⟩ hc
      cases hr : retryable (w.post a) with
      | true =>
        rw [loop_step_retry w key n a b le cb hd hr, after_log, waits_append] at h
        by_cases ha : a > 0
        · simp only [ha, if_true] at h
          rw [show waits ([Event.wait b] ++ [Event.attempt a, Event.failure]) = [b] from rfl]
            at h
          cases j with
          | zero =>
            simp at h
            exact h.symm
          | succ j =>
            simp only [List.singleton_append, List.getElem?_cons_succ] at h
            rw [Function.iterate_succ_apply]
            exact ih _ _ _ _ _ _ h
        · simp only [ha, if_false] at h
          rw [show waits ([] ++ [Event.attempt a, Event.failure]) = [] from rfl,
            List.nil_append] at h
          exact ih _ _ _ _ _ _ h
      | false =>
        cases hp : w.post a with
        | error e => rw [hp] at hr; simp [retryable] at hr
        | ok resp =>
          rw [loop_step_return w key n a b le cb resp hd hp hr] at h
          by_cases ha : a > 0
          · simp only [ha, if_true] at h
            rw [show waits ([Event.wait b] ++ [Event.attempt a, Event.success]) = [b] from rfl]
              at h
            cases j with
            | zero =>
              simp at h
              exact h.symm
            | succ j => simp at h
          · simp only [ha, if_false] at h
            rw [show waits ([] ++ [Event.attempt a, Event.success]) = [] from rfl] at h
            simp at h

theorem nextBackoff_of_small (x : Duration) (h0 : 0 ≤ x) (h5 : x ≤ 5 * Second) :
    nextBackoff x = min (x * 3) (5 * Second) := by
  unfold nextBackoff
  have hS : Second = 1000000000 := rfl
  rw [hS] at h5 ⊢
  dsimp only [Duration] at *
  rw [wrapInt64_of_fits (x * 3) (by omega) (by omega)]
  split_ifs with h
  · omega
  · omega

/-- From a base between 0 and the ceiling, `j` rounds of tripling and capping
give `min (base * 3 ^ j) (5 * Second)`. -/
theorem iterate_nextBackoff (base : Duration) (h0 : 0 ≤ base) (h5 : base ≤ 5 * Second) :
    ∀ j : Nat, nextBackoff^[j] base = min (base * 3 ^ j) (5 * Second) := by
  intro j
  induction j with
  | zero =>
    simp only [Function.iterate_zero, id_eq, pow_zero, mul_one]
    exact (min_eq_left h5).symm
  | succ j ih =>
    have hpos : 0 ≤ base * 3 ^ j := mul_nonneg h0 (by positivity)
    have hx0 : 0 ≤ min (base * 3 ^ j) (5 * Second) := le_min hpos (by decide)
    have hx5 : min (base * 3 ^ j) (5 * Second) ≤ 5 * Second := min_le_right _ _
    rw [Function.iterate_succ_apply', ih, nextBackoff_of_small _ hx0 hx5, pow_succ,
      ← mul_assoc]
    have hS : Second = 1000000000 := rfl
    rw [hS] at *
    generalize base * 3 ^ j = y at *
    dsimp only [Duration] at *
    omega

/-- C8, as stated, fails. With `PIPELINE_RETRY_BACKOFF_MS=10000` the base is
10 seconds, and the wait before the first retry lasts those 10 seconds: it is
not `min (base * 3 ^ 0) (5 s)`, and it exceeds 5 seconds. -/
theorem backoff_first_wait_not_capped :
    (loadClientConfig { unsetEnv with PIPELINE_RETRY_BACKOFF_MS := some 10000 }).BackoffBase
      = 10 * Second ∧
    (waits (PostWithRetryAndCircuit
        (loadClientConfig { unsetEnv with PIPELINE_RETRY_BACKOFF_MS := some 10000 })
        (statusWorld fun _ => 503) (NewCircuitBreaker 5 30 30) "svc").log)[1 - 1]?
      = some (10 * Second) ∧
    10 * Second ≠ min (10 * Second * 3 ^ (1 - 1)) (5 * Second) ∧
    ¬ (10 * Second ≤ 5 * Second) := by
  decide

/-- Whatever the backoff, the next one is its triple, as a 64-bit product,
capped at 5 seconds. -/
theorem nextBackoff_eq_min (x : Duration) :
    nextBackoff x = min (wrapInt64 (x * 3)) (5 * Second) := by
  unfold nextBackoff
  simp only
  split_ifs with h
  · exact (min_eq_right (le_of_lt h)).symm
  · exact (min_eq_left (not_lt.mp h)).symm

theorem nextBackoff_le (x : Duration) : nextBackoff x ≤ 5 * Second := by
  rw [nextBackoff_eq_min]
  exact min_le_right _ _

/-- From a base that is not negative and whose triple fits in 64 bits, one or
more rounds of tripling and capping give `min (base * 3 ^ j) (5 * Second)`. -/
theorem iterate_nextBackoff_succ (base : Duration) (h0 : 0 ≤ base)
    (h3 : base * 3 < 2 ^ 63) :
    ∀ j : Nat, nextBackoff^[j + 1] base = min (base * 3 ^ (j + 1)) (5 * Second) := by
  intro j
  induction j with
  | zero =>
    rw [Function.iterate_one, nextBackoff_eq_min, pow_one,
      wrapInt64_of_fits (base * 3) (by
        have : (0 : Int) ≤ base * 3 := mul_nonneg h0 (by decide)
        dsimp only [Duration] at *
        omega) h3]
  | succ j ih =>
    have hpos : 0 ≤ base * 3 ^ (j + 1) := mul_nonneg h0 (by positivity)
    have hx0 : 0 ≤ min (base * 3 ^ (j + 1)) (5 * Second) := le_min hpos (by decide)
    have hx5 : min (base * 3 ^ (j + 1)) (5 * Second) ≤ 5 * Second := min_le_right _ _
    have hp : base * 3 ^ (j + 1 + 1) = base * 3 ^ (j + 1) * 3 := by
      rw [pow_succ 3 (j + 1), mul_assoc]
    rw [Function.iterate_succ_apply', ih, nextBackoff_of_small _ hx0 hx5, hp]
    have hS : Second = 1000000000 := rfl
    rw [hS] at *
    generalize base * 3 ^ (j + 1) = y at *
    dsimp only [Duration] at *
    omega

/-- C8, amended. The wait that precedes the first retry of a call lasts the
base delay, whatever the base: the ceiling is not applied to it. Whatever the
base, every wait after the first is the triple of the wait before it, as a
64-bit product, capped at 5 seconds, so that no wait after the first exceeds 5
seconds. For a base that is not negative and whose triple fits in 64 bits, the
wait that precedes the `k`-th retry lasts `min (base * 3 ^ (k - 1)) (5 s)` for
every `k >= 2`, and for `k = 1` too when the base is at most 5 seconds, and the
wait after one of length `d` lasts `min (d * 3) (5 s)`. -/
theorem backoff_wait_spec (cfg : ClientConfig) (w : World) (cb : CircuitBreaker)
    (key : String) (k : Nat) (hk : 1 ≤ k) (d : Duration)
    (hd : (waits (PostWithRetryAndCircuit cfg w cb key).log)[k - 1]? = some d) :
    (k = 1 → d = cfg.BackoffBase) ∧
    (2 ≤ k → d ≤ 5 * Second) ∧
    (∀ d', (waits (PostWithRetryAndCircuit cfg w cb key).log)[k]? = some d' →
      d' = min (wrapInt64 (d * 3)) (5 * Second) ∧ d' ≤ 5 * Second) ∧
    (0 ≤ cfg.BackoffBase → cfg.BackoffBase * 3 < 2 ^ 63 →
      ((2 ≤ k ∨ cfg.BackoffBase ≤ 5 * Second) →
        d = min (cfg.BackoffBase * 3 ^ (k - 1)) (5 * Second)) ∧
      (∀ d', (waits (PostWithRetryAndCircuit cfg w cb key).log)[k]? = some d' →
        d' = min (d * 3) (5 * Second))) := by
  cases hA : (cb.Allow w.allowNow key).1 with
  | false =>
    rw [Post_of_rejected cfg w cb key hA] at hd
    simp [waits] at hd
  | true =>
    rw [Post_of_allowed cfg w cb key hA] at hd ⊢
    have hdk := waits_loop w key _ _ _ _ _ _ _ hd
    have hnext : ∀ d', (waits (attemptLoop w key (cfg.MaxRetries + 1).toNat 0 cfg.BackoffBase
        none (cb.Allow w.allowNow key).2).log)[k]? = some d' → d' = nextBackoff d := by
      intro d' hd'
      have hdk' := waits_loop w key _ _ _ _ _ _ _ hd'
      have hk' : k = (k - 1) + 1 := by omega
      rw [hdk', hk', Function.iterate_succ_apply', ← hdk]
    have hform : 0 ≤ cfg.BackoffBase → cfg.BackoffBase * 3 < 2 ^ 63 →
        (2 ≤ k ∨ cfg.BackoffBase ≤ 5 * Second) →
        d = min (cfg.BackoffBase * 3 ^ (k - 1)) (5 * Second) := by
      intro h0 h3 hcase
      by_cases h2 : 2 ≤ k
      · have hk' : k - 1 = (k - 2) + 1 := by omega
        rw [hdk, hk']
        exact iterate_nextBackoff_succ cfg.BackoffBase h0 h3 (k - 2)
      · have h5 : cfg.BackoffBase ≤ 5 * Second := by
          rcases hcase with h | h
          · exact absurd h h2
          · exact h
        rw [hdk]
        exact iterate_nextBackoff cfg.BackoffBase h0 h5 (k - 1)
    refine ⟨?_, ?_, ?_, ?_⟩
    · intro h1
      subst h1
      rw [hdk]
      rfl
    · intro h2
      have hk' : k - 1 = (k - 2) + 1 := by omega
      rw [hdk, hk', Function.iterate_succ_apply']
      exact nextBackoff_le _
    · intro d' hd'
      rw [hnext d' hd']
      exact ⟨nextBackoff_eq_min d, nextBackoff_le d⟩
    · intro h0 h3
      refine ⟨hform h0 h3, ?_⟩
      intro d' hd'
      rw [hnext d' hd', nextBackoff_eq_min]
      have hfit : wrapInt64 (d * 3) = d * 3 := by
        by_cases h2 : 2 ≤ k
        · have hval := hform h0 h3 (Or.inl h2)
          have hpos : 0 ≤ cfg.BackoffBase * 3 ^ (k - 1) := mul_nonneg h0 (by positivity)
          have hd0 : 0 ≤ d := by rw [hval]; exact le_min hpos (by decide)
          have hd5 : d ≤ 5 * Second := by rw [hval]; exact min_le_right _ _
          have hS : Second = 1000000000 := rfl
          rw [hS] at hd5
          dsimp only [Duration] at *
          exact wrapInt64_of_fits (d * 3) (by omega) (by omega)
        · have h1 : k = 1 := by omega
          subst h1
          have hb : d = cfg.BackoffBase := by rw [hdk]; rfl
          rw [hb]
          have : (0 : Int) ≤ cfg.BackoffBase * 3 := mul_nonneg h0 (by decide)
          dsimp only [Duration] at *
          exact wrapInt64_of_fits _ (by omega) h3
      rw [hfit]

theorem backoff_wait_spec_witness :
    waits (PostWithRetryAndCircuit
        (loadClientConfig { unsetEnv with PIPELINE_RETRY_BACKOFF_MS := some 10000 })
        (statusWorld fun _ => 503) (NewCircuitBreaker 5 30 30) "svc").log
      = [10 * Second, 5 * Second, 5 * Second] ∧
    5 * Second ≤ 5 * Second ∧
    5 * Second
      = min ((loadClientConfig
          { unsetEnv with PIPELINE_RETRY_BACKOFF_MS := some 10000 }).BackoffBase
          * 3 ^ (2 - 1)) (5 * Second) ∧
    waits (PostWithRetryAndCircuit
        (loadClientConfig { unsetEnv with PIPELINE_MAX_RETRIES := some 5 })
        (statusWorld fun _ => 503) (NewCircuitBreaker 5 30 30) "svc").log
      = [100 * Millisecond, 300 * Millisecond, 900 * Millisecond, 2700 * Millisecond,
          5 * Second] ∧
    5 * Second
      = min ((loadClientConfig { unsetEnv with PIPELINE_MAX_RETRIES := some 5 }).BackoffBase
          * 3 ^ (5 - 1)) (5 * Second) :=
  ⟨by decide,
    (backoff_wait_spec
      (loadClientConfig { unsetEnv with PIPELINE_RETRY_BACKOFF_MS := some 10000 })
      (statusWorld fun _ => 503) (NewCircuitBreaker 5 30 30) "svc"
      2 (by decide) (5 * Second) (by decide)).2.1 (by decide),
    ((backoff_wait_spec
      (loadClientConfig { unsetEnv with PIPELINE_RETRY_BACKOFF_MS := some 10000 })
      (statusWorld fun _ => 503) (NewCircuitBreaker 5 30 30) "svc"
      2 (by decide) (5 * Second) (by decide)).2.2.2 (by decide) (by decide)).1
      (Or.inl (by decide)),
    by decide,
    ((backoff_wait_spec (loadClientConfig { unsetEnv with PIPELINE_MAX_RETRIES := some 5 })
      (statusWorld fun _ => 503) (NewCircuitBreaker 5 30 30) "svc"
      5 (by decide) (5 * Second) (by decide)).2.2.2 (by decide) (by decide)).1
      (Or.inl (by decide))⟩

theorem count_success_calls (l : List Event) :
    (calls l).count Event.success = l.count Event.success := by
  induction l with
  | nil => rfl
  | cons e l ih =>
    cases e <;> simp_all [calls, List.count_cons, List.filter_cons]

theorem count_failure_calls (l : List Event) :
    (calls l).count Event.failure = l.count Event.failure := by
  induction l with
  | nil => rfl
  | cons e l ih =>
    cases e <;> simp_all [calls, List.count_cons, List.filter_cons]

/-- Whenever the loop returns a response, that response came from the last
attempt made, its status is not retryable, and every attempt before it reported
a failure. -/
theorem loop_resp_some (w : World) (key : String) :
    ∀ (n a : Nat) (b : Duration) (le : Option Error) (cb : CircuitBreaker) (resp : Response),
      (attemptLoop w key n a b le cb).resp = some resp →
      retryable (Except.ok resp) = false ∧
      (attemptLoop w key n a b le cb).err = none ∧
      ∃ m, w.post (a + m) = Except.ok resp ∧
        calls (attemptLoop w key n a b le cb).log
          = ((List.range' a m).flatMap fun i => [Event.attempt i, Event.failure])
            ++ [Event.attempt (a + m), Event.success] ∧
        (attemptLoop w key n a b le cb).cb
          = (cb.Failures key ((List.range' a m).map w.failNow)).Success key := by
  intro n
  induction n with
  | zero =>
    intro a b le cb resp h
    simp [attemptLoop] at h
  | succ n ih =>
    intro a b le cb resp h
    by_cases hc : a > 0 ∧ w.done a = true
    · rw [loop_step_cancel w key n a b le cb hc.1 hc.2] at h
      cases h
    · have hd : a > 0 → w.done a = false := by
        intro ha
        cases hda : w.done a with
        | false => rfl
        | true => exact absurd ⟨ha, hda⟩ hc
      cases hr : retryable (w.post a) with
      | true =>
        rw [loop_step_retry w key n a b le cb hd hr] at h ⊢
        rw [after_resp] at h
        obtain ⟨hnr, herr, m, hpost, hcalls, hcb⟩ := ih _ _ _ _ _ h
        refine ⟨hnr, by rw [after_err]; exact herr, m + 1, ?_, ?_, ?_⟩
        · rw [← hpost]; congr 1; omega
        · rw [after_log, calls_append, hcalls, List.range'_succ, List.flatMap_cons]
          have e : a + 1 + m = a + (m + 1) := by omega
          rw [e]
          by_cases ha : a > 0 <;> simp [ha, calls]
        · rw [after_cb, hcb, List.range'_succ, List.map_cons]
          rfl
      | false =>
        cases hp : w.post a with
        | error e => rw [hp] at hr; simp [retryable] at hr
        | ok r =>
          rw [loop_step_return w key n a b le cb r hd hp hr] at h ⊢
          simp only [Option.some.injEq] at h
          subst h
          refine ⟨by rw [← hp]; exact hr, rfl, 0, hp, ?_, rfl⟩
          by_cases ha : a > 0 <;> simp [ha, calls]

/-- C9. In an iteration of the loop whose wait is not cancelled: an attempt
that ends in an error of the transport or in a status of 429 or 500 to 599
reports `Failure` and goes on to the next iteration; a status from 200 to 299
reports `Success` and returns that response; any other status reports
`Success` and returns that response at once; a call that the breaker admits
is this loop, started at attempt 0 from the breaker `Allow` left. Hence a
response returned by `PostWithRetryAndCircuit` has a status that is neither 429
nor 5xx, comes with no error, and was returned by the last attempt `m`, which
reported the only `Success`, every attempt before it having reported `Failure`:
the breaker the call leaves is the one `Allow` left after the `Failure` calls of
attempts `0, ..., m - 1`, in order, and then one `Success` call. -/
theorem Post_classification (cfg : ClientConfig) (w : World) (cb : CircuitBreaker)
    (key : String) :
    (∀ (n a : Nat) (b : Duration) (le : Option Error) (cb' : CircuitBreaker),
        (a > 0 → w.done a = false) → retryable (w.post a) = true →
        attemptLoop w key (n + 1) a b le cb'
          = (attemptLoop w key n (a + 1) (if a > 0 then nextBackoff b else b)
              (some (attemptError (w.post a))) (cb'.Failure (w.failNow a) key)).after
              ((if a > 0 then [Event.wait b] else [])
                ++ [Event.attempt a, Event.failure])) ∧
    (∀ (n a : Nat) (b : Duration) (le : Option Error) (cb' : CircuitBreaker)
        (resp : Response),
        (a > 0 → w.done a = false) → w.post a = Except.ok resp →
        (resp.StatusCode ≥ 200 ∧ resp.StatusCode < 300) →
        attemptLoop w key (n + 1) a b le cb'
          = { resp := some resp, err := none, cb := cb'.Success key,
              log := (if a > 0 then [Event.wait b] else [])
                ++ [Event.attempt a, Event.success] }) ∧
    (∀ (n a : Nat) (b : Duration) (le : Option Error) (cb' : CircuitBreaker)
        (resp : Response),
        (a > 0 → w.done a = false) → w.post a = Except.ok resp →
        ¬ (resp.StatusCode ≥ 200 ∧ resp.StatusCode < 300) →
        ¬ (resp.StatusCode = 429 ∨ (resp.StatusCode ≥ 500 ∧ resp.StatusCode < 600)) →
        attemptLoop w key (n + 1) a b le cb'
          = { resp := some resp, err := none, cb := cb'.Success key,
              log := (if a > 0 then [Event.wait b] else [])
                ++ [Event.attempt a, Event.success] }) ∧
    ((cb.Allow w.allowNow key).1 = true →
        PostWithRetryAndCircuit cfg w cb key
          = attemptLoop w key (cfg.MaxRetries + 1).toNat 0 cfg.BackoffBase none
              (cb.Allow w.allowNow key).2) ∧
    (∀ resp, (PostWithRetryAndCircuit cfg w cb key).resp = some resp →
        ¬ (resp.StatusCode = 429 ∨ (resp.StatusCode ≥ 500 ∧ resp.StatusCode < 600)) ∧
        (PostWithRetryAndCircuit cfg w cb key).err = none ∧
        (PostWithRetryAndCircuit cfg w cb key).log.count Event.success = 1 ∧
        ∃ m, w.post m = Except.ok resp ∧
          calls (PostWithRetryAndCircuit cfg w cb key).log
            = ((List.range m).flatMap fun i => [Event.attempt i, Event.failure])
              ++ [Event.attempt m, Event.success] ∧
          (PostWithRetryAndCircuit cfg w cb key).cb
            = ((cb.Allow w.allowNow key).2.Failures key
                ((List.range m).map w.failNow)).Success key) := by
  refine ⟨?_, ?_, ?_, Post_of_allowed cfg w cb key, ?_⟩
  · intro n a b le cb' hd hr
    exact loop_step_retry w key n a b le cb' hd hr
  · intro n a b le cb' resp hd hp h2
    apply loop_step_return w key n a b le cb' resp hd hp
    rw [hp]
    simp only [retryable, decide_eq_false_iff_not]
    omega
  · intro n a b le cb' resp hd hp _ hnr
    apply loop_step_return w key n a b le cb' resp hd hp
    rw [hp]
    simp only [retryable, decide_eq_false_iff_not]
    exact hnr
  · intro resp h
    cases hA : (cb.Allow w.allowNow key).1 with
    | false =>
      rw [Post_of_rejected cfg w cb key hA] at h
      cases h
    | true =>
      rw [Post_of_allowed cfg w cb key hA] at h ⊢
      obtain ⟨hnr, herr, m, hpost, hcalls, hcb⟩ := loop_resp_some w key _ _ _ _ _ _ h
      simp only [retryable, decide_eq_false_iff_not] at hnr
      rw [Nat.zero_add] at hpost hcalls
      refine ⟨hnr, herr, ?_, m, hpost, ?_, ?_⟩
      · rw [← count_success_calls, hcalls, List.count_append, count_success_flatMap]
        rfl
      · rw [hcalls, List.range_eq_range']
      · rw [hcb, List.range_eq_range']

theorem Post_classification_witness :
    (PostWithRetryAndCircuit (loadClientConfig unsetEnv)
        (statusWorld fun n => if n < 2 then 503 else 404) (NewCircuitBreaker 5 30 30) "svc").resp
      = some { StatusCode := 404, Body := "" } ∧
    (PostWithRetryAndCircuit (loadClientConfig unsetEnv)
        (statusWorld fun n => if n < 2 then 503 else 404) (NewCircuitBreaker 5 30 30) "svc").log
      = [Event.attempt 0, Event.failure, Event.wait (100 * Millisecond), Event.attempt 1,
          Event.failure, Event.wait (300 * Millisecond), Event.attempt 2, Event.success] ∧
    (PostWithRetryAndCircuit (loadClientConfig unsetEnv)
        (statusWorld fun n => if n < 2 then 503 else 404) (NewCircuitBreaker 5 30 30) "svc").err
      = none ∧
    (PostWithRetryAndCircuit (loadClientConfig unsetEnv)
        (statusWorld fun n => if n < 2 then 503 else 404)
        (NewCircuitBreaker 5 30 30) "svc").log.count Event.success = 1 ∧
    (∃ m, (statusWorld fun n => if n < 2 then 503 else 404).post m
        = Except.ok { StatusCode := 404, Body := "" } ∧
      (PostWithRetryAndCircuit (loadClientConfig unsetEnv)
          (statusWorld fun n => if n < 2 then 503 else 404)
          (NewCircuitBreaker 5 30 30) "svc").cb
        = (((NewCircuitBreaker 5 30 30).Allow
              (statusWorld fun n => if n < 2 then 503 else 404).allowNow "svc").2.Failures "svc"
            ((List.range m).map
              (statusWorld fun n => if n < 2 then 503 else 404).failNow)).Success "svc") ∧
    (((NewCircuitBreaker 5 30 30).Failures "svc" [100, 101]).Success "svc").byKey "svc"
      = some { state := stateClosed, failures := 0, lastFailure := 101, lastTry := 101 } :=
  ⟨by decide, by decide,
    ((Post_classification (loadClientConfig unsetEnv)
      (statusWorld fun n => if n < 2 then 503 else 404)
      (NewCircuitBreaker 5 30 30) "svc").2.2.2.2
      { StatusCode := 404, Body := "" } (by decide)).2.1,
    ((Post_classification (loadClientConfig unsetEnv)
      (statusWorld fun n => if n < 2 then 503 else 404)
      (NewCircuitBreaker 5 30 30) "svc").2.2.2.2
      { StatusCode := 404, Body := "" } (by decide)).2.2.1,
    (((Post_classification (loadClientConfig unsetEnv)
      (statusWorld fun n => if n < 2 then 503 else 404)
      (NewCircuitBreaker 5 30 30) "svc").2.2.2.2
      { StatusCode := 404, Body := "" } (by decide)).2.2.2).imp fun _ h => ⟨h.1, h.2.2⟩,
    by decide⟩

theorem length_waits_retryLog : ∀ (m a : Nat) (b : Duration),
    (waits (retryLog m a b)).length = if a > 0 then m else m - 1 := by
  intro m
  induction m with
  | zero => intro a b; simp [retryLog, waits]
  | succ m ih =>
    intro a b
    rw [retryLog, waits_append, List.length_append, ih]
    by_cases ha : a > 0
    · simp [ha, waits]
      omega
    · simp [ha, waits]

/-- C10. Let the breaker admit the call, let each of the attempts
`0, ..., k-1` have a retryable outcome with none of their waits cancelled, and
let the `select` before retry `k` (`1 <= k <= MaxRetries`) take the
`ctx.Done()` branch. Then `PostWithRetryAndCircuit` returns no response and the error of the
context; the attempts made are `0, ..., k-1` and no other; the breaker received
the `k` failures of those attempts and nothing more, and is left as those `k`
`Failure` calls left it; only the `k - 1` earlier waits were completed. -/
theorem Post_cancelled (cfg : ClientConfig) (w : World) (cb : CircuitBreaker) (key : String)
    (k : Nat) (hk : 1 ≤ k) (hkmax : (k : Int) ≤ cfg.MaxRetries)
    (hA : (cb.Allow w.allowNow key).1 = true)
    (hr : ∀ i, i < k → retryable (w.post i) = true)
    (hd : ∀ i, 0 < i → i < k → w.done i = false)
    (hc : w.done k = true) :
    (PostWithRetryAndCircuit cfg w cb key).resp = none ∧
    (PostWithRetryAndCircuit cfg w cb key).err = some (Error.context w.ctxErr) ∧
    attempts (PostWithRetryAndCircuit cfg w cb key).log = List.range k ∧
    calls (PostWithRetryAndCircuit cfg w cb key).log
      = ((List.range k).flatMap fun i => [Event.attempt i, Event.failure]) ∧
    (PostWithRetryAndCircuit cfg w cb key).log.count Event.failure = k ∧
    (PostWithRetryAndCircuit cfg w cb key).log.count Event.success = 0 ∧
    (waits (PostWithRetryAndCircuit cfg w cb key).log).length = k - 1 ∧
    (PostWithRetryAndCircuit cfg w cb key).cb
      = (cb.Allow w.allowNow key).2.Failures key ((List.range k).map w.failNow) := by
  obtain ⟨n, hn⟩ : ∃ n, (cfg.MaxRetries + 1).toNat = k + (n + 1) :=
    ⟨(cfg.MaxRetries + 1).toNat - k - 1, by omega⟩
  have hrun := loop_retry_run w key k (n + 1) 0 cfg.BackoffBase none
    (cb.Allow w.allowNow key).2
    (fun i _ hi => hr i (by omega)) (fun i _ hi h0 => hd i h0 (by omega))
  rw [Nat.zero_add, loop_step_cancel w key n k _ _ _ (by omega) hc] at hrun
  rw [Post_of_allowed cfg w cb key hA, hn, hrun]
  simp only [after_resp, after_err, after_cb, after_log, List.append_nil]
  refine ⟨trivial, trivial, ?_, ?_, ?_, ?_, ?_, ?_⟩
  · rw [attempts_retryLog, List.range_eq_range']
  · rw [calls_retryLog, List.range_eq_range']
  · rw [count_failure_retryLog]
  · rw [count_success_retryLog]
  · rw [length_waits_retryLog]
    simp
  · rw [List.range_eq_range']

theorem Post_cancelled_witness :
    (1 : Nat) ≤ 2 ∧ ((2 : Nat) : Int) ≤ (loadClientConfig unsetEnv).MaxRetries ∧
    ((NewCircuitBreaker 5 30 30).Allow (cancelWorld 2).allowNow "svc").1 = true ∧
    (cancelWorld 2).done 2 = true ∧
    (PostWithRetryAndCircuit (loadClientConfig unsetEnv) (cancelWorld 2)
        (NewCircuitBreaker 5 30 30) "svc").err = some (Error.context ContextError.Canceled) ∧
    attempts (PostWithRetryAndCircuit (loadClientConfig unsetEnv) (cancelWorld 2)
        (NewCircuitBreaker 5 30 30) "svc").log = [0, 1] ∧
    (PostWithRetryAndCircuit (loadClientConfig unsetEnv) (cancelWorld 2)
        (NewCircuitBreaker 5 30 30) "svc").log.count Event.failure = 2 := by
  have h := Post_cancelled (loadClientConfig unsetEnv) (cancelWorld 2)
    (NewCircuitBreaker 5 30 30) "svc" 2 (by decide) (by decide) (by decide)
    (fun _ _ => rfl)
    (by
      intro i h0 h2
      have hi : i = 1 := by omega
      subst hi
      rfl)
    (by decide)
  exact ⟨by decide, by decide, by decide, by decide, h.2.1, h.2.2.1, h.2.2.2.2.1⟩

end Executor

/-! ## Properties of the normalizers -/

section Normalizers

theorem get_nil (key : String) : Object.get [] key = JSON.null := rfl

theorem get_cons (k : String) (v : JSON) (m : Object) (key : String) :
    Object.get ((k, v) :: m) key = if key = k then v else Object.get m key := by
  unfold Object.get
  rw [List.lookup_cons]
  by_cases h : key = k
  · have hb : (key == k) = true := by simp [h]
    rw [hb, if_pos h]
  · have hb : (key == k) = false := by simp [h]
    rw [hb, if_neg h]

/-- What `normalizeIncoming` returns for a response without a `payload`
object. -/
theorem normalizeIncoming_of_no_payload (data : Object)
    (h : (data.get "payload").asObject = none) :
    normalizeIncoming data =
      [("type", JSON.string (match (data.get "type").asString with
          | some v => v
          | none => "text")),
       ("data", JSON.string
          (firstNonEmptyString [data.get "data", data.get "text", data.get "result"])),
       ("metadata", if (data.get "metadata").isNil then JSON.object [] else data.get "metadata")]
    := by
  unfold normalizeIncoming
  rw [h]
  simp only [firstNonEmptyString]
  cases (data.get "data").asString <;> cases (data.get "text").asString <;>
    cases (data.get "result").asString <;> simp <;> split_ifs <;> simp_all

theorem asObject_eq_none_of_ne (v : JSON) (h : ∀ p, v ≠ JSON.object p) : v.asObject = none := by
  cases v with
  | object p => exact absurd rfl (h p)
  | _ => rfl

/-- C16. `normalizeIncoming` returns the `payload` value of the response
unchanged when that value is a JSON object. Otherwise it returns the map of
`type`, `data` and `metadata` in which `type` is the response's `type` when that
is a string and `"text"` when not, `data` is the first non-empty string among
the response's `data`, `text` and `result`, in that order, and `""` when there
is none, and `metadata` is the response's `metadata` when that is not null and
the empty map when it is. For every string `s` the response with the one field
`text` of value `s` normalizes to the text payload of data `s` with empty
metadata. -/
theorem normalizeIncoming_spec (data : Object) :
    (∀ p, data.get "payload" = JSON.object p → normalizeIncoming data = p) ∧
    ((∀ p, data.get "payload" ≠ JSON.object p) →
      normalizeIncoming data =
        [("type", JSON.string (match (data.get "type").asString with
            | some v => v
            | none => "text")),
         ("data", JSON.string
            (firstNonEmptyString [data.get "data", data.get "text", data.get "result"])),
         ("metadata",
            if (data.get "metadata").isNil then JSON.object [] else data.get "metadata")]) ∧
    (∀ s : String, normalizeIncoming [("text", JSON.string s)] =
        [("type", JSON.string "text"), ("data", JSON.string s),
         ("metadata", JSON.object [])]) := by
  refine ⟨?_, ?_, ?_⟩
  · intro p hp
    unfold normalizeIncoming
    rw [hp]
    rfl
  · intro hp
    exact normalizeIncoming_of_no_payload data (asObject_eq_none_of_ne _ hp)
  · intro s
    have hp : Object.get [("text", JSON.string s)] "payload" = JSON.null := by
      rw [get_cons, if_neg (by decide), get_nil]
    have ht : Object.get [("text", JSON.string s)] "type" = JSON.null := by
      rw [get_cons, if_neg (by decide), get_nil]
    have hd : Object.get [("text", JSON.string s)] "data" = JSON.null := by
      rw [get_cons, if_neg (by decide), get_nil]
    have hx : Object.get [("text", JSON.string s)] "text" = JSON.string s := by
      rw [get_cons, if_pos rfl]
    have hr : Object.get [("text", JSON.string s)] "result" = JSON.null := by
      rw [get_cons, if_neg (by decide), get_nil]
    have hm : Object.get [("text", JSON.string s)] "metadata" = JSON.null := by
      rw [get_cons, if_neg (by decide), get_nil]
    rw [normalizeIncoming_of_no_payload _ (by rw [hp]; rfl), ht, hd, hx, hr, hm]
    simp only [firstNonEmptyString, JSON.asString, JSON.isNil]
    by_cases hs : s = ""
    · simp [hs]
    · simp [hs]

theorem normalizeIncoming_spec_witness :
    normalizeIncoming [("payload", JSON.object [("type", JSON.string "image")]),
        ("text", JSON.string "t")] = [("type", JSON.string "image")] ∧
    normalizeIncoming [("type", JSON.number 7), ("data", JSON.string ""),
        ("text", JSON.string ""), ("result", JSON.string "r"), ("metadata", JSON.null)]
      = [("type", JSON.string "text"), ("data", JSON.string "r"),
          ("metadata", JSON.object [])] ∧
    normalizeIncoming [("text", JSON.string "hello")]
      = [("type", JSON.string "text"), ("data", JSON.string "hello"),
          ("metadata", JSON.object [])] :=
  ⟨(normalizeIncoming_spec _).1 _ rfl,
    (normalizeIncoming_spec [("type", JSON.number 7), ("data", JSON.string ""),
        ("text", JSON.string ""), ("result", JSON.string "r"), ("metadata", JSON.null)]).2.1
      (by intro p hp; cases hp),
    (normalizeIncoming_spec []).2.2 "hello"⟩

/-- C17, as stated, fails. A response whose `payload` is the empty object is
normalized, by either function, to the empty map, which has no `type` and no
`metadata`; and a `metadata` that is a string is kept, so that the payload's
`metadata` is not a mapping. -/
theorem normalize_not_canonical :
    (normalizeIncoming [("payload", JSON.object [])]).get "type" = JSON.null ∧
    (normalizeIncoming [("payload", JSON.object [])]).get "metadata" = JSON.null ∧
    (normalizeIncomingFromRequest [("payload", JSON.object [])]).get "type" = JSON.null ∧
    (normalizeIncomingFromRequest [("payload", JSON.object [])]).get "metadata" = JSON.null ∧
    (normalizeIncoming [("text", JSON.string "a"), ("metadata", JSON.string "m")]).get
        "metadata" = JSON.string "m" ∧
    (JSON.string "m").asObject = none :=
  ⟨rfl, rfl, rfl, rfl, rfl, rfl⟩

/-- C17, amended. For a decoded input whose `payload` is not a JSON object,
the payload produced by `normalizeIncomingFromRequest` and the payload produced
by `normalizeIncoming` both have a `type` field and a `metadata` field, neither
of them null, and the `metadata` is a mapping whenever the input's `metadata`
is null, absent or a mapping. The `metadata` of `normalizeIncoming` is the
input's `metadata` when that is not null, whatever it is, and the empty mapping
when it is null; the `metadata` of `normalizeIncomingFromRequest` is the same
when the input's `type` and `data` are both not null, and the empty mapping
when one of them is null. An input `payload` that is a JSON object is returned
as it is, whatever its fields. -/
theorem normalize_canonical (x : Object) :
    ((x.get "payload").asObject = none →
      ((normalizeIncoming x).get "type").isNil = false ∧
      ((normalizeIncoming x).get "metadata").isNil = false ∧
      ((normalizeIncomingFromRequest x).get "type").isNil = false ∧
      ((normalizeIncomingFromRequest x).get "metadata").isNil = false ∧
      (((x.get "metadata").isNil = true ∨ ∃ m, x.get "metadata" = JSON.object m) →
        (∃ m, (normalizeIncoming x).get "metadata" = JSON.object m) ∧
        (∃ m, (normalizeIncomingFromRequest x).get "metadata" = JSON.object m)) ∧
      (normalizeIncoming x).get "metadata"
        = (if (x.get "metadata").isNil then JSON.object [] else x.get "metadata") ∧
      (normalizeIncomingFromRequest x).get "metadata"
        = (if (x.get "type").isNil = false ∧ (x.get "data").isNil = false then
            (if (x.get "metadata").isNil then JSON.object [] else x.get "metadata")
          else JSON.object [])) ∧
    (∀ p, x.get "payload" = JSON.object p →
      normalizeIncoming x = p ∧ normalizeIncomingFromRequest x = p) := by
  have hmeta : ∀ v : JSON, (if v.isNil then JSON.object [] else v).isNil = false := by
    intro v
    cases v <;> rfl
  have hmetaObj : ∀ v : JSON, (v.isNil = true ∨ ∃ m, v = JSON.object m) →
      ∃ m, (if v.isNil then JSON.object [] else v) = JSON.object m := by
    intro v hv
    rcases hv with hv | ⟨m, hv⟩
    · rw [hv]; exact ⟨[], rfl⟩
    · rw [hv]; exact ⟨m, rfl⟩
  refine ⟨?_, ?_⟩
  · intro hp
    have hN := normalizeIncoming_of_no_payload x hp
    have hR : normalizeIncomingFromRequest x =
        if (x.get "type").isNil = false ∧ (x.get "data").isNil = false then
          [("type", x.get "type"), ("data", x.get "data"),
            ("metadata", if (x.get "metadata").isNil then JSON.object [] else x.get "metadata")]
        else
          [("type", JSON.string "text"),
            ("data", JSON.string (match (x.get "text").asString with
              | some t => t
              | none => "")),
            ("metadata", JSON.object [])] := by
      unfold normalizeIncomingFromRequest
      rw [hp]
      simp only
      by_cases hc : (x.get "type").isNil = false ∧ (x.get "data").isNil = false
      · rw [if_pos hc, if_pos hc]
      · rw [if_neg hc, if_neg hc]
        cases (x.get "text").asString <;> rfl
    have hty : ∀ a b c : JSON,
        Object.get [("type", a), ("data", b), ("metadata", c)] "type" = a := fun _ _ _ => rfl
    have hmd : ∀ a b c : JSON,
        Object.get [("type", a), ("data", b), ("metadata", c)] "metadata" = c :=
      fun _ _ _ => rfl
    refine ⟨?_, ?_, ?_, ?_, ?_, ?_, ?_⟩
    · rw [hN, hty]; rfl
    · rw [hN, hmd]
      exact hmeta _
    · rw [hR]
      by_cases hc : (x.get "type").isNil = false ∧ (x.get "data").isNil = false
      · rw [if_pos hc, hty]
        exact hc.1
      · rw [if_neg hc, hty]
        rfl
    · rw [hR]
      by_cases hc : (x.get "type").isNil = false ∧ (x.get "data").isNil = false
      · rw [if_pos hc, hmd]
        exact hmeta _
      · rw [if_neg hc, hmd]
        rfl
    · intro hv
      refine ⟨?_, ?_⟩
      · rw [hN, hmd]
        exact hmetaObj _ hv
      · rw [hR]
        by_cases hc : (x.get "type").isNil = false ∧ (x.get "data").isNil = false
        · rw [if_pos hc, hmd]
          exact hmetaObj _ hv
        · rw [if_neg hc, hmd]
          exact ⟨[], rfl⟩
    · rw [hN, hmd]
    · rw [hR]
      by_cases hc : (x.get "type").isNil = false ∧ (x.get "data").isNil = false
      · rw [if_pos hc, if_pos hc, hmd]
      · rw [if_neg hc, if_neg hc, hmd]
  · intro p hp
    refine ⟨?_, ?_⟩
    · unfold normalizeIncoming
      rw [hp]
      rfl
    · unfold normalizeIncomingFromRequest
      rw [hp]
      rfl

theorem normalize_canonical_witness :
    (Object.get [("type", JSON.string "image"), ("data", JSON.string "QUJD")]
        "payload").asObject = none ∧
    ((normalizeIncomingFromRequest
        [("type", JSON.string "image"), ("data", JSON.string "QUJD")]).get "type").isNil
      = false ∧
    ((normalizeIncomingFromRequest
        [("type", JSON.string "image"), ("data", JSON.string "QUJD")]).get "metadata").isNil
      = false ∧
    (normalizeIncoming [("text", JSON.string "a"), ("metadata", JSON.string "m")]).get
        "metadata"
      = (if (Object.get [("text", JSON.string "a"), ("metadata", JSON.string "m")]
            "metadata").isNil then JSON.object []
          else Object.get [("text", JSON.string "a"), ("metadata", JSON.string "m")]
            "metadata") ∧
    (normalizeIncoming [("text", JSON.string "a"), ("metadata", JSON.string "m")]).get
        "metadata" = JSON.string "m" ∧
    (normalizeIncomingFromRequest [("text", JSON.string "a"),
        ("metadata", JSON.string "m")]).get "metadata" = JSON.object [] ∧
    (normalizeIncomingFromRequest [("type", JSON.string "text"), ("data", JSON.string "a"),
        ("metadata", JSON.string "m")]).get "metadata" = JSON.string "m" :=
  ⟨rfl,
    ((normalize_canonical
      [("type", JSON.string "image"), ("data", JSON.string "QUJD")]).1 rfl).2.2.1,
    ((normalize_canonical
      [("type", JSON.string "image"), ("data", JSON.string "QUJD")]).1 rfl).2.2.2.1,
    ((normalize_canonical
      [("text", JSON.string "a"), ("metadata", JSON.string "m")]).1 rfl).2.2.2.2.2.1,
    rfl, rfl, rfl⟩

end Normalizers

/-! ## Properties of the pipeline -/

section Pipeline

theorem intEnv_nonneg (v : Option Int) (d : Int) (hd : 0 ≤ d) : 0 ≤ intEnv v d := by
  unfold intEnv
  cases v with
  | none => exact hd
  | some n =>
    simp only
    split_ifs with h
    · exact hd
    · omega

theorem loadClientConfig_MaxRetries_nonneg (e : ClientEnv) :
    0 ≤ (loadClientConfig e).MaxRetries :=
  intEnv_nonneg _ 3 (by decide)

/-- A loop that has an iteration left, or an error in hand, returns a response
or an error. -/
theorem loop_err_none (w : World) (key : String) :
    ∀ (n a : Nat) (b : Duration) (le : Option Error) (cb : CircuitBreaker),
      (n = 0 → le ≠ none) → (attemptLoop w key n a b le cb).err = none →
      ∃ resp, (attemptLoop w key n a b le cb).resp = some resp := by
  intro n
  induction n with
  | zero =>
    intro a b le cb hle h
    exact absurd h (hle rfl)
  | succ n ih =>
    intro a b le cb _ h
    by_cases hc : a > 0 ∧ w.done a = true
    · rw [loop_step_cancel w key n a b le cb hc.1 hc.2] at h
      cases h
    · have hd : a > 0 → w.done a = false := by
        intro ha
        cases hda : w.done a with
        | false => rfl
        | true => exact absurd ⟨ha, hda⟩ hc
      cases hr : retryable (w.post a) with
      | true =>
        rw [loop_step_retry w key n a b le cb hd hr] at h ⊢
        rw [after_err] at h
        rw [after_resp]
        exact ih _ _ _ _ (fun _ => by simp) h
      | false =>
        cases hp : w.post a with
        | error e => rw [hp] at hr; simp [retryable] at hr
        | ok r =>
          rw [loop_step_return w key n a b le cb r hd hp hr]
          exact ⟨r, rfl⟩

/-- With `MaxRetries >= 0` the executor never returns a nil response together
with a nil error. -/
theorem Post_err_none (cfg : ClientConfig) (w : World) (cb : CircuitBreaker) (key : String)
    (hmax : 0 ≤ cfg.MaxRetries) (h : (PostWithRetryAndCircuit cfg w cb key).err = none) :
    ∃ resp, (PostWithRetryAndCircuit cfg w cb key).resp = some resp := by
  cases hA : (cb.Allow w.allowNow key).1 with
  | false =>
    rw [Post_of_rejected cfg w cb key hA] at h
    cases h
  | true =>
    rw [Post_of_allowed cfg w cb key hA] at h ⊢
    exact loop_err_none w key _ _ _ _ _ (fun h0 => by omega) h

theorem stageCall_err_none (g : Deployment) (i : Nat) (payload : Object) (steps : List JSON)
    (cb : CircuitBreaker) (baseURL : String)
    (h : (stageCall g i payload steps cb baseURL).err = none) :
    ∃ resp, (stageCall g i payload steps cb baseURL).resp = some resp :=
  Post_err_none _ _ _ _ (loadClientConfig_MaxRetries_nonneg g.env) h

/-- One iteration of `runPipeline` in which the executor returns an error. -/
theorem runLoop_cons_err (g : Deployment) (name baseURL : String)
    (rest : List (String × String)) (i : Nat) (payload : Object) (steps : List JSON)
    (cb : CircuitBreaker) (e : Error)
    (he : (stageCall g i payload steps cb baseURL).err = some e) :
    runLoop g ((name, baseURL) :: rest) i payload steps cb
      = some { out := pipelineResult payload steps false,
               cb := (stageCall g i payload steps cb baseURL).cb,
               posts := [stageCall g i payload steps cb baseURL] } := by
  unfold stageCall at he
  rw [runLoop]
  simp only [he]
  rfl

/-- One iteration of `runPipeline` in which the executor returns a response
with a status other than 200. -/
theorem runLoop_cons_status (g : Deployment) (name baseURL : String)
    (rest : List (String × String)) (i : Nat) (payload : Object) (steps : List JSON)
    (cb : CircuitBreaker) (resp : Response)
    (he : (stageCall g i payload steps cb baseURL).err = none)
    (hr : (stageCall g i payload steps cb baseURL).resp = some resp)
    (hs : resp.StatusCode ≠ 200) :
    runLoop g ((name, baseURL) :: rest) i payload steps cb
      = some { out := pipelineResult payload steps false,
               cb := (stageCall g i payload steps cb baseURL).cb,
               posts := [stageCall g i payload steps cb baseURL] } := by
  unfold stageCall at he hr
  rw [runLoop]
  simp only [he, hr, if_pos hs]
  rfl

/-- One iteration of `runPipeline` in which the executor returns a response
with status 200. -/
theorem runLoop_cons_ok (g : Deployment) (name baseURL : String)
    (rest : List (String × String)) (i : Nat) (payload : Object) (steps : List JSON)
    (cb : CircuitBreaker) (resp : Response)
    (he : (stageCall g i payload steps cb baseURL).err = none)
    (hr : (stageCall g i payload steps cb baseURL).resp = some resp)
    (hs : resp.StatusCode = 200) :
    runLoop g ((name, baseURL) :: rest) i payload steps cb
      = (runLoop g rest (i + 1) (normalizeIncoming (decodedOrNil g resp.Body))
          (adoptSteps (decodedOrNil g resp.Body) steps)
          (stageCall g i payload steps cb baseURL).cb).map fun run =>
            { run with posts := stageCall g i payload steps cb baseURL :: run.posts } := by
  unfold stageCall at he hr
  rw [runLoop]
  simp only [he, hr, if_neg (not_not.mpr hs)]
  rfl

theorem runLoop_total (g : Deployment) :
    ∀ (stages : List (String × String)) (i : Nat) (payload : Object) (steps : List JSON)
      (cb : CircuitBreaker), ∃ run, runLoop g stages i payload steps cb = some run := by
  intro stages
  induction stages with
  | nil => intro i payload steps cb; exact ⟨_, rfl⟩
  | cons st rest ih =>
    intro i payload steps cb
    obtain ⟨name, baseURL⟩ := st
    cases he : (stageCall g i payload steps cb baseURL).err with
    | some e => exact ⟨_, runLoop_cons_err g name baseURL rest i payload steps cb e he⟩
    | none =>
      obtain ⟨resp, hr⟩ := stageCall_err_none g i payload steps cb baseURL he
      by_cases hs : resp.StatusCode = 200
      · rw [runLoop_cons_ok g name baseURL rest i payload steps cb resp he hr hs]
        obtain ⟨run, hrun⟩ := ih (i + 1) (normalizeIncoming (decodedOrNil g resp.Body))
          (adoptSteps (decodedOrNil g resp.Body) steps)
          (stageCall g i payload steps cb baseURL).cb
        rw [hrun]
        exact ⟨_, rfl⟩
      · exact ⟨_, runLoop_cons_status g name baseURL rest i payload steps cb resp he hr hs⟩

theorem payloadAfter_cons (g : Deployment) (payload : Object) (r : Result)
    (posts : List Result) :
    payloadAfter g payload (r :: posts)
      = payloadAfter g (normalizeIncoming (respData g r)) posts := by
  cases posts with
  | nil => rfl
  | cons x xs =>
    unfold payloadAfter
    rw [List.getLast?_cons_cons, List.getLast?_eq_getLast _ (List.cons_ne_nil _ _)]

theorem stepsAfter_cons (g : Deployment) (steps : List JSON) (r : Result)
    (posts : List Result) :
    stepsAfter g steps (r :: posts) = stepsAfter g (adoptSteps (respData g r) steps) posts := by
  unfold stepsAfter adoptSteps
  rw [List.filterMap_cons]
  cases hr : ((respData g r).get "steps").asArray with
  | none => rfl
  | some s₀ =>
    simp only
    cases hl : List.filterMap (fun r => ((respData g r).get "steps").asArray) posts with
    | nil => rfl
    | cons x xs =>
      rw [List.getLast?_cons_cons, List.getLast?_eq_getLast _ (List.cons_ne_nil _ _)]

/-- A run in which every stage called returned status 200 called every stage,
and returns the payload and history the responses leave, marked stored. -/
theorem runLoop_all_ok (g : Deployment) :
    ∀ (stages : List (String × String)) (i : Nat) (payload : Object) (steps : List JSON)
      (cb : CircuitBreaker) (run : Run),
      runLoop g stages i payload steps cb = some run →
      (∀ r ∈ run.posts, r.ok200) →
      run.posts.length = stages.length ∧
      run.out = pipelineResult (payloadAfter g payload run.posts)
        (stepsAfter g steps run.posts) true := by
  intro stages
  induction stages with
  | nil =>
    intro i payload steps cb run h _
    rw [runLoop] at h
    cases h
    exact ⟨rfl, rfl⟩
  | cons st rest ih =>
    intro i payload steps cb run h hok
    obtain ⟨name, baseURL⟩ := st
    cases he : (stageCall g i payload steps cb baseURL).err with
    | some e =>
      rw [runLoop_cons_err g name baseURL rest i payload steps cb e he] at h
      cases h
      have := (hok _ (List.mem_singleton.mpr rfl)).1
      rw [he] at this
      cases this
    | none =>
      obtain ⟨resp, hr⟩ := stageCall_err_none g i payload steps cb baseURL he
      by_cases hs : resp.StatusCode = 200
      · rw [runLoop_cons_ok g name baseURL rest i payload steps cb resp he hr hs] at h
        cases hrun : runLoop g rest (i + 1) (normalizeIncoming (decodedOrNil g resp.Body))
            (adoptSteps (decodedOrNil g resp.Body) steps)
            (stageCall g i payload steps cb baseURL).cb with
        | none => rw [hrun] at h; cases h
        | some run' =>
          rw [hrun] at h
          simp only [Option.map_some', Option.some.injEq] at h
          subst h
          have hd : respData g (stageCall g i payload steps cb baseURL)
              = decodedOrNil g resp.Body := by
            unfold respData
            rw [hr]
          obtain ⟨hlen, hout⟩ := ih _ _ _ _ run' hrun
            (fun r hr' => hok r (List.mem_cons_of_mem _ hr'))
          refine ⟨by simp [hlen], ?_⟩
          show run'.out = _
          rw [payloadAfter_cons, stepsAfter_cons, hd]
          exact hout
      · rw [runLoop_cons_status g name baseURL rest i payload steps cb resp he hr hs] at h
        cases h
        obtain ⟨_, resp', hr', hs'⟩ := hok _ (List.mem_singleton.mpr rfl)
        rw [hr] at hr'
        cases hr'
        exact absurd hs' hs

/-- The loop reads the deployment's services only through its argument. -/
theorem runLoop_services (g : Deployment) (l : List (String × String)) :
    ∀ (stages : List (String × String)) (i : Nat) (payload : Object) (steps : List JSON)
      (cb : CircuitBreaker),
      runLoop { g with services := l } stages i payload steps cb
        = runLoop g stages i payload steps cb := by
  intro stages
  induction stages with
  | nil => intro i payload steps cb; rfl
  | cons st rest ih =>
    intro i payload steps cb
    obtain ⟨name, baseURL⟩ := st
    rw [runLoop, runLoop]
    simp only [ih]

theorem pipelineResult_inj (p p' : Object) (s s' : List JSON) (b b' : Bool)
    (h : pipelineResult p s b = pipelineResult p' s' b') : p = p' ∧ s = s' ∧ b = b' := by
  unfold pipelineResult at h
  simp only [List.cons.injEq, Prod.mk.injEq, JSON.object.injEq, JSON.array.injEq,
    JSON.bool.injEq, true_and, and_true] at h
  exact ⟨h.1, h.2.1, h.2.2.2⟩

/-- A run in which the executor returned, for the stage called in position `k`,
an error or a response with a status outside 200 to 299 stopped there, with the
payload and history that the stages before `k`, run alone, return. -/
theorem runLoop_halt (g : Deployment) :
    ∀ (stages : List (String × String)) (i : Nat) (payload : Object) (steps : List JSON)
      (cb : CircuitBreaker) (run : Run) (k : Nat) (r : Result),
      runLoop g stages i payload steps cb = some run →
      run.posts[k]? = some r →
      (r.err ≠ none ∨
        ∃ resp, r.resp = some resp ∧ ¬ (200 ≤ resp.StatusCode ∧ resp.StatusCode < 300)) →
      run.posts.length = k + 1 ∧
      ∃ p s before,
        runLoop g (stages.take k) i payload steps cb = some before ∧
        before.out = pipelineResult p s true ∧
        before.posts = run.posts.take k ∧
        run.out = pipelineResult p s false := by
  intro stages
  induction stages with
  | nil =>
    intro i payload steps cb run k r h hk _
    rw [runLoop] at h
    cases h
    simp at hk
  | cons st rest ih =>
    intro i payload steps cb run k r h hk hfail
    obtain ⟨name, baseURL⟩ := st
    have hstop : ∀ run₀ : Run, run₀.posts = [stageCall g i payload steps cb baseURL] →
        run₀.out = pipelineResult payload steps false → run = run₀ →
        run.posts.length = k + 1 ∧
        ∃ p s before,
          runLoop g (((name, baseURL) :: rest).take k) i payload steps cb = some before ∧
          before.out = pipelineResult p s true ∧
          before.posts = run.posts.take k ∧
          run.out = pipelineResult p s false := by
      intro run₀ hposts hout hrun
      subst hrun
      rw [hposts] at hk ⊢
      cases k with
      | zero =>
        refine ⟨rfl, payload, steps, _, rfl, rfl, rfl, hout⟩
      | succ k => simp at hk
    cases he : (stageCall g i payload steps cb baseURL).err with
    | some e =>
      rw [runLoop_cons_err g name baseURL rest i payload steps cb e he] at h
      exact hstop _ rfl rfl (Option.some.inj h).symm
    | none =>
      obtain ⟨resp, hr⟩ := stageCall_err_none g i payload steps cb baseURL he
      by_cases hs : resp.StatusCode = 200
      · rw [runLoop_cons_ok g name baseURL rest i payload steps cb resp he hr hs] at h
        cases hrun : runLoop g rest (i + 1) (normalizeIncoming (decodedOrNil g resp.Body))
            (adoptSteps (decodedOrNil g resp.Body) steps)
            (stageCall g i payload steps cb baseURL).cb with
        | none => rw [hrun] at h; cases h
        | some run' =>
          rw [hrun] at h
          simp only [Option.map_some', Option.some.injEq] at h
          subst h
          cases k with
          | zero =>
            simp only [List.getElem?_cons_zero, Option.some.injEq] at hk
            subst hk
            rcases hfail with hne | ⟨resp', hr', h2⟩
            · exact absurd he hne
            · rw [hr] at hr'
              cases hr'
              exact absurd ⟨by omega, by omega⟩ h2
          | succ k =>
            simp only [List.getElem?_cons_succ] at hk
            obtain ⟨hlen, p, s, before, hb, hbo, hbp, hro⟩ :=
              ih _ _ _ _ run' k r hrun hk hfail
            refine ⟨by simp [hlen], p, s,
              { before with posts := stageCall g i payload steps cb baseURL :: before.posts },
              ?_, hbo, ?_, hro⟩
            · rw [List.take_succ_cons,
                runLoop_cons_ok g name baseURL _ i payload steps cb resp he hr hs, hb]
              rfl
            · simp [hbp]
      · rw [runLoop_cons_status g name baseURL rest i payload steps cb resp he hr hs] at h
        exact hstop _ rfl rfl (Option.some.inj h).symm

/-- C11. `runPipeline` returns. If the executor returned, for the stage called
in position `k` (counted from 0), an error or a response with a status outside
200 to 299, then no stage after `k` was called and the map returned has
`stored` false, with the `payload` and `steps` that a run of the first `k`
stages alone returns, which are the initial payload and the empty history
when `k = 0`, and with `result` the `data` field of that payload. -/
theorem runPipeline_halt (g : Deployment) (initial : Object) (cb : CircuitBreaker) :
    ∃ run, runPipeline g initial cb = some run ∧
      ∀ (k : Nat) (r : Result), run.posts[k]? = some r →
        (r.err ≠ none ∨
          ∃ resp, r.resp = some resp ∧ ¬ (200 ≤ resp.StatusCode ∧ resp.StatusCode < 300)) →
        run.posts.length = k + 1 ∧
        run.out.get "stored" = JSON.bool false ∧
        ∃ payload steps before,
          runPipeline { g with services := g.services.take k } initial cb = some before ∧
          before.out = pipelineResult payload steps true ∧
          before.posts = run.posts.take k ∧
          run.out.get "payload" = JSON.object payload ∧
          run.out.get "steps" = JSON.array steps ∧
          run.out.get "result" = payload.get "data" ∧
          (k = 0 → payload = initial ∧ steps = []) := by
  obtain ⟨run, hrun⟩ := runLoop_total g g.services 0 initial [] cb
  refine ⟨run, hrun, ?_⟩
  intro k r hk hfail
  obtain ⟨hlen, p, s, before, hb, hbo, hbp, hro⟩ :=
    runLoop_halt g g.services 0 initial [] cb run k r hrun hk hfail
  refine ⟨hlen, by rw [hro]; rfl, p, s, before, ?_, hbo, hbp, by rw [hro]; rfl,
    by rw [hro]; rfl, by rw [hro]; rfl, ?_⟩
  · show runLoop _ (g.services.take k) 0 initial [] cb = some before
    rw [runLoop_services]
    exact hb
  · intro h0
    subst h0
    rw [List.take_zero, runLoop] at hb
    cases hb
    obtain ⟨h1, h2, _⟩ := pipelineResult_inj _ _ _ _ _ _ hbo
    exact ⟨h1.symm, h2.symm⟩

theorem runPipeline_halt_witness :
    ∃ run, runPipeline (sampleDeployment [(200, "hello"), (404, ""), (200, "hello")])
        [("type", JSON.string "text")] sampleBreaker = some run ∧
      run.posts.length = 2 ∧
      run.out.get "stored" = JSON.bool false ∧
      run.out.get "payload" = JSON.object [("type", JSON.string "text"),
        ("data", JSON.string "hello"), ("metadata", JSON.object [])] := by
  obtain ⟨run, hrun, h⟩ := runPipeline_halt
    (sampleDeployment [(200, "hello"), (404, ""), (200, "hello")])
    [("type", JSON.string "text")] sampleBreaker
  have hposts : run.posts.map (fun r => (r.err, r.resp))
      = [(none, some { StatusCode := 200, Body := "hello" }),
         (none, some { StatusCode := 404, Body := "" })] := by
    have he : (runPipeline (sampleDeployment [(200, "hello"), (404, ""), (200, "hello")])
        [("type", JSON.string "text")] sampleBreaker).map
        (fun run => run.posts.map fun r => (r.err, r.resp))
        = some [(none, some { StatusCode := 200, Body := "hello" }),
                (none, some { StatusCode := 404, Body := "" })] := by decide
    rw [hrun] at he
    exact Option.some.inj he
  have hpayload : run.out.get "payload" = JSON.object [("type", JSON.string "text"),
      ("data", JSON.string "hello"), ("metadata", JSON.object [])] := by
    have he : (runPipeline (sampleDeployment [(200, "hello"), (404, ""), (200, "hello")])
        [("type", JSON.string "text")] sampleBreaker).map (fun run => run.out.get "payload")
        = some (JSON.object [("type", JSON.string "text"),
            ("data", JSON.string "hello"), ("metadata", JSON.object [])]) := rfl
    rw [hrun] at he
    exact Option.some.inj he
  obtain ⟨r, hr1, hr2⟩ : ∃ r, run.posts[1]? = some r ∧
      r.resp = some { StatusCode := 404, Body := "" } := by
    have h1 : (run.posts.map fun r => (r.err, r.resp))[1]?
        = some (none, some { StatusCode := 404, Body := "" }) := by
      rw [hposts]
      rfl
    rw [List.getElem?_map, Option.map_eq_some'] at h1
    obtain ⟨r, hr, hpair⟩ := h1
    exact ⟨r, hr, (Prod.mk.inj hpair).2⟩
  obtain ⟨hlen, hstored, _⟩ := h 1 r hr1 (Or.inr ⟨_, hr2, by decide⟩)
  exact ⟨run, hrun, hlen, hstored, hpayload⟩

/-- C12 fails in the buffered mode. The body `bad` of stage `s0` does not
decode; `processStream` stops at `s0` with an `error` event, but `runPipeline`
drops the error of `Decode`, calls stage `s1` as well and returns `stored`
true. -/
theorem runPipeline_ignores_decode_failure :
    sampleDecode "bad" = Except.error "invalid character" ∧
    ((runPipeline (sampleDeployment [(200, "bad"), (200, "hello")])
        [("type", JSON.string "text")] sampleBreaker).map fun run =>
          (run.posts.map fun r => r.resp.map fun resp => (resp.StatusCode, resp.Body)))
      = some [some (200, "bad"), some (200, "hello")] ∧
    ((runPipeline (sampleDeployment [(200, "bad"), (200, "hello")])
        [("type", JSON.string "text")] sampleBreaker).map fun run => run.out.get "stored")
      = some (JSON.bool true) ∧
    ((processStream (sampleDeployment [(200, "bad"), (200, "hello")]) "trace" "hello"
        sampleBreaker).map fun s => s.posts.length) = some 1 ∧
    ((processStream (sampleDeployment [(200, "bad"), (200, "hello")]) "trace" "hello"
        sampleBreaker).map fun s => s.events)
      = some [SSE.started "trace" [("type", JSON.string "text"),
                ("data", JSON.string "hello"), ("metadata", JSON.object [])],
              SSE.error "s0" "invalid character"] :=
  ⟨rfl, by decide, rfl, by decide, rfl⟩

/-- C13 fails. Stage `s0` answers 503 to every attempt, so `runPipeline`
returns `stored` false; the reply of `processJSON` carries `stored` true. -/
theorem processJSON_stored_constant :
    ((processJSON (sampleDeployment [(503, "")]) "trace" "hello" sampleBreaker).map
        fun x => x.2.map fun run => run.out.get "stored") = some (some (JSON.bool false)) ∧
    ((processJSON (sampleDeployment [(503, "")]) "trace" "hello" sampleBreaker).map
        fun x => x.1.body.get "stored") = some (JSON.bool true) :=
  ⟨rfl, rfl⟩

theorem stepsAfter_of_none (g : Deployment) (steps : List JSON) (posts : List Result)
    (h : ∀ r ∈ posts, ((respData g r).get "steps").asArray = none) :
    stepsAfter g steps posts = steps := by
  unfold stepsAfter
  have hnil : posts.filterMap (fun r => ((respData g r).get "steps").asArray) = [] := by
    rw [List.filterMap_eq_nil_iff]
    exact h
  rw [hnil]
  rfl

theorem stepsAfter_append_one (g : Deployment) (steps : List JSON) (front : List Result)
    (last : Result) :
    stepsAfter g steps (front ++ [last])
      = match ((respData g last).get "steps").asArray with
        | some s => s
        | none => stepsAfter g steps front := by
  unfold stepsAfter
  rw [List.filterMap_append]
  cases hl : ((respData g last).get "steps").asArray with
  | none => simp [List.filterMap_cons, hl]
  | some s => simp [List.filterMap_cons, hl]

theorem payloadAfter_of_last (g : Deployment) (payload : Object) (posts : List Result)
    (last : Result) (h : posts.getLast? = some last) :
    payloadAfter g payload posts = normalizeIncoming (respData g last) := by
  unfold payloadAfter
  rw [h]

/-- C14, as stated, fails. Three stages each answer 200 with the body `hello`,
a response without `steps`: all three succeed and the run is stored, but the
step history returned is empty, not of three entries. -/
theorem runPipeline_history_not_appended :
    ((runPipeline (sampleDeployment [(200, "hello"), (200, "hello"), (200, "hello")])
        [("type", JSON.string "text")] sampleBreaker).map fun run =>
          (run.posts.map fun r => (r.err, r.resp.map fun resp => resp.StatusCode)))
      = some [(none, some 200), (none, some 200), (none, some 200)] ∧
    ((runPipeline (sampleDeployment [(200, "hello"), (200, "hello"), (200, "hello")])
        [("type", JSON.string "text")] sampleBreaker).map fun run => run.out.get "stored")
      = some (JSON.bool true) ∧
    ((runPipeline (sampleDeployment [(200, "hello"), (200, "hello"), (200, "hello")])
        [("type", JSON.string "text")] sampleBreaker).map fun run => run.out.get "steps")
      = some (JSON.array []) ∧
    ([] : List JSON).length ≠ 3 :=
  ⟨by decide, rfl, rfl, by decide⟩

/-- C14, amended. `runPipeline` returns. When every stage it called returned
status 200 with a body that decodes, it called every stage of the pipeline and
returns `stored` true. It adds no entry of its own to the step history: the
history returned is the `steps` array of the last response that supplied one,
hence empty when none did and the array of the last stage's response when that
response supplies one, so that it has as many entries as that array and not
one per stage. -/
theorem runPipeline_history (g : Deployment) (initial : Object) (cb : CircuitBreaker) :
    ∃ run, runPipeline g initial cb = some run ∧
      ((∀ r ∈ run.posts, ∃ resp data, r.err = none ∧ r.resp = some resp ∧
          resp.StatusCode = 200 ∧ g.Decode resp.Body = Except.ok data) →
        run.posts.length = g.services.length ∧
        run.out.get "stored" = JSON.bool true ∧
        ∃ steps : List JSON, run.out.get "steps" = JSON.array steps ∧
          ((∀ r ∈ run.posts, ∀ resp data, r.resp = some resp →
              g.Decode resp.Body = Except.ok data → (data.get "steps").asArray = none) →
            steps = []) ∧
          (∀ last resp data s, run.posts.getLast? = some last → last.resp = some resp →
            g.Decode resp.Body = Except.ok data → (data.get "steps").asArray = some s →
            steps = s ∧ steps.length = s.length) ∧
          (∀ front back p resp data s, run.posts = front ++ p :: back →
            p.resp = some resp → g.Decode resp.Body = Except.ok data →
            (data.get "steps").asArray = some s →
            (∀ r ∈ back, ∀ resp' data', r.resp = some resp' →
              g.Decode resp'.Body = Except.ok data' → (data'.get "steps").asArray = none) →
            steps = s)) := by
  obtain ⟨run, hrun⟩ := runLoop_total g g.services 0 initial [] cb
  refine ⟨run, hrun, ?_⟩
  intro hdec
  have hok : ∀ r ∈ run.posts, r.ok200 := by
    intro r hr
    obtain ⟨resp, _, he, hresp, hs, _⟩ := hdec r hr
    exact ⟨he, resp, hresp, hs⟩
  have hdata : ∀ (r : Result) (resp : Response) (data : Object), r.resp = some resp →
      g.Decode resp.Body = Except.ok data → respData g r = data := by
    intro r resp data hresp hd
    unfold respData decodedOrNil
    rw [hresp]
    simp only [hd]
  obtain ⟨hlen, hout⟩ := runLoop_all_ok g g.services 0 initial [] cb run hrun hok
  have hsteps : run.out.get "steps" = JSON.array (stepsAfter g [] run.posts) := by
    rw [hout]; rfl
  refine ⟨hlen, by rw [hout]; rfl, stepsAfter g [] run.posts, hsteps, ?_, ?_, ?_⟩
  · intro hnone
    apply stepsAfter_of_none
    intro r hr
    obtain ⟨resp, data, _, hresp, _, hd⟩ := hdec r hr
    rw [hdata r resp data hresp hd]
    exact hnone r hr resp data hresp hd
  · intro last resp data s hlast hresp hd hs
    obtain ⟨front, hfront⟩ : ∃ front, run.posts = front ++ [last] := by
      rw [List.getLast?_eq_some_iff] at hlast
      exact hlast
    rw [hfront, stepsAfter_append_one, hdata last resp data hresp hd, hs]
    exact ⟨rfl, rfl⟩
  · intro front back p resp data s hsplit hresp hd hs hnone
    have hback : ∀ (back : List Result) (steps : List JSON),
        (∀ r ∈ back, ((respData g r).get "steps").asArray = none) →
        stepsAfter g steps back = steps := by
      intro back
      induction back with
      | nil => intro steps _; rfl
      | cons r rest ih =>
        intro steps h
        rw [stepsAfter_cons]
        have hr := h r (List.mem_cons_self _ _)
        have hadopt : adoptSteps (respData g r) steps = steps := by
          unfold adoptSteps
          rw [hr]
        rw [hadopt]
        exact ih steps (fun x hx => h x (List.mem_cons_of_mem _ hx))
    have hfront : ∀ (front : List Result) (steps : List JSON) (rest : List Result),
        stepsAfter g steps (front ++ [p] ++ rest)
          = stepsAfter g (stepsAfter g steps (front ++ [p])) rest := by
      intro front
      induction front with
      | nil =>
        intro steps rest
        show stepsAfter g steps (p :: rest) = stepsAfter g (stepsAfter g steps [p]) rest
        rw [stepsAfter_cons, stepsAfter_cons]
        rfl
      | cons r front ih =>
        intro steps rest
        show stepsAfter g steps (r :: (front ++ [p] ++ rest))
          = stepsAfter g (stepsAfter g steps (r :: (front ++ [p]))) rest
        rw [stepsAfter_cons, stepsAfter_cons]
        exact ih _ rest
    have hsplit2 : run.posts = front ++ [p] ++ back := by
      rw [hsplit]
      simp
    rw [hsplit2, hfront front [] back, stepsAfter_append_one, hdata p resp data hresp hd, hs]
    apply hback
    intro r hr
    have hmem : r ∈ run.posts := by
      rw [hsplit]
      exact List.mem_append_right _ (List.mem_cons_of_mem _ hr)
    obtain ⟨resp', data', _, hresp', _, hd'⟩ := hdec r hmem
    rw [hdata r resp' data' hresp' hd']
    exact hnone r hr resp' data' hresp' hd'

theorem runPipeline_history_witness :
    ∃ run, runPipeline (sampleDeployment [(200, "hello"), (200, "full")])
        [("type", JSON.string "text")] sampleBreaker = some run ∧
      run.posts.length = 2 ∧
      run.out.get "stored" = JSON.bool true ∧
      run.out.get "steps" = JSON.array [JSON.object [("service", JSON.string "upper"),
          ("input", JSON.string "hello"), ("output", JSON.string "HELLO"),
          ("status", JSON.string "ok")]] := by
  obtain ⟨run, hrun, h⟩ := runPipeline_history (sampleDeployment [(200, "hello"), (200, "full")])
    [("type", JSON.string "text")] sampleBreaker
  have hposts : run.posts.map (fun r => (r.err, r.resp))
      = [(none, some { StatusCode := 200, Body := "hello" }),
         (none, some { StatusCode := 200, Body := "full" })] := by
    have he : (runPipeline (sampleDeployment [(200, "hello"), (200, "full")])
        [("type", JSON.string "text")] sampleBreaker).map
        (fun run => run.posts.map fun r => (r.err, r.resp))
        = some [(none, some { StatusCode := 200, Body := "hello" }),
                (none, some { StatusCode := 200, Body := "full" })] := by decide
    rw [hrun] at he
    exact Option.some.inj he
  have hdec : ∀ r ∈ run.posts, ∃ resp data, r.err = none ∧ r.resp = some resp ∧
      resp.StatusCode = 200 ∧
      (sampleDeployment [(200, "hello"), (200, "full")]).Decode resp.Body = Except.ok data := by
    intro r hr
    have hmem : (r.err, r.resp) ∈ run.posts.map (fun r => (r.err, r.resp)) :=
      List.mem_map_of_mem _ hr
    rw [hposts] at hmem
    simp only [List.mem_cons, Prod.mk.injEq, List.mem_nil_iff, or_false] at hmem
    rcases hmem with ⟨he, hresp⟩ | ⟨he, hresp⟩
    · exact ⟨_, _, he, hresp, rfl, rfl⟩
    · exact ⟨_, _, he, hresp, rfl, rfl⟩
  obtain ⟨hlen, hstored, steps, hsteps, _, hlast, _⟩ := h hdec
  obtain ⟨last, hl1, hl2⟩ : ∃ last, run.posts.getLast? = some last ∧
      last.resp = some { StatusCode := 200, Body := "full" } := by
    have h1 : (run.posts.map fun r => (r.err, r.resp)).getLast?
        = some (none, some { StatusCode := 200, Body := "full" }) := by
      rw [hposts]
      rfl
    rw [List.getLast?_map, Option.map_eq_some'] at h1
    obtain ⟨r, hr, hpair⟩ := h1
    exact ⟨r, hr, (Prod.mk.inj hpair).2⟩
  have hval := (hlast last _ _ _ hl1 hl2 rfl rfl).1
  rw [hval] at hsteps
  exact ⟨run, hrun, hlen, hstored, hsteps⟩

/-- C15. `runPipeline` returns. When every stage it called returned status 200
with a body that decodes, it called every stage and returns `stored` true;
`payload` is `normalizeIncoming` of the decoded response of the last stage,
and the initial payload when the pipeline is empty; `result` is the `data`
field of that payload; `steps` is the `steps` array of the last response that
supplied one, and the empty history when none did: after each response, a
supplied array is the whole history and a response without one leaves the
history as it was. -/
theorem runPipeline_success (g : Deployment) (initial : Object) (cb : CircuitBreaker) :
    ∃ run, runPipeline g initial cb = some run ∧
      ((∀ r ∈ run.posts, ∃ resp data, r.err = none ∧ r.resp = some resp ∧
          resp.StatusCode = 200 ∧ g.Decode resp.Body = Except.ok data) →
        run.posts.length = g.services.length ∧
        run.out.get "stored" = JSON.bool true ∧
        ∃ (payload : Object) (steps : List JSON),
          run.out.get "payload" = JSON.object payload ∧
          run.out.get "result" = payload.get "data" ∧
          run.out.get "steps" = JSON.array steps ∧
          (g.services = [] → payload = initial ∧ steps = []) ∧
          (∀ last resp data, run.posts.getLast? = some last → last.resp = some resp →
            g.Decode resp.Body = Except.ok data → payload = normalizeIncoming data) ∧
          steps = stepsAfter g [] run.posts ∧
          ((∀ r ∈ run.posts, ∀ resp data, r.resp = some resp →
              g.Decode resp.Body = Except.ok data → (data.get "steps").asArray = none) →
            steps = []) ∧
          (∀ front last resp data, last.resp = some resp →
            g.Decode resp.Body = Except.ok data →
            stepsAfter g [] (front ++ [last])
              = match (data.get "steps").asArray with
                | some s => s
                | none => stepsAfter g [] front)) := by
  obtain ⟨run, hrun⟩ := runLoop_total g g.services 0 initial [] cb
  refine ⟨run, hrun, ?_⟩
  intro hdec
  have hok : ∀ r ∈ run.posts, r.ok200 := by
    intro r hr
    obtain ⟨resp, _, he, hresp, hs, _⟩ := hdec r hr
    exact ⟨he, resp, hresp, hs⟩
  have hdata : ∀ (r : Result) (resp : Response) (data : Object), r.resp = some resp →
      g.Decode resp.Body = Except.ok data → respData g r = data := by
    intro r resp data hresp hd
    unfold respData decodedOrNil
    rw [hresp]
    simp only [hd]
  obtain ⟨hlen, hout⟩ := runLoop_all_ok g g.services 0 initial [] cb run hrun hok
  refine ⟨hlen, by rw [hout]; rfl, payloadAfter g initial run.posts,
    stepsAfter g [] run.posts, by rw [hout]; rfl, by rw [hout]; rfl, by rw [hout]; rfl,
    ?_, ?_, rfl, ?_, ?_⟩
  · intro hnil
    rw [hnil] at hlen
    have hp : run.posts = [] := List.length_eq_zero.mp hlen
    rw [hp]
    exact ⟨rfl, rfl⟩
  · intro last resp data hlast hresp hd
    rw [payloadAfter_of_last g initial run.posts last hlast, hdata last resp data hresp hd]
  · intro hnone
    apply stepsAfter_of_none
    intro r hr
    obtain ⟨resp, data, _, hresp, _, hd⟩ := hdec r hr
    rw [hdata r resp data hresp hd]
    exact hnone r hr resp data hresp hd
  · intro front last resp data hresp hd
    rw [stepsAfter_append_one, hdata last resp data hresp hd]

theorem runPipeline_success_witness :
    ∃ run, runPipeline (sampleDeployment [(200, "full"), (200, "hello")])
        [("type", JSON.string "text")] sampleBreaker = some run ∧
      run.posts.length = 2 ∧
      run.out.get "stored" = JSON.bool true ∧
      run.out.get "payload" = JSON.object [("type", JSON.string "text"),
        ("data", JSON.string "hello"), ("metadata", JSON.object [])] ∧
      run.out.get "steps" = JSON.array [JSON.object [("service", JSON.string "upper"),
          ("input", JSON.string "hello"), ("output", JSON.string "HELLO"),
          ("status", JSON.string "ok")]] := by
  obtain ⟨run, hrun, h⟩ := runPipeline_success (sampleDeployment [(200, "full"), (200, "hello")])
    [("type", JSON.string "text")] sampleBreaker
  have hposts : run.posts.map (fun r => (r.err, r.resp))
      = [(none, some { StatusCode := 200, Body := "full" }),
         (none, some { StatusCode := 200, Body := "hello" })] := by
    have he : (runPipeline (sampleDeployment [(200, "full"), (200, "hello")])
        [("type", JSON.string "text")] sampleBreaker).map
        (fun run => run.posts.map fun r => (r.err, r.resp))
        = some [(none, some { StatusCode := 200, Body := "full" }),
                (none, some { StatusCode := 200, Body := "hello" })] := by decide
    rw [hrun] at he
    exact Option.some.inj he
  have hdec : ∀ r ∈ run.posts, ∃ resp data, r.err = none ∧ r.resp = some resp ∧
      resp.StatusCode = 200 ∧
      (sampleDeployment [(200, "full"), (200, "hello")]).Decode resp.Body = Except.ok data := by
    intro r hr
    have hmem : (r.err, r.resp) ∈ run.posts.map (fun r => (r.err, r.resp)) :=
      List.mem_map_of_mem _ hr
    rw [hposts] at hmem
    simp only [List.mem_cons, Prod.mk.injEq, List.mem_nil_iff, or_false] at hmem
    rcases hmem with ⟨he, hresp⟩ | ⟨he, hresp⟩
    · exact ⟨_, _, he, hresp, rfl, rfl⟩
    · exact ⟨_, _, he, hresp, rfl, rfl⟩
  obtain ⟨hlen, hstored, payload, steps, hp, _, hs, _, hlastp, hsteps, _, _⟩ := h hdec
  have hpay : run.out.get "payload" = JSON.object [("type", JSON.string "text"),
      ("data", JSON.string "hello"), ("metadata", JSON.object [])] := by
    have he : (runPipeline (sampleDeployment [(200, "full"), (200, "hello")])
        [("type", JSON.string "text")] sampleBreaker).map (fun run => run.out.get "payload")
        = some (JSON.object [("type", JSON.string "text"),
            ("data", JSON.string "hello"), ("metadata", JSON.object [])]) := rfl
    rw [hrun] at he
    exact Option.some.inj he
  have hst : run.out.get "steps" = JSON.array [JSON.object [("service", JSON.string "upper"),
      ("input", JSON.string "hello"), ("output", JSON.string "HELLO"),
      ("status", JSON.string "ok")]] := by
    have he : (runPipeline (sampleDeployment [(200, "full"), (200, "hello")])
        [("type", JSON.string "text")] sampleBreaker).map (fun run => run.out.get "steps")
        = some (JSON.array [JSON.object [("service", JSON.string "upper"),
          ("input", JSON.string "hello"), ("output", JSON.string "HELLO"),
          ("status", JSON.string "ok")]]) := rfl
    rw [hrun] at he
    exact Option.some.inj he
  exact ⟨run, hrun, hlen, hstored, hpay, hst⟩

end Pipeline

/-! ## Properties of the event stream -/

section Streaming

/-- One iteration of `processStream` in which the executor returns an error. -/
theorem streamLoop_cons_err (g : Deployment) (traceID name baseURL : String)
    (rest : List (String × String)) (i : Nat) (current : Object) (steps : List JSON)
    (cb : CircuitBreaker) (e : Error)
    (he : (stageCall g i current steps cb baseURL).err = some e) :
    streamLoop g traceID ((name, baseURL) :: rest) i current steps cb
      = some { status := 200, reply := [], events := [SSE.error name e.Error],
               cb := (stageCall g i current steps cb baseURL).cb,
               posts := [stageCall g i current steps cb baseURL] } := by
  unfold stageCall at he
  rw [streamLoop]
  simp only [he]
  rfl

/-- One iteration of `processStream` in which the executor returns a response
with a status other than 200. -/
theorem streamLoop_cons_status (g : Deployment) (traceID name baseURL : String)
    (rest : List (String × String)) (i : Nat) (current : Object) (steps : List JSON)
    (cb : CircuitBreaker) (resp : Response)
    (he : (stageCall g i current steps cb baseURL).err = none)
    (hr : (stageCall g i current steps cb baseURL).resp = some resp)
    (hs : resp.StatusCode ≠ 200) :
    streamLoop g traceID ((name, baseURL) :: rest) i current steps cb
      = some { status := 200, reply := [], events := [SSE.error name resp.Body],
               cb := (stageCall g i current steps cb baseURL).cb,
               posts := [stageCall g i current steps cb baseURL] } := by
  unfold stageCall at he hr
  rw [streamLoop]
  simp only [he, hr, if_pos hs]
  rfl

/-- One iteration of `processStream` in which the body of a response with
status 200 does not decode. -/
theorem streamLoop_cons_decode (g : Deployment) (traceID name baseURL : String)
    (rest : List (String × String)) (i : Nat) (current : Object) (steps : List JSON)
    (cb : CircuitBreaker) (resp : Response) (msg : String)
    (he : (stageCall g i current steps cb baseURL).err = none)
    (hr : (stageCall g i current steps cb baseURL).resp = some resp)
    (hs : resp.StatusCode = 200) (hd : g.Decode resp.Body = Except.error msg) :
    streamLoop g traceID ((name, baseURL) :: rest) i current steps cb
      = some { status := 200, reply := [], events := [SSE.error name msg],
               cb := (stageCall g i current steps cb baseURL).cb,
               posts := [stageCall g i current steps cb baseURL] } := by
  unfold stageCall at he hr
  rw [streamLoop]
  simp only [he, hr, if_neg (not_not.mpr hs), hd]
  rfl

/-- One iteration of `processStream` in which the body of a response with
status 200 decodes. -/
theorem streamLoop_cons_ok (g : Deployment) (traceID name baseURL : String)
    (rest : List (String × String)) (i : Nat) (current : Object) (steps : List JSON)
    (cb : CircuitBreaker) (resp : Response) (data : Object)
    (he : (stageCall g i current steps cb baseURL).err = none)
    (hr : (stageCall g i current steps cb baseURL).resp = some resp)
    (hs : resp.StatusCode = 200) (hd : g.Decode resp.Body = Except.ok data) :
    streamLoop g traceID ((name, baseURL) :: rest) i current steps cb
      = (streamLoop g traceID rest (i + 1) (normalizeIncoming data) (adoptSteps data steps)
          (stageCall g i current steps cb baseURL).cb).map fun s =>
            { s with
              events := stepEvent name (normalizeIncoming data) (adoptSteps data steps)
                :: s.events
              posts := stageCall g i current steps cb baseURL :: s.posts } := by
  unfold stageCall at he hr
  rw [streamLoop]
  simp only [he, hr, if_neg (not_not.mpr hs), hd]
  rfl

/-- C18, as stated, fails. Stage `s0` answers 201, a 2xx status, with the body
`hello`, which decodes; the executor returns that response without an error,
yet `runPipeline` stops at `s0` with `stored` false and `processStream` sends
`error` for `s0`: neither calls stage `s1`. -/
theorem status_201_halts :
    sampleDecode "hello" = Except.ok [("text", JSON.string "hello")] ∧
    ((runPipeline (sampleDeployment [(201, "hello"), (200, "hello")])
        [("type", JSON.string "text")] sampleBreaker).map fun run =>
          (run.posts.map fun r => (r.err, r.resp)))
      = some [(none, some { StatusCode := 201, Body := "hello" })] ∧
    ((runPipeline (sampleDeployment [(201, "hello"), (200, "hello")])
        [("type", JSON.string "text")] sampleBreaker).map fun run => run.out.get "stored")
      = some (JSON.bool false) ∧
    ((processStream (sampleDeployment [(201, "hello"), (200, "hello")]) "trace" "hello"
        sampleBreaker).map fun s => (s.posts.map fun r => (r.err, r.resp)))
      = some [(none, some { StatusCode := 201, Body := "hello" })] ∧
    ((processStream (sampleDeployment [(201, "hello"), (200, "hello")]) "trace" "hello"
        sampleBreaker).map fun s => s.events)
      = some [SSE.started "trace" [("type", JSON.string "text"),
                ("data", JSON.string "hello"), ("metadata", JSON.object [])],
              SSE.error "s0" "hello"] :=
  ⟨rfl, by decide, rfl, by decide, rfl⟩

/-- C18, amended. Let the executor return, for a stage, no error and a response
whose body decodes. When the status is 200, `runPipeline` and `processStream`
both take the normalized response as the payload, and its `steps` array, if it
has one, as the history, and go on to the next stage, `processStream` after a
`step` event. When the status is any other, 2xx included, both stop at this
stage: `runPipeline` returns the payload and history it had, with `stored`
false, and `processStream` sends `error`. -/
theorem stage_status_200_proceeds (g : Deployment) (traceID name baseURL : String)
    (rest : List (String × String)) (i : Nat) (payload : Object) (steps : List JSON)
    (cb : CircuitBreaker) (resp : Response) (data : Object)
    (he : (stageCall g i payload steps cb baseURL).err = none)
    (hr : (stageCall g i payload steps cb baseURL).resp = some resp)
    (hd : g.Decode resp.Body = Except.ok data) :
    (resp.StatusCode = 200 →
      runLoop g ((name, baseURL) :: rest) i payload steps cb
        = (runLoop g rest (i + 1) (normalizeIncoming data) (adoptSteps data steps)
            (stageCall g i payload steps cb baseURL).cb).map (fun run =>
              { run with posts := stageCall g i payload steps cb baseURL :: run.posts }) ∧
      streamLoop g traceID ((name, baseURL) :: rest) i payload steps cb
        = (streamLoop g traceID rest (i + 1) (normalizeIncoming data) (adoptSteps data steps)
            (stageCall g i payload steps cb baseURL).cb).map (fun s =>
              { s with
                events := stepEvent name (normalizeIncoming data) (adoptSteps data steps)
                  :: s.events
                posts := stageCall g i payload steps cb baseURL :: s.posts })) ∧
    (resp.StatusCode ≠ 200 →
      runLoop g ((name, baseURL) :: rest) i payload steps cb
        = some { out := pipelineResult payload steps false,
                 cb := (stageCall g i payload steps cb baseURL).cb,
                 posts := [stageCall g i payload steps cb baseURL] } ∧
      streamLoop g traceID ((name, baseURL) :: rest) i payload steps cb
        = some { status := 200, reply := [], events := [SSE.error name resp.Body],
                 cb := (stageCall g i payload steps cb baseURL).cb,
                 posts := [stageCall g i payload steps cb baseURL] }) := by
  refine ⟨?_, ?_⟩
  · intro hs
    refine ⟨?_, streamLoop_cons_ok g traceID name baseURL rest i payload steps cb resp data
      he hr hs hd⟩
    rw [runLoop_cons_ok g name baseURL rest i payload steps cb resp he hr hs]
    have hdn : decodedOrNil g resp.Body = data := by
      unfold decodedOrNil
      rw [hd]
    rw [hdn]
  · intro hs
    exact ⟨runLoop_cons_status g name baseURL rest i payload steps cb resp he hr hs,
      streamLoop_cons_status g traceID name baseURL rest i payload steps cb resp he hr hs⟩

theorem stage_status_200_proceeds_witness :
    (stageCall (sampleDeployment [(200, "hello")]) 0 [] [] sampleBreaker "http://s0").err
      = none ∧
    (stageCall (sampleDeployment [(200, "hello")]) 0 [] [] sampleBreaker "http://s0").resp
      = some { StatusCode := 200, Body := "hello" } ∧
    (sampleDeployment [(200, "hello")]).Decode "hello"
      = Except.ok [("text", JSON.string "hello")] ∧
    runLoop (sampleDeployment [(200, "hello")]) [("s0", "http://s0")] 0 [] [] sampleBreaker
      = (runLoop (sampleDeployment [(200, "hello")]) [] 1
          (normalizeIncoming [("text", JSON.string "hello")])
          (adoptSteps [("text", JSON.string "hello")] [])
          (stageCall (sampleDeployment [(200, "hello")]) 0 [] [] sampleBreaker
            "http://s0").cb).map (fun run =>
            { run with
              posts := stageCall (sampleDeployment [(200, "hello")]) 0 [] [] sampleBreaker
                "http://s0" :: run.posts }) :=
  ⟨by decide, by decide, rfl,
    ((stage_status_200_proceeds (sampleDeployment [(200, "hello")]) "trace" "s0" "http://s0"
      [] 0 [] [] sampleBreaker { StatusCode := 200, Body := "hello" }
      [("text", JSON.string "hello")] (by decide) (by decide) rfl).1 rfl).1⟩

/-- The loop of `processStream` returns, and sends one `step` event for each
stage that completes, in order, up to the first stage that does not, and then
one last event: `done` when every stage completed, `error` for the first stage
that did not. -/
theorem streamLoop_shape (g : Deployment) (traceID : String) :
    ∀ (stages : List (String × String)) (i : Nat) (current : Object) (steps : List JSON)
      (cb : CircuitBreaker),
      ∃ s, streamLoop g traceID stages i current steps cb = some s ∧ s.status = 200 ∧
        ∃ (m : Nat) (evs : List SSE) (last : SSE),
          s.events = evs ++ [last] ∧ evs.length = m ∧ m ≤ stages.length ∧
          (∀ e ∈ evs, e.name = "step") ∧
          evs.filterMap SSE.service? = (stages.take m).map Prod.fst ∧
          (∀ r ∈ s.posts.take m, streamOk g r) ∧
          ((m = stages.length ∧ s.posts.length = m ∧ last.name = "done") ∨
           (∃ name url r, stages[m]? = some (name, url) ∧ s.posts[m]? = some r ∧
              s.posts.length = m + 1 ∧ ¬ streamOk g r ∧
              last.name = "error" ∧ last.service? = some name)) := by
  intro stages
  induction stages with
  | nil =>
    intro i current steps cb
    refine ⟨_, rfl, rfl, 0, [], _, rfl, rfl, le_refl _, ?_, rfl, ?_, Or.inl ⟨rfl, rfl, rfl⟩⟩
    · intro e he; cases he
    · intro r hr; simp at hr
  | cons st rest ih =>
    intro i current steps cb
    obtain ⟨name, baseURL⟩ := st
    have hstop : ∀ (msg : String), ¬ streamOk g (stageCall g i current steps cb baseURL) →
        ∃ s, some ({ status := 200, reply := [], events := [SSE.error name msg],
                     cb := (stageCall g i current steps cb baseURL).cb,
                     posts := [stageCall g i current steps cb baseURL] } : Stream) = some s ∧
          s.status = 200 ∧
          ∃ (m : Nat) (evs : List SSE) (last : SSE),
            s.events = evs ++ [last] ∧ evs.length = m ∧ m ≤ ((name, baseURL) :: rest).length ∧
            (∀ e ∈ evs, e.name = "step") ∧
            evs.filterMap SSE.service? = (((name, baseURL) :: rest).take m).map Prod.fst ∧
            (∀ r ∈ s.posts.take m, streamOk g r) ∧
            ((m = ((name, baseURL) :: rest).length ∧ s.posts.length = m ∧ last.name = "done") ∨
             (∃ name' url r, ((name, baseURL) :: rest)[m]? = some (name', url) ∧
                s.posts[m]? = some r ∧ s.posts.length = m + 1 ∧ ¬ streamOk g r ∧
                last.name = "error" ∧ last.service? = some name')) := by
      intro msg hnot
      refine ⟨_, rfl, rfl, 0, [], SSE.error name msg, rfl, rfl, Nat.zero_le _, ?_, rfl, ?_,
        Or.inr ⟨name, baseURL, _, List.getElem?_cons_zero, List.getElem?_cons_zero, rfl, hnot,
          rfl, rfl⟩⟩
      · intro e he; cases he
      · intro r hr; simp at hr
    cases he : (stageCall g i current steps cb baseURL).err with
    | some e =>
      rw [streamLoop_cons_err g traceID name baseURL rest i current steps cb e he]
      apply hstop
      intro hok
      rw [hok.1] at he
      cases he
    | none =>
      obtain ⟨resp, hr⟩ := stageCall_err_none g i current steps cb baseURL he
      by_cases hs : resp.StatusCode = 200
      · cases hd : g.Decode resp.Body with
        | error msg =>
          rw [streamLoop_cons_decode g traceID name baseURL rest i current steps cb resp msg
            he hr hs hd]
          apply hstop
          rintro ⟨_, resp', hr', _, data, hd'⟩
          rw [hr] at hr'
          cases hr'
          rw [hd] at hd'
          cases hd'
        | ok data =>
          rw [streamLoop_cons_ok g traceID name baseURL rest i current steps cb resp data
            he hr hs hd]
          obtain ⟨s', hs', hst, m, evs, last, hev, hlen, hle, hnames, hsvc, hoks, hterm⟩ :=
            ih (i + 1) (normalizeIncoming data) (adoptSteps data steps)
              (stageCall g i current steps cb baseURL).cb
          rw [hs']
          have hok0 : streamOk g (stageCall g i current steps cb baseURL) :=
            ⟨he, resp, hr, hs, data, hd⟩
          refine ⟨_, rfl, hst, m + 1,
            stepEvent name (normalizeIncoming data) (adoptSteps data steps) :: evs, last,
            ?_, ?_, ?_, ?_, ?_, ?_, ?_⟩
          · show _ :: s'.events = _
            rw [hev]
            rfl
          · simp [hlen]
          · simp only [List.length_cons]
            omega
          · intro e he'
            rcases List.mem_cons.mp he' with h1 | h1
            · rw [h1]; rfl
            · exact hnames e h1
          · rw [List.filterMap_cons]
            simp only [stepEvent, SSE.service?, List.take_succ_cons, List.map_cons, hsvc]
          · intro r hr'
            change r ∈ (stageCall g i current steps cb baseURL :: s'.posts).take (m + 1) at hr'
            rw [List.take_succ_cons] at hr'
            rcases List.mem_cons.mp hr' with h1 | h1
            · rw [h1]; exact hok0
            · exact hoks r h1
          · rcases hterm with ⟨hm, hpl, hdone⟩ | ⟨name', url, r, hst', hp', hpl, hnot, herr, hsv⟩
            · refine Or.inl ⟨by simp [hm], ?_, hdone⟩
              show (stageCall g i current steps cb baseURL :: s'.posts).length = m + 1
              simp [hpl]
            · refine Or.inr ⟨name', url, r, ?_, ?_, ?_, hnot, herr, hsv⟩
              · simp [hst']
              · show (stageCall g i current steps cb baseURL :: s'.posts)[m + 1]? = some r
                simp [hp']
              · show (stageCall g i current steps cb baseURL :: s'.posts).length = m + 1 + 1
                simp [hpl]
      · rw [streamLoop_cons_status g traceID name baseURL rest i current steps cb resp
          he hr hs]
        apply hstop
        rintro ⟨_, resp', hr', hs', _⟩
        rw [hr] at hr'
        cases hr'
        exact hs hs'

/-- C19. A streaming request whose body decodes is answered, and the events
sent are exactly: one `started` event, carrying the trace identifier and the
initial payload; then one `step` event for each of the first `m` stages, in
pipeline order, each of which completed; then one last event, after which
nothing is sent. The last event is `done` when `m` is the number of stages, so
that every stage completed; otherwise it is `error` naming stage `m`, the first
stage that did not complete, and no stage after `m` was called. -/
theorem processStream_events (g : Deployment) (traceID body : String) (cb : CircuitBreaker)
    (raw : Object) (hparse : g.Decode body = Except.ok raw) :
    ∃ s, processStream g traceID body cb = some s ∧ s.status = 200 ∧
      ∃ (m : Nat) (evs : List SSE) (last : SSE),
        s.events = SSE.started traceID (normalizeIncomingFromRequest raw) :: (evs ++ [last]) ∧
        evs.length = m ∧ m ≤ g.services.length ∧
        (∀ e ∈ evs, e.name = "step") ∧
        evs.filterMap SSE.service? = (g.services.take m).map Prod.fst ∧
        (∀ r ∈ s.posts.take m, streamOk g r) ∧
        ((m = g.services.length ∧ s.posts.length = m ∧ last.name = "done") ∨
         (∃ name url r, g.services[m]? = some (name, url) ∧ s.posts[m]? = some r ∧
            s.posts.length = m + 1 ∧ ¬ streamOk g r ∧
            last.name = "error" ∧ last.service? = some name)) := by
  obtain ⟨s', hs', hst, m, evs, last, hev, hlen, hle, hnames, hsvc, hoks, hterm⟩ :=
    streamLoop_shape g traceID g.services 0 (normalizeIncomingFromRequest raw) [] cb
  have hp : parseProcessBody g body = Except.ok (normalizeIncomingFromRequest raw) := by
    unfold parseProcessBody
    rw [hparse]
  refine ⟨{ s' with events := SSE.started traceID (normalizeIncomingFromRequest raw)
      :: s'.events }, ?_, hst, m, evs, last, ?_, hlen, hle, hnames, hsvc, hoks, hterm⟩
  · unfold processStream
    rw [hp]
    simp only [hs', Option.map_some']
  · show _ :: s'.events = _
    rw [hev]

theorem processStream_events_witness :
    (sampleDeployment [(200, "hello"), (200, "full")]).Decode "hello"
      = Except.ok [("text", JSON.string "hello")] ∧
    ∃ s, processStream (sampleDeployment [(200, "hello"), (200, "full")]) "trace" "hello"
        sampleBreaker = some s ∧
      s.status = 200 ∧
      s.events.map SSE.name = ["started", "step", "step", "done"] ∧
      s.events.filterMap SSE.service? = ["s0", "s1"] := by
  obtain ⟨s, hs, hst, _⟩ := processStream_events
    (sampleDeployment [(200, "hello"), (200, "full")]) "trace" "hello" sampleBreaker
    [("text", JSON.string "hello")] rfl
  have he : (processStream (sampleDeployment [(200, "hello"), (200, "full")]) "trace" "hello"
      sampleBreaker).map (fun s => (s.events.map SSE.name, s.events.filterMap SSE.service?))
      = some (["started", "step", "step", "done"], ["s0", "s1"]) := by decide
  rw [hs] at he
  have hpair := Option.some.inj he
  exact ⟨rfl, s, hs, hst, (Prod.mk.inj hpair).1, (Prod.mk.inj hpair).2⟩

theorem utf8_eq (t : String) : utf8 t = t.data.flatMap String.utf8EncodeChar := rfl

theorem utf8_append (a b : String) : utf8 (a ++ b) = utf8 a ++ utf8 b := by
  rw [utf8_eq, utf8_eq, utf8_eq, String.data_append, List.flatMap_append]

theorem length_flatMap_le_four (l : List Char) :
    (l.flatMap String.utf8EncodeChar).length ≤ 4 * l.length := by
  induction l with
  | nil => simp
  | cons c l ih =>
    rw [List.flatMap_cons, List.length_append, String.length_utf8EncodeChar,
      List.length_cons]
    have := c.utf8Size_le_four
    omega

theorem utf8_length_le (t : String) : (utf8 t).length ≤ 4 * t.length := by
  rw [utf8_eq]
  exact length_flatMap_le_four t.data

theorem utf8_replicate_a (n : Nat) :
    utf8 (String.mk (List.replicate n 'a')) = List.replicate n 97 := by
  rw [utf8_eq]
  induction n with
  | zero => rfl
  | succ n ih =>
    rw [List.replicate_succ, List.flatMap_cons, ih, List.replicate_succ]
    rfl

/-- C20, as stated, fails. The response of stage `s0` carries a step history
whose last entry has an `input` of 400 characters; the `step` event sent for
`s0` has that text as its `input` field, which is neither a text of at most 80
characters with at most one marker after it nor a bracketed tag. -/
theorem step_input_not_truncated :
    ((processStream (sampleDeployment [(200, "long")]) "trace" "hello" sampleBreaker).map
        fun s => s.events[1]?)
      = some (some (SSE.step "s0" (utf8 (String.mk (List.replicate 400 'a'))) (utf8 "x")
          (utf8 "ok") (utf8 "text"))) ∧
    ¬ statedPreviewPolicy (utf8 (String.mk (List.replicate 400 'a'))) := by
  refine ⟨rfl, ?_⟩
  have hlen : (utf8 (String.mk (List.replicate 400 'a'))).length = 400 := by
    rw [utf8_replicate_a, List.length_replicate]
  rintro (⟨t, ht, hx | hx⟩ | ⟨t, n, hx⟩)
  · have h1 := utf8_length_le t
    rw [← hx, hlen] at h1
    omega
  · have h1 := utf8_length_le t
    have h2 : (utf8 t ++ utf8 "…").length = (utf8 t).length + 3 := by
      rw [List.length_append]
      rfl
    rw [← hx, hlen] at h2
    omega
  · have h1 : (utf8 (String.mk (List.replicate 400 'a'))).head? = some 97 := by
      rw [utf8_replicate_a]
      rfl
    have h91 : utf8 "[" = [91] := by decide
    rw [hx, String.append_assoc, String.append_assoc, String.append_assoc, utf8_append, h91,
      List.singleton_append, List.head?_cons] at h1
    exact absurd (Option.some.inj h1) (by decide)

/-- The `step` event in position `j` of the loop of `processStream` is the
event of the source for stage `j`: its payload is the normalized response of
stage call `j`, which returned status 200 with a body that decodes, and its
history is the one the loop holds after the responses of stage calls
`0, ..., j`. -/
theorem streamLoop_step_at (g : Deployment) (traceID : String) :
    ∀ (stages : List (String × String)) (i : Nat) (current : Object) (steps : List JSON)
      (cb : CircuitBreaker) (s : Stream),
      streamLoop g traceID stages i current steps cb = some s →
      ∀ (j : Nat) (e : SSE), s.events[j]? = some e → e.name = "step" →
        ∃ (r : Result) (resp : Response) (data : Object) (name : String),
          s.posts[j]? = some r ∧ r.resp = some resp ∧ resp.StatusCode = 200 ∧
          g.Decode resp.Body = Except.ok data ∧
          e = stepEvent name (normalizeIncoming data)
            (stepsAfter g steps (s.posts.take (j + 1))) := by
  intro stages
  induction stages with
  | nil =>
    intro i current steps cb s h j e he hname
    rw [streamLoop] at h
    cases h
    cases j with
    | zero =>
      simp only [List.getElem?_cons_zero, Option.some.injEq] at he
      rw [← he] at hname
      have hbad : "done" = "step" := hname
      exact absurd hbad (by decide)
    | succ j => simp at he
  | cons st rest ih =>
    intro i current steps cb s h j e he hname
    obtain ⟨name, baseURL⟩ := st
    have hstop : ∀ msg : String, s.events = [SSE.error name msg] → False := by
      intro msg hev
      rw [hev] at he
      cases j with
      | zero =>
        simp only [List.getElem?_cons_zero, Option.some.injEq] at he
        rw [← he] at hname
        have hbad : "error" = "step" := hname
        exact absurd hbad (by decide)
      | succ j => simp at he
    cases herr : (stageCall g i current steps cb baseURL).err with
    | some err =>
      rw [streamLoop_cons_err g traceID name baseURL rest i current steps cb err herr] at h
      cases h
      exact (hstop _ rfl).elim
    | none =>
      obtain ⟨resp, hr⟩ := stageCall_err_none g i current steps cb baseURL herr
      by_cases hs : resp.StatusCode = 200
      · cases hd : g.Decode resp.Body with
        | error msg =>
          rw [streamLoop_cons_decode g traceID name baseURL rest i current steps cb resp msg
            herr hr hs hd] at h
          cases h
          exact (hstop _ rfl).elim
        | ok data =>
          rw [streamLoop_cons_ok g traceID name baseURL rest i current steps cb resp data
            herr hr hs hd] at h
          cases hrest : streamLoop g traceID rest (i + 1) (normalizeIncoming data)
              (adoptSteps data steps) (stageCall g i current steps cb baseURL).cb with
          | none => rw [hrest] at h; cases h
          | some s' =>
            rw [hrest] at h
            simp only [Option.map_some', Option.some.injEq] at h
            subst h
            have hdata : respData g (stageCall g i current steps cb baseURL) = data := by
              unfold respData decodedOrNil
              rw [hr]
              simp only [hd]
            cases j with
            | zero =>
              have he0 : stepEvent name (normalizeIncoming data) (adoptSteps data steps) = e := by
                simpa using he
              refine ⟨stageCall g i current steps cb baseURL, resp, data, name,
                List.getElem?_cons_zero, hr, hs, hd, ?_⟩
              rw [← he0]
              show _ = stepEvent name (normalizeIncoming data)
                (stepsAfter g steps [stageCall g i current steps cb baseURL])
              rw [stepsAfter_cons, hdata]
              rfl
            | succ j =>
              have he1 : s'.events[j]? = some e := by simpa using he
              obtain ⟨r, resp', data', name', hp, hresp', hs', hd', hev⟩ :=
                ih _ _ _ _ s' hrest j e he1 hname
              refine ⟨r, resp', data', name', ?_, hresp', hs', hd', ?_⟩
              · show (stageCall g i current steps cb baseURL :: s'.posts)[j + 1]? = some r
                simpa using hp
              · rw [hev]
                show _ = stepEvent name' (normalizeIncoming data')
                  (stepsAfter g steps
                    ((stageCall g i current steps cb baseURL :: s'.posts).take (j + 1 + 1)))
                rw [List.take_succ_cons, stepsAfter_cons, hdata]
      · rw [streamLoop_cons_status g traceID name baseURL rest i current steps cb resp
          herr hr hs] at h
        cases h
        exact (hstop _ rfl).elim

/-- The body of `previewPayload` in terms of its two local strings. -/
theorem previewPayload_eq (payload : Object) :
    previewPayload payload =
      if previewType payload = "image" ∨ previewType payload = "video"
          ∨ previewType payload = "binary" then
        utf8 ("[" ++ previewType payload ++ "] "
          ++ toString (utf8 (previewData payload)).length ++ " chars")
      else if (utf8 (previewData payload)).length ≤ 80 then utf8 (previewData payload)
      else (utf8 (previewData payload)).take 80 ++ utf8 "…" := rfl

theorem length_le_length_flatMap (l : List Char) :
    l.length ≤ (l.flatMap String.utf8EncodeChar).length := by
  induction l with
  | nil => simp
  | cons c l ih =>
    rw [List.flatMap_cons, List.length_append, String.length_utf8EncodeChar, List.length_cons]
    have := c.utf8Size_pos
    omega

/-- A preview obeys the preview policy as the specification words it, on
characters, whenever the payload is an image, a video or a binary, or the data
has at most 80 bytes, or byte 80 of the data is the first byte of a
character. -/
theorem previewPayload_stated_policy (payload : Object)
    (h : (previewType payload = "image" ∨ previewType payload = "video"
          ∨ previewType payload = "binary") ∨
        (utf8 (previewData payload)).length ≤ 80 ∨
        ∃ p q : List Char, (previewData payload).data = p ++ q ∧
          (utf8 (String.mk p)).length = 80) :
    statedPreviewPolicy (previewPayload payload) := by
  rw [previewPayload_eq]
  by_cases htag : previewType payload = "image" ∨ previewType payload = "video"
      ∨ previewType payload = "binary"
  · rw [if_pos htag]
    exact Or.inr ⟨_, _, rfl⟩
  · rw [if_neg htag]
    by_cases hlen : (utf8 (previewData payload)).length ≤ 80
    · rw [if_pos hlen]
      refine Or.inl ⟨previewData payload, ?_, Or.inl rfl⟩
      have := length_le_length_flatMap (previewData payload).data
      rw [← utf8_eq] at this
      exact le_trans this hlen
    · rw [if_neg hlen]
      rcases h with h | h | ⟨p, q, hpq, hp⟩
      · exact absurd h htag
      · exact absurd h hlen
      · refine Or.inl ⟨String.mk p, ?_, Or.inr ?_⟩
        · have := length_le_length_flatMap p
          have hp2 : (p.flatMap String.utf8EncodeChar).length = 80 := hp
          show p.length ≤ 80
          omega
        · have hsplit : utf8 (previewData payload) = utf8 (String.mk p) ++ utf8 (String.mk q) := by
            rw [utf8_eq, hpq, List.flatMap_append]
            rfl
          rw [hsplit, ← hp, List.take_left]

/-- C20, amended. A streaming request is answered, and the `step` event sent
for stage `j` has its fields `input` and `output` fixed as follows. When the
last entry of the step history, as it stands after the response of stage `j`,
carries a string under that name, the field is that string, taken as it is,
whatever its length. Only when the entry carries no such string is the field
the preview of the current payload, the normalized response of stage `j`; that
preview is a bracketed type tag with a length for an image, a video or a
binary, and otherwise at most 80 characters of the data followed by at most
one ellipsis marker, as long as the data has at most 80 bytes or its byte 80
starts a character. -/
theorem step_event_fields (g : Deployment) (traceID body : String) (cb : CircuitBreaker) :
    ∃ s, processStream g traceID body cb = some s ∧
      ∀ (j : Nat) (service : String) (input output status ptype : GoString),
        s.events[j + 1]? = some (SSE.step service input output status ptype) →
        ∃ (r : Result) (resp : Response) (data : Object),
          s.posts[j]? = some r ∧ r.resp = some resp ∧ resp.StatusCode = 200 ∧
          g.Decode resp.Body = Except.ok data ∧
          (input = match ((lastStepOf (stepsAfter g [] (s.posts.take (j + 1)))).get
              "input").asString with
            | some v => utf8 v
            | none => previewPayload (normalizeIncoming data)) ∧
          (output = match ((lastStepOf (stepsAfter g [] (s.posts.take (j + 1)))).get
              "output").asString with
            | some v => utf8 v
            | none => previewPayload (normalizeIncoming data)) ∧
          (((previewType (normalizeIncoming data) = "image"
                ∨ previewType (normalizeIncoming data) = "video"
                ∨ previewType (normalizeIncoming data) = "binary") ∨
              (utf8 (previewData (normalizeIncoming data))).length ≤ 80 ∨
              ∃ p q : List Char, (previewData (normalizeIncoming data)).data = p ++ q ∧
                (utf8 (String.mk p)).length = 80) →
            statedPreviewPolicy (previewPayload (normalizeIncoming data))) := by
  unfold processStream
  cases hp : parseProcessBody g body with
  | error msg =>
    refine ⟨_, rfl, ?_⟩
    intro j service input output status ptype hmem
    simp at hmem
  | ok payload =>
    obtain ⟨s', hs', _⟩ := streamLoop_shape g traceID g.services 0 payload [] cb
    simp only [hs', Option.map_some']
    refine ⟨_, rfl, ?_⟩
    intro j service input output status ptype hmem
    have hmem' : s'.events[j]? = some (SSE.step service input output status ptype) := by
      simpa using hmem
    obtain ⟨r, resp, data, name, hpost, hresp, hs, hd, hev⟩ :=
      streamLoop_step_at g traceID g.services 0 payload [] cb s' hs' j _ hmem' rfl
    unfold stepEvent at hev
    simp only [SSE.step.injEq] at hev
    obtain ⟨_, hin, hout, _, _⟩ := hev
    exact ⟨r, resp, data, hpost, hresp, hs, hd, hin, hout,
      previewPayload_stated_policy (normalizeIncoming data)⟩

theorem step_event_fields_witness :
    ∃ s, processStream (sampleDeployment [(200, "full")]) "trace" "hello" sampleBreaker
        = some s ∧
      s.events[0 + 1]?
        = some (SSE.step "s0" (utf8 "hello") (utf8 "HELLO") (utf8 "ok") (utf8 "text")) ∧
      ∃ (r : Result) (resp : Response) (data : Object),
        s.posts[0]? = some r ∧ r.resp = some resp ∧
        (sampleDeployment [(200, "full")]).Decode resp.Body = Except.ok data ∧
        utf8 "hello" = (match ((lastStepOf (stepsAfter (sampleDeployment [(200, "full")]) []
            (s.posts.take (0 + 1)))).get "input").asString with
          | some v => utf8 v
          | none => previewPayload (normalizeIncoming data)) := by
  obtain ⟨s, hs, h⟩ := step_event_fields (sampleDeployment [(200, "full")]) "trace" "hello"
    sampleBreaker
  have he : (processStream (sampleDeployment [(200, "full")]) "trace" "hello"
      sampleBreaker).map (fun s => s.events[0 + 1]?)
      = some (some (SSE.step "s0" (utf8 "hello") (utf8 "HELLO") (utf8 "ok") (utf8 "text")))
      := rfl
  rw [hs] at he
  have hev := Option.some.inj he
  obtain ⟨r, resp, data, hpost, hresp, _, hd, hin, _, _⟩ := h 0 _ _ _ _ _ hev
  exact ⟨s, hs, hev, r, resp, data, hpost, hresp, hd, hin⟩

end Streaming

/-! ## Properties of the previews -/

section Previews

theorem length_flatMap_of_size_one (l : List Char) (h : ∀ c ∈ l, c.utf8Size = 1) :
    (l.flatMap String.utf8EncodeChar).length = l.length := by
  induction l with
  | nil => rfl
  | cons c l ih =>
    rw [List.flatMap_cons, List.length_append, String.length_utf8EncodeChar,
      h c (List.mem_cons_self _ _), ih (fun x hx => h x (List.mem_cons_of_mem _ hx)),
      List.length_cons]
    omega

theorem take_flatMap_of_size_one (l : List Char) (h : ∀ c ∈ l, c.utf8Size = 1) :
    ∀ n : Nat, (l.flatMap String.utf8EncodeChar).take n
      = (l.take n).flatMap String.utf8EncodeChar := by
  induction l with
  | nil => intro n; simp
  | cons c l ih =>
    intro n
    cases n with
    | zero => simp
    | succ n =>
      have hc : (String.utf8EncodeChar c).length = 1 := by
        rw [String.length_utf8EncodeChar]
        exact h c (List.mem_cons_self _ _)
      obtain ⟨b, hb⟩ : ∃ b, String.utf8EncodeChar c = [b] := by
        match hm : String.utf8EncodeChar c, hc with
        | [b], _ => exact ⟨b, rfl⟩
      rw [List.flatMap_cons, List.take_succ_cons, List.flatMap_cons, hb, List.singleton_append,
        List.take_succ_cons, List.singleton_append,
        ih (fun x hx => h x (List.mem_cons_of_mem _ hx)) n]

/-- On a text of one-byte characters, so on every ASCII text, the preview is
the one the specification words: 80 bytes are then 80 characters. -/
theorem previewPayload_text_ascii (payload : Object) (htext : previewType payload = "text")
    (hascii : ∀ c ∈ (previewData payload).data, c.utf8Size = 1) :
    previewPayload payload = statedTextPreview (previewData payload) := by
  have hlen : (utf8 (previewData payload)).length = (previewData payload).length := by
    rw [utf8_eq]
    exact length_flatMap_of_size_one _ hascii
  rw [previewPayload_eq, htext, if_neg (by decide), hlen]
  unfold statedTextPreview
  by_cases h80 : (previewData payload).length ≤ 80
  · rw [if_pos h80, if_pos h80]
  · rw [if_neg h80, if_neg h80, utf8_eq, utf8_eq, take_flatMap_of_size_one _ hascii]
    rfl

theorem take_flatten_replicate_pair (x y : UInt8) :
    ∀ a b : Nat, ((List.replicate (a + b) [x, y]).flatten).take (2 * a)
      = (List.replicate a [x, y]).flatten := by
  intro a
  induction a with
  | zero => intro b; simp
  | succ a ih =>
    intro b
    have e1 : a + 1 + b = (a + b) + 1 := by omega
    have e2 : 2 * (a + 1) = (2 * a + 1) + 1 := by omega
    rw [e1, List.replicate_succ, List.replicate_succ, List.flatten_cons, List.flatten_cons, e2]
    show x :: y :: List.take (2 * a) (List.replicate (a + b) [x, y]).flatten = _
    rw [ih b]
    rfl

theorem length_flatten_replicate_pair (x y : UInt8) :
    ∀ n : Nat, ((List.replicate n [x, y]).flatten).length = 2 * n := by
  intro n
  induction n with
  | zero => rfl
  | succ n ih =>
    rw [List.replicate_succ, List.flatten_cons, List.length_append, ih]
    simp only [List.length_cons, List.length_nil]
    omega

/-- C21 fails for text that is not ASCII. A text of 30 characters of three
bytes each (U+4E2D) has 90 bytes: `previewPayload` does not return it unchanged
but cuts it after 80 bytes, in the middle of its 27th character, and adds the
marker. A text of 200 characters of two bytes each (U+00E9) is cut after 80
bytes, which are its first 40 characters, not its first 80. -/
theorem previewPayload_cuts_bytes :
    (String.mk (List.replicate 30 (Char.ofNat 20013))).length = 30 ∧
    (utf8 (String.mk (List.replicate 30 (Char.ofNat 20013)))).length = 90 ∧
    previewPayload [("type", JSON.string "text"),
        ("data", JSON.string (String.mk (List.replicate 30 (Char.ofNat 20013))))]
      = (utf8 (String.mk (List.replicate 30 (Char.ofNat 20013)))).take 80 ++ utf8 "…" ∧
    previewPayload [("type", JSON.string "text"),
        ("data", JSON.string (String.mk (List.replicate 30 (Char.ofNat 20013))))]
      = utf8 (String.mk (List.replicate 26 (Char.ofNat 20013))) ++ [0xE4, 0xB8] ++ utf8 "…" ∧
    previewPayload [("type", JSON.string "text"),
        ("data", JSON.string (String.mk (List.replicate 30 (Char.ofNat 20013))))]
      ≠ statedTextPreview (String.mk (List.replicate 30 (Char.ofNat 20013))) ∧
    (String.mk (List.replicate 200 (Char.ofNat 233))).length = 200 ∧
    previewPayload [("type", JSON.string "text"),
        ("data", JSON.string (String.mk (List.replicate 200 (Char.ofNat 233))))]
      = utf8 (String.mk (List.replicate 40 (Char.ofNat 233))) ++ utf8 "…" ∧
    statedTextPreview (String.mk (List.replicate 200 (Char.ofNat 233)))
      = utf8 (String.mk (List.replicate 80 (Char.ofNat 233))) ++ utf8 "…" := by
  refine ⟨by decide, by decide, by decide, by decide, ?_, ?_, ?_, ?_⟩
  · intro h
    have hl := congrArg List.length h
    revert hl
    decide
  · exact List.length_replicate _ _
  · have hE : String.utf8EncodeChar (Char.ofNat 233) = [0xC3, 0xA9] := by decide
    have hlen : (utf8 (String.mk (List.replicate 200 (Char.ofNat 233)))).length = 400 := by
      rw [utf8_eq]
      show ((List.replicate 200 (Char.ofNat 233)).flatMap String.utf8EncodeChar).length = 400
      rw [List.flatMap_replicate, hE]
      exact length_flatten_replicate_pair _ _ 200
    have ht : previewType [("type", JSON.string "text"),
        ("data", JSON.string (String.mk (List.replicate 200 (Char.ofNat 233))))] = "text" := rfl
    have hd : previewData [("type", JSON.string "text"),
        ("data", JSON.string (String.mk (List.replicate 200 (Char.ofNat 233))))]
        = String.mk (List.replicate 200 (Char.ofNat 233)) := rfl
    rw [previewPayload_eq, ht, hd, if_neg (by decide), if_neg (by rw [hlen]; decide)]
    have hcut : (utf8 (String.mk (List.replicate 200 (Char.ofNat 233)))).take 80
        = utf8 (String.mk (List.replicate 40 (Char.ofNat 233))) := by
      rw [utf8_eq, utf8_eq]
      show ((List.replicate 200 (Char.ofNat 233)).flatMap String.utf8EncodeChar).take 80
        = (List.replicate 40 (Char.ofNat 233)).flatMap String.utf8EncodeChar
      rw [List.flatMap_replicate, List.flatMap_replicate, hE]
      exact take_flatten_replicate_pair _ _ 40 160
    rw [hcut]
  · unfold statedTextPreview
    have hl : (String.mk (List.replicate 200 (Char.ofNat 233))).length = 200 :=
      List.length_replicate _ _
    rw [if_neg (by rw [hl]; decide)]
    have hcut : List.take 80 (String.mk (List.replicate 200 (Char.ofNat 233))).data
        = List.replicate 80 (Char.ofNat 233) := by
      show List.take 80 (List.replicate 200 (Char.ofNat 233)) = _
      rw [List.take_replicate]
      rfl
    rw [hcut]

/-- C22. For a payload whose `type` is the string `image`, `video` or
`binary`, `previewPayload` returns exactly the bytes of `[<type>] <n> chars`,
where `n` is the decimal numeral of `len(d)`, the number of bytes of the
payload's `data` string (0 when `data` is not a string). Hence two payloads of
the same such type whose data have the same number of bytes have the same
preview, whatever the data are. -/
theorem previewPayload_tag (payload : Object) (t : String)
    (ht : (payload.get "type").asString = some t)
    (hk : t = "image" ∨ t = "video" ∨ t = "binary") :
    previewPayload payload
      = utf8 ("[" ++ t ++ "] " ++ (Nat.toDigits 10 (utf8 (previewData payload)).length).asString
          ++ " chars") ∧
    (∀ payload' : Object, (payload'.get "type").asString = some t →
      (utf8 (previewData payload')).length = (utf8 (previewData payload)).length →
      previewPayload payload' = previewPayload payload) := by
  have htype : ∀ p : Object, (p.get "type").asString = some t → previewType p = t := by
    intro p hp
    unfold previewType
    rw [hp]
    have hne : t ≠ "" := by
      rcases hk with h | h | h <;> rw [h] <;> decide
    simp only [if_neg hne]
  have htag : ∀ p : Object, (p.get "type").asString = some t →
      previewPayload p
        = utf8 ("[" ++ t ++ "] " ++ toString (utf8 (previewData p)).length ++ " chars") := by
    intro p hp
    rw [previewPayload_eq, htype p hp, if_pos hk]
  refine ⟨htag payload ht, ?_⟩
  intro payload' ht' hlen
  rw [htag payload' ht', htag payload ht, hlen]

theorem previewPayload_tag_witness :
    (Object.get [("type", JSON.string "image"), ("data", JSON.string "QUJD")]
        "type").asString = some "image" ∧
    previewPayload [("type", JSON.string "image"), ("data", JSON.string "QUJD")]
      = utf8 "[image] 4 chars" ∧
    previewPayload [("type", JSON.string "image"), ("data", JSON.string "WFla")]
      = previewPayload [("type", JSON.string "image"), ("data", JSON.string "QUJD")] :=
  ⟨rfl,
    (previewPayload_tag [("type", JSON.string "image"), ("data", JSON.string "QUJD")] "image"
      rfl (Or.inl rfl)).1,
    (previewPayload_tag [("type", JSON.string "image"), ("data", JSON.string "QUJD")] "image"
      rfl (Or.inl rfl)).2 [("type", JSON.string "image"), ("data", JSON.string "WFla")]
      rfl (by decide)⟩

end Previews

/-! ## The two delivery modes -/

section Modes

/-- From the same loop state, when every body of a status-200 response that
`runPipeline` meets decodes, `processStream` calls the same stages with the
same outcomes, and ends in `done` with the values `runPipeline` returns, or in
`error` at the stage where `runPipeline` stops. -/
theorem loops_agree (g : Deployment) (traceID : String) :
    ∀ (stages : List (String × String)) (i : Nat) (payload : Object) (steps : List JSON)
      (cb : CircuitBreaker) (run : Run),
      runLoop g stages i payload steps cb = some run →
      (∀ r ∈ run.posts, ∀ resp, r.resp = some resp → resp.StatusCode = 200 →
        ∃ data, g.Decode resp.Body = Except.ok data) →
      ∃ s, streamLoop g traceID stages i payload steps cb = some s ∧
        s.posts = run.posts ∧ s.cb = run.cb ∧
        ∃ (evs : List SSE) (last : SSE), s.events = evs ++ [last] ∧
          ((∃ (p : Object) (st : List JSON), run.out = pipelineResult p st true ∧
              last = SSE.done traceID (p.get "data") st p) ∨
           (∃ (p : Object) (st : List JSON) (name url msg : String) (k : Nat),
              run.out = pipelineResult p st false ∧ last = SSE.error name msg ∧
              run.posts.length = k + 1 ∧ stages[k]? = some (name, url))) := by
  intro stages
  induction stages with
  | nil =>
    intro i payload steps cb run h _
    rw [runLoop] at h
    cases h
    exact ⟨_, rfl, rfl, rfl, [], _, rfl, Or.inl ⟨payload, steps, rfl, rfl⟩⟩
  | cons st rest ih =>
    intro i payload steps cb run h hdec
    obtain ⟨name, baseURL⟩ := st
    cases he : (stageCall g i payload steps cb baseURL).err with
    | some e =>
      rw [runLoop_cons_err g name baseURL rest i payload steps cb e he] at h
      cases h
      rw [streamLoop_cons_err g traceID name baseURL rest i payload steps cb e he]
      exact ⟨_, rfl, rfl, rfl, [], _, rfl,
        Or.inr ⟨payload, steps, name, baseURL, _, 0, rfl, rfl, rfl, List.getElem?_cons_zero⟩⟩
    | none =>
      obtain ⟨resp, hr⟩ := stageCall_err_none g i payload steps cb baseURL he
      by_cases hs : resp.StatusCode = 200
      · rw [runLoop_cons_ok g name baseURL rest i payload steps cb resp he hr hs] at h
        cases hrun : runLoop g rest (i + 1) (normalizeIncoming (decodedOrNil g resp.Body))
            (adoptSteps (decodedOrNil g resp.Body) steps)
            (stageCall g i payload steps cb baseURL).cb with
        | none => rw [hrun] at h; cases h
        | some run' =>
          rw [hrun] at h
          simp only [Option.map_some', Option.some.injEq] at h
          subst h
          obtain ⟨data, hd⟩ := hdec _ (List.mem_cons_self _ _) resp hr hs
          have hdn : decodedOrNil g resp.Body = data := by
            unfold decodedOrNil
            rw [hd]
          rw [hdn] at hrun
          obtain ⟨s', hs', hposts, hcb, evs, last, hev, hlast⟩ :=
            ih _ _ _ _ run' hrun (fun r hr' => hdec r (List.mem_cons_of_mem _ hr'))
          rw [streamLoop_cons_ok g traceID name baseURL rest i payload steps cb resp data
            he hr hs hd, hs']
          refine ⟨_, rfl, ?_, hcb,
            stepEvent name (normalizeIncoming data) (adoptSteps data steps) :: evs, last,
            ?_, ?_⟩
          · show _ :: s'.posts = _ :: run'.posts
            rw [hposts]
          · show _ :: s'.events = _
            rw [hev]
            rfl
          · rcases hlast with ⟨p, st, hout, hl⟩ | ⟨p, st, name', url, msg, k, hout, hl, hlen, hk⟩
            · exact Or.inl ⟨p, st, hout, hl⟩
            · refine Or.inr ⟨p, st, name', url, msg, k + 1, hout, hl, ?_, ?_⟩
              · show (_ :: run'.posts).length = k + 1 + 1
                rw [List.length_cons, hlen]
              · rw [List.getElem?_cons_succ]
                exact hk
      · rw [runLoop_cons_status g name baseURL rest i payload steps cb resp he hr hs] at h
        cases h
        rw [streamLoop_cons_status g traceID name baseURL rest i payload steps cb resp
          he hr hs]
        exact ⟨_, rfl, rfl, rfl, [], _, rfl,
          Or.inr ⟨payload, steps, name, baseURL, _, 0, rfl, rfl, rfl, List.getElem?_cons_zero⟩⟩

/-- C23. For a request body that decodes, the buffered run on the initial
payload and the streaming run both return. When every body of a status-200
response met by the buffered run decodes, the two runs call the same stages
with the same executor outcomes and leave the same breaker; the streaming run
ends in `done` exactly when `runPipeline` returns `stored` true, and `done` then
carries the `result`, `steps` and `payload` of the map `runPipeline` returns;
otherwise it ends in `error` for the stage at which `runPipeline` stopped. -/
theorem modes_agree (g : Deployment) (traceID body : String) (cb : CircuitBreaker)
    (raw : Object) (hparse : g.Decode body = Except.ok raw) :
    ∃ run s, runPipeline g (normalizeIncomingFromRequest raw) cb = some run ∧
      processStream g traceID body cb = some s ∧
      ((∀ r ∈ run.posts, ∀ resp, r.resp = some resp → resp.StatusCode = 200 →
          ∃ data, g.Decode resp.Body = Except.ok data) →
        s.posts = run.posts ∧ s.cb = run.cb ∧
        ∃ last, s.events.getLast? = some last ∧
          (last.name = "done" ↔ run.out.get "stored" = JSON.bool true) ∧
          ((run.out.get "stored" = JSON.bool true ∧
              ∃ (result : JSON) (steps : List JSON) (payload : Object),
                last = SSE.done traceID result steps payload ∧
                run.out.get "result" = result ∧
                run.out.get "steps" = JSON.array steps ∧
                run.out.get "payload" = JSON.object payload) ∨
           (run.out.get "stored" = JSON.bool false ∧
              ∃ (name url msg : String) (k : Nat), last = SSE.error name msg ∧
                run.posts.length = k + 1 ∧ g.services[k]? = some (name, url)))) := by
  obtain ⟨run, hrun⟩ := runLoop_total g g.services 0 (normalizeIncomingFromRequest raw) [] cb
  obtain ⟨s₀, hs₀, _⟩ :=
    streamLoop_shape g traceID g.services 0 (normalizeIncomingFromRequest raw) [] cb
  have hp : parseProcessBody g body = Except.ok (normalizeIncomingFromRequest raw) := by
    unfold parseProcessBody
    rw [hparse]
  refine ⟨run, { s₀ with events := SSE.started traceID (normalizeIncomingFromRequest raw)
      :: s₀.events }, hrun, ?_, ?_⟩
  · unfold processStream
    rw [hp]
    simp only [hs₀, Option.map_some']
  · intro hdec
    obtain ⟨s, hs, hposts, hcb, evs, last, hev, hlast⟩ :=
      loops_agree g traceID g.services 0 (normalizeIncomingFromRequest raw) [] cb run hrun hdec
    rw [hs₀] at hs
    cases hs
    have hgl : (SSE.started traceID (normalizeIncomingFromRequest raw) :: s₀.events).getLast?
        = some last := by
      rw [hev, ← List.cons_append, List.getLast?_append]
      rfl
    refine ⟨hposts, hcb, last, hgl, ?_, ?_⟩
    · rcases hlast with ⟨p, st, hout, hl⟩ | ⟨p, st, name, url, msg, k, hout, hl, _, _⟩
      · rw [hl, hout]
        exact ⟨fun _ => rfl, fun _ => rfl⟩
      · rw [hl, hout]
        constructor
        · intro h
          have hbad : "error" = "done" := h
          exact absurd hbad (by decide)
        · intro h
          have hbad : JSON.bool false = JSON.bool true := h
          cases hbad
    · rcases hlast with ⟨p, st, hout, hl⟩ | ⟨p, st, name, url, msg, k, hout, hl, hlen, hk⟩
      · refine Or.inl ⟨by rw [hout]; rfl, p.get "data", st, p, hl, by rw [hout]; rfl,
          by rw [hout]; rfl, by rw [hout]; rfl⟩
      · exact Or.inr ⟨by rw [hout]; rfl, name, url, msg, k, hl, hlen, hk⟩

theorem modes_agree_witness :
    (sampleDeployment [(200, "full"), (404, "")]).Decode "hello"
      = Except.ok [("text", JSON.string "hello")] ∧
    ∃ run s, runPipeline (sampleDeployment [(200, "full"), (404, "")])
        (normalizeIncomingFromRequest [("text", JSON.string "hello")]) sampleBreaker = some run ∧
      processStream (sampleDeployment [(200, "full"), (404, "")]) "trace" "hello" sampleBreaker
        = some s ∧
      s.posts = run.posts ∧ run.posts.length = 2 ∧
      s.events.map SSE.name = ["started", "step", "error"] := by
  obtain ⟨run, s, hrun, hs, h⟩ := modes_agree (sampleDeployment [(200, "full"), (404, "")])
    "trace" "hello" sampleBreaker [("text", JSON.string "hello")] rfl
  have hposts : run.posts.map (fun r => r.resp)
      = [some { StatusCode := 200, Body := "full" }, some { StatusCode := 404, Body := "" }] := by
    have he : (runPipeline (sampleDeployment [(200, "full"), (404, "")])
        (normalizeIncomingFromRequest [("text", JSON.string "hello")]) sampleBreaker).map
        (fun run => run.posts.map fun r => r.resp)
        = some [some { StatusCode := 200, Body := "full" },
                some { StatusCode := 404, Body := "" }] := by decide
    rw [hrun] at he
    exact Option.some.inj he
  have hdec : ∀ r ∈ run.posts, ∀ resp, r.resp = some resp → resp.StatusCode = 200 →
      ∃ data, (sampleDeployment [(200, "full"), (404, "")]).Decode resp.Body
        = Except.ok data := by
    intro r hr resp hresp hcode
    have hmem : r.resp ∈ run.posts.map (fun r => r.resp) := List.mem_map_of_mem _ hr
    rw [hposts, hresp] at hmem
    simp only [List.mem_cons, Option.some.injEq, List.mem_nil_iff, or_false] at hmem
    rcases hmem with h1 | h1
    · rw [h1]
      exact ⟨_, rfl⟩
    · rw [h1] at hcode
      exact absurd hcode (by decide)
  obtain ⟨hsame, _, _⟩ := h hdec
  have hlen : run.posts.length = 2 := by
    have := congrArg List.length hposts
    simpa using this
  have hnames : s.events.map SSE.name = ["started", "step", "error"] := by
    have he : (processStream (sampleDeployment [(200, "full"), (404, "")]) "trace" "hello"
        sampleBreaker).map (fun s => s.events.map SSE.name)
        = some ["started", "step", "error"] := by decide
    rw [hs] at he
    exact Option.some.inj he
  exact ⟨rfl, run, s, hrun, hs, hsame, hlen, hnames⟩

end Modes

/-! ## The breaker over sequences of calls -/

section Reachable

/-- The record `Failure` leaves for a key that was Open. -/
theorem Failure_of_open (cb : CircuitBreaker) (key : String) (c : circuit) (t : Time)
    (h : cb.byKey key = some c) (hs : c.state = stateOpen) :
    cb.Failure t key = cb.store key
      { state := stateOpen, failures := c.failures + 1, lastFailure := t, lastTry := t } := by
  unfold CircuitBreaker.Failure
  simp only [h, hs]
  by_cases hthr : c.failures + 1 ≥ cb.threshold <;> simp [hthr]

/-- What `Allow` leaves: the breaker as it was, or the record of the key, which
was Open, turned HalfOpen. -/
theorem Allow_snd_cases (cb : CircuitBreaker) (now : Time) (key : String) :
    (cb.Allow now key).2 = cb ∨
    ∃ c, cb.byKey key = some c ∧ c.state = stateOpen ∧
      (cb.Allow now key).2 = cb.store key
        { state := stateHalfOpen, failures := c.failures, lastFailure := c.lastFailure,
          lastTry := now } := by
  unfold CircuitBreaker.Allow
  cases h : cb.byKey key with
  | none => exact Or.inl rfl
  | some c =>
    rcases c with ⟨st, f, lf, lt⟩
    cases st
    · exact Or.inl rfl
    · by_cases hc : Time.Sub now lf ≥ cb.cooldown
      · simp only [if_pos hc]
        exact Or.inr ⟨_, rfl, rfl, rfl⟩
      · refine Or.inl ?_
        simp only [if_neg hc]
    · exact Or.inl rfl

theorem Success_cases (cb : CircuitBreaker) (key : String) :
    cb.Success key = cb ∨
    ∃ c, cb.byKey key = some c ∧
      cb.Success key = cb.store key
        { state := stateClosed, failures := 0, lastFailure := c.lastFailure,
          lastTry := c.lastTry } := by
  unfold CircuitBreaker.Success
  cases h : cb.byKey key with
  | none => exact Or.inl rfl
  | some c => exact Or.inr ⟨c, rfl, rfl⟩

/-- What `Failure` leaves: always a stored record, which is Open, or Closed
with a count of 1 or of one more than a count it had while Closed. -/
theorem Failure_cases (cb : CircuitBreaker) (now : Time) (key : String) :
    ∃ c', cb.Failure now key = cb.store key c' ∧ c'.state ≠ stateHalfOpen ∧
      ((c'.state = stateOpen ∧ c'.failures = cb.threshold) ∨
       (c'.failures = 1 ∧ (c'.state = stateOpen ↔ cb.threshold ≤ 1)) ∨
       (∃ c, cb.byKey key = some c ∧ c'.failures = c.failures + 1 ∧
          ((c.state = stateOpen ∧ c'.state = stateOpen) ∨
           (c.state = stateClosed ∧ (c'.state = stateOpen ↔ cb.threshold ≤ c.failures + 1))))) := by
  have hif : ∀ n : Int, (if n ≥ cb.threshold then stateOpen else stateClosed) ≠ stateHalfOpen ∧
      ((if n ≥ cb.threshold then stateOpen else stateClosed) = stateOpen ↔ cb.threshold ≤ n) := by
    intro n
    by_cases hn : n ≥ cb.threshold
    · simp [hn]
    · simp [hn]
  cases h : cb.byKey key with
  | none =>
    rw [Failure_of_none cb key now h]
    exact ⟨_, rfl, (hif 1).1, Or.inr (Or.inl ⟨rfl, (hif 1).2⟩)⟩
  | some c =>
    cases hs : c.state with
    | stateClosed =>
      by_cases hreset : c.lastFailure ≠ 0 ∧ Time.Sub now c.lastFailure > cb.window
      · rw [Failure_of_closed_reset cb key c now h hs hreset.1 hreset.2]
        exact ⟨_, rfl, (hif 1).1, Or.inr (Or.inl ⟨rfl, (hif 1).2⟩)⟩
      · have hk : c.lastFailure = 0 ∨ Time.Sub now c.lastFailure ≤ cb.window := by
          by_cases hz : c.lastFailure = 0
          · exact Or.inl hz
          · exact Or.inr (not_lt.mp (fun hw => hreset ⟨hz, hw⟩))
        rw [Failure_of_closed_keep cb key c now h hs hk]
        exact ⟨_, rfl, (hif _).1,
          Or.inr (Or.inr ⟨c, rfl, rfl, Or.inr ⟨hs, (hif _).2⟩⟩)⟩
    | stateOpen =>
      rw [Failure_of_open cb key c now h hs]
      exact ⟨_, rfl, by simp, Or.inr (Or.inr ⟨c, rfl, rfl, Or.inl ⟨hs, rfl⟩⟩)⟩
    | stateHalfOpen =>
      rw [Failure_of_halfOpen cb key c now h hs]
      exact ⟨_, rfl, by simp, Or.inl ⟨rfl, rfl⟩⟩

/-- A lookup in a breaker whose record of `key` was overwritten. -/
theorem store_byKey_cases (cb : CircuitBreaker) (key k : String) (c r : circuit)
    (h : (cb.store key c).byKey k = some r) :
    (k = key ∧ r = c) ∨ (k ≠ key ∧ cb.byKey k = some r) := by
  by_cases hk : k = key
  · subst hk
    rw [store_byKey_self] at h
    exact Or.inl ⟨rfl, (Option.some.inj h).symm⟩
  · rw [store_byKey_other cb key k c hk] at h
    exact Or.inr ⟨hk, h⟩

theorem call_threshold (cb : CircuitBreaker) (op : BreakerCall) :
    (cb.call op).threshold = cb.threshold := by
  cases op with
  | allow now key =>
    show (cb.Allow now key).2.threshold = cb.threshold
    rcases Allow_snd_cases cb now key with h | ⟨c, -, -, h⟩ <;> simp [h]
  | success key =>
    show (cb.Success key).threshold = cb.threshold
    rcases Success_cases cb key with h | ⟨c, -, h⟩ <;> simp [h]
  | failure now key => exact (Failure_config cb now key).1

theorem calls_threshold (ops : List BreakerCall) :
    ∀ cb : CircuitBreaker, (cb.calls ops).threshold = cb.threshold := by
  induction ops with
  | nil => intro cb; rfl
  | cons op ops ih =>
    intro cb
    show ((cb.call op).calls ops).threshold = cb.threshold
    rw [ih, call_threshold]

/-- One call keeps every record within the bounds its state demands. -/
theorem call_bounds (cb : CircuitBreaker) (op : BreakerCall) (hthr : 1 ≤ cb.threshold)
    (h : ∀ key c, cb.byKey key = some c →
      0 ≤ c.failures ∧ (c.state = stateClosed → c.failures < cb.threshold) ∧
        (c.state = stateOpen ∨ c.state = stateHalfOpen → cb.threshold ≤ c.failures)) :
    ∀ key c, (cb.call op).byKey key = some c →
      0 ≤ c.failures ∧ (c.state = stateClosed → c.failures < cb.threshold) ∧
        (c.state = stateOpen ∨ c.state = stateHalfOpen → cb.threshold ≤ c.failures) := by
  intro k r hr
  cases op with
  | allow now key =>
    have hr2 : (cb.Allow now key).2.byKey k = some r := hr
    rcases Allow_snd_cases cb now key with e | ⟨c, hc, hs, e⟩
    · rw [e] at hr2
      exact h k r hr2
    · rw [e] at hr2
      rcases store_byKey_cases cb key k _ r hr2 with ⟨-, rfl⟩ | ⟨-, hold⟩
      · obtain ⟨h0, -, ho⟩ := h key c hc
        exact ⟨h0, fun hcl => by simp at hcl, fun _ => ho (Or.inl hs)⟩
      · exact h k r hold
  | success key =>
    have hr2 : (cb.Success key).byKey k = some r := hr
    rcases Success_cases cb key with e | ⟨c, hc, e⟩
    · rw [e] at hr2
      exact h k r hr2
    · rw [e] at hr2
      rcases store_byKey_cases cb key k _ r hr2 with ⟨-, rfl⟩ | ⟨-, hold⟩
      · refine ⟨le_refl _, fun _ => ?_, fun hcl => ?_⟩
        · show (0 : Int) < cb.threshold
          exact lt_of_lt_of_le Int.zero_lt_one hthr
        · rcases hcl with hcl | hcl <;> simp at hcl
      · exact h k r hold
  | failure now key =>
    have hr2 : (cb.Failure now key).byKey k = some r := hr
    obtain ⟨c', e, hnh, hc'⟩ := Failure_cases cb now key
    rw [e] at hr2
    rcases store_byKey_cases cb key k _ r hr2 with ⟨-, rfl⟩ | ⟨-, hold⟩
    · have hstate : r.state = stateClosed ∨ r.state = stateOpen := by
        cases hst : r.state with
        | stateClosed => exact Or.inl rfl
        | stateOpen => exact Or.inr rfl
        | stateHalfOpen => exact absurd hst hnh
      rcases hc' with ⟨ho, hf⟩ | ⟨hf, hiff⟩ | ⟨c, hc, hf, hcase⟩
      · refine ⟨?_, fun hcl => ?_, fun _ => ?_⟩
        · rw [hf]; exact le_trans Int.one_nonneg hthr
        · rw [ho] at hcl; exact absurd hcl (by decide)
        · rw [hf]
      · refine ⟨?_, fun hcl => ?_, fun hop => ?_⟩
        · rw [hf]; exact Int.one_nonneg
        · rw [hf]
          have hno : ¬ r.state = stateOpen := by rw [hcl]; decide
          exact lt_of_not_le (fun hle => hno (hiff.mpr hle))
        · rw [hf]
          rcases hop with hop | hop
          · exact hiff.mp hop
          · exact absurd hop hnh
      · obtain ⟨h0, hclosed, hopen⟩ := h key c hc
        rcases hcase with ⟨hco, hro⟩ | ⟨hcc, hiff⟩
        · refine ⟨?_, fun hcl => ?_, fun _ => ?_⟩
          · rw [hf]; exact Int.add_nonneg h0 Int.one_nonneg
          · rw [hro] at hcl; exact absurd hcl (by decide)
          · rw [hf]
            exact le_trans (hopen (Or.inl hco)) (Int.le_add_of_nonneg_right Int.one_nonneg)
        · refine ⟨?_, fun hcl => ?_, fun hop => ?_⟩
          · rw [hf]; exact Int.add_nonneg h0 Int.one_nonneg
          · rw [hf]
            have hno : ¬ r.state = stateOpen := by rw [hcl]; decide
            exact lt_of_not_le (fun hle => hno (hiff.mpr hle))
          · rw [hf]
            rcases hop with hop | hop
            · exact hiff.mp hop
            · exact absurd hop hnh
    · exact h k r hold

/-- Every sequence of calls keeps every record within the bounds its state
demands, when the breaker it starts from does. -/
theorem calls_bounds (ops : List BreakerCall) :
    ∀ cb : CircuitBreaker, 1 ≤ cb.threshold →
      (∀ key c, cb.byKey key = some c →
        0 ≤ c.failures ∧ (c.state = stateClosed → c.failures < cb.threshold) ∧
          (c.state = stateOpen ∨ c.state = stateHalfOpen → cb.threshold ≤ c.failures)) →
      ∀ key c, (cb.calls ops).byKey key = some c →
        0 ≤ c.failures ∧ (c.state = stateClosed → c.failures < cb.threshold) ∧
          (c.state = stateOpen ∨ c.state = stateHalfOpen → cb.threshold ≤ c.failures) := by
  induction ops with
  | nil => intro cb _ h; exact h
  | cons op ops ih =>
    intro cb hthr h key c hc
    have hstep := call_bounds cb op hthr h
    have hthr2 : 1 ≤ (cb.call op).threshold := by rw [call_threshold]; exact hthr
    rw [← call_threshold cb op] at hstep
    have := ih (cb.call op) hthr2 hstep key c hc
    rw [call_threshold] at this
    exact this

/-- One call adds at most one to the largest count of the breaker. -/
theorem call_failures_le (cb : CircuitBreaker) (op : BreakerCall) (n : Nat)
    (h : ∀ key c, cb.byKey key = some c → c.failures ≤ max cb.threshold 0 + (n : Int)) :
    ∀ key c, (cb.call op).byKey key = some c →
      c.failures ≤ max cb.threshold 0 + ((n + 1 : Nat) : Int) := by
  have hn : (0 : Int) ≤ (n : Int) := Int.natCast_nonneg n
  have hm0 : (0 : Int) ≤ max cb.threshold 0 := le_max_right _ _
  have hmt : cb.threshold ≤ max cb.threshold 0 := le_max_left _ _
  have hmono : ∀ x : Int, x ≤ max cb.threshold 0 + (n : Int) →
      x ≤ max cb.threshold 0 + ((n + 1 : Nat) : Int) := by
    intro x hx
    push_cast
    linarith
  intro k r hr
  cases op with
  | allow now key =>
    have hr2 : (cb.Allow now key).2.byKey k = some r := hr
    rcases Allow_snd_cases cb now key with e | ⟨c, hc, -, e⟩
    · rw [e] at hr2
      exact hmono _ (h k r hr2)
    · rw [e] at hr2
      rcases store_byKey_cases cb key k _ r hr2 with ⟨-, rfl⟩ | ⟨-, hold⟩
      · exact hmono _ (h key c hc)
      · exact hmono _ (h k r hold)
  | success key =>
    have hr2 : (cb.Success key).byKey k = some r := hr
    rcases Success_cases cb key with e | ⟨c, -, e⟩
    · rw [e] at hr2
      exact hmono _ (h k r hr2)
    · rw [e] at hr2
      rcases store_byKey_cases cb key k _ r hr2 with ⟨-, rfl⟩ | ⟨-, hold⟩
      · show (0 : Int) ≤ max cb.threshold 0 + ((n + 1 : Nat) : Int)
        push_cast
        linarith
      · exact hmono _ (h k r hold)
  | failure now key =>
    have hr2 : (cb.Failure now key).byKey k = some r := hr
    obtain ⟨c', e, -, hc'⟩ := Failure_cases cb now key
    rw [e] at hr2
    rcases store_byKey_cases cb key k _ r hr2 with ⟨-, rfl⟩ | ⟨-, hold⟩
    · rcases hc' with ⟨-, hf⟩ | ⟨hf, -⟩ | ⟨c, hc, hf, -⟩
      · rw [hf]
        push_cast
        linarith
      · rw [hf]
        push_cast
        linarith
      · rw [hf]
        have := h key c hc
        push_cast
        linarith
    · exact hmono _ (h k r hold)

/-- After `ops`, no count exceeds the threshold (or 0, if larger) plus the
number of calls made: the counter of the source, a machine integer, does not
wrap in a sequence of calls whose length plus the threshold stays below
`2 ^ 63`. -/
theorem calls_failures_le (threshold : Int) (window cooldown : Duration)
    (ops : List BreakerCall) :
    ∀ key c, ((NewCircuitBreaker threshold window cooldown).calls ops).byKey key = some c →
      c.failures ≤ max threshold 0 + (ops.length : Int) := by
  have gen : ∀ (ops : List BreakerCall) (cb : CircuitBreaker) (n : Nat),
      (∀ key c, cb.byKey key = some c → c.failures ≤ max cb.threshold 0 + (n : Int)) →
      ∀ key c, (cb.calls ops).byKey key = some c →
        c.failures ≤ max cb.threshold 0 + ((n + ops.length : Nat) : Int) := by
    intro ops
    induction ops with
    | nil => intro cb n h; exact h
    | cons op ops ih =>
      intro cb n h key c hc
      have hstep := call_failures_le cb op n h
      rw [← call_threshold cb op] at hstep
      have := ih (cb.call op) (n + 1) hstep key c hc
      rw [call_threshold] at this
      have hlen : n + (op :: ops).length = n + 1 + ops.length := by
        rw [List.length_cons]; omega
      rw [hlen]
      exact this
  intro key c hc
  have := gen ops (NewCircuitBreaker threshold window cooldown) 0
    (fun k r hr => by simp [NewCircuitBreaker] at hr) key c hc
  simpa [NewCircuitBreaker] using this

/-- A record that is HalfOpen after a call was HalfOpen before it, or the call
was `Allow` for its key and found it Open. -/
theorem call_halfOpen_origin (cb : CircuitBreaker) (op : BreakerCall) (key : String)
    (c : circuit) (hc : (cb.call op).byKey key = some c) (hs : c.state = stateHalfOpen) :
    (∃ c₀, cb.byKey key = some c₀ ∧ c₀.state = stateHalfOpen) ∨
    (∃ now c₀, op = BreakerCall.allow now key ∧ cb.byKey key = some c₀ ∧
      c₀.state = stateOpen) := by
  cases op with
  | allow now k =>
    have hr2 : (cb.Allow now k).2.byKey key = some c := hc
    rcases Allow_snd_cases cb now k with e | ⟨c₀, hc₀, hs₀, e⟩
    · rw [e] at hr2
      exact Or.inl ⟨c, hr2, hs⟩
    · rw [e] at hr2
      rcases store_byKey_cases cb k key _ c hr2 with ⟨rfl, -⟩ | ⟨-, hold⟩
      · exact Or.inr ⟨now, c₀, rfl, hc₀, hs₀⟩
      · exact Or.inl ⟨c, hold, hs⟩
  | success k =>
    have hr2 : (cb.Success k).byKey key = some c := hc
    rcases Success_cases cb k with e | ⟨c₀, hc₀, e⟩
    · rw [e] at hr2
      exact Or.inl ⟨c, hr2, hs⟩
    · rw [e] at hr2
      rcases store_byKey_cases cb k key _ c hr2 with ⟨-, rfl⟩ | ⟨-, hold⟩
      · simp at hs
      · exact Or.inl ⟨c, hold, hs⟩
  | failure now k =>
    have hr2 : (cb.Failure now k).byKey key = some c := hc
    obtain ⟨c', e, hnh, -⟩ := Failure_cases cb now k
    rw [e] at hr2
    rcases store_byKey_cases cb k key _ c hr2 with ⟨-, rfl⟩ | ⟨-, hold⟩
    · exact absurd hs hnh
    · exact Or.inl ⟨c, hold, hs⟩

/-- C26. For a breaker built with `threshold ≥ 1`, after every sequence of
`Allow`, `Success` and `Failure` calls every record has `failures ≥ 0`, a Closed
record has `failures < threshold`, an Open or HalfOpen record has
`failures ≥ threshold`, and a record that is HalfOpen after one more call was
HalfOpen before that call or was turned HalfOpen by an `Allow` call for its key
that found it Open. -/
theorem breaker_invariant (threshold : Int) (window cooldown : Duration)
    (hthr : 1 ≤ threshold) (ops : List BreakerCall) :
    (∀ key c, ((NewCircuitBreaker threshold window cooldown).calls ops).byKey key = some c →
      0 ≤ c.failures ∧ (c.state = stateClosed → c.failures < threshold) ∧
        (c.state = stateOpen ∨ c.state = stateHalfOpen → threshold ≤ c.failures)) ∧
    (∀ op key c,
      (((NewCircuitBreaker threshold window cooldown).calls ops).call op).byKey key = some c →
      c.state = stateHalfOpen →
      (∃ c₀, ((NewCircuitBreaker threshold window cooldown).calls ops).byKey key = some c₀ ∧
        c₀.state = stateHalfOpen) ∨
      (∃ now c₀, op = BreakerCall.allow now key ∧
        ((NewCircuitBreaker threshold window cooldown).calls ops).byKey key = some c₀ ∧
        c₀.state = stateOpen)) := by
  refine ⟨?_, fun op key c hc hs => call_halfOpen_origin _ op key c hc hs⟩
  intro key c hc
  exact calls_bounds ops (NewCircuitBreaker threshold window cooldown) hthr
    (fun k r hr => by simp [NewCircuitBreaker] at hr) key c hc

theorem breaker_invariant_witness :
    (1 : Int) ≤ 2 ∧
    ((NewCircuitBreaker 2 30 30).calls
        [BreakerCall.failure 100 "svc", BreakerCall.failure 101 "svc",
          BreakerCall.allow 131 "svc"]).byKey "svc"
      = some { state := stateHalfOpen, failures := 2, lastFailure := 101, lastTry := 131 } ∧
    (∀ key c, ((NewCircuitBreaker 2 30 30).calls
        [BreakerCall.failure 100 "svc", BreakerCall.failure 101 "svc",
          BreakerCall.allow 131 "svc"]).byKey key = some c →
      0 ≤ c.failures ∧ (c.state = stateClosed → c.failures < 2) ∧
        (c.state = stateOpen ∨ c.state = stateHalfOpen → 2 ≤ c.failures)) :=
  ⟨by decide, by decide,
    (breaker_invariant 2 30 30 (by decide)
      [BreakerCall.failure 100 "svc", BreakerCall.failure 101 "svc",
        BreakerCall.allow 131 "svc"]).1⟩

end Reachable

/-! ## The gate of the executor -/

section Gate

/-- The loop never consults the breaker: its response, error and events are
the same from any two breakers. -/
theorem loop_independent_of_breaker (w : World) (key : String) :
    ∀ (n a : Nat) (b : Duration) (le : Option Error) (cb cb' : CircuitBreaker),
      (attemptLoop w key n a b le cb).log = (attemptLoop w key n a b le cb').log ∧
      (attemptLoop w key n a b le cb).resp = (attemptLoop w key n a b le cb').resp ∧
      (attemptLoop w key n a b le cb).err = (attemptLoop w key n a b le cb').err := by
  intro n
  induction n with
  | zero => intro a b le cb cb'; exact ⟨rfl, rfl, rfl⟩
  | succ n ih =>
    intro a b le cb cb'
    by_cases hc : a > 0 ∧ w.done a = true
    · rw [loop_step_cancel w key n a b le cb hc.1 hc.2,
        loop_step_cancel w key n a b le cb' hc.1 hc.2]
      exact ⟨rfl, rfl, rfl⟩
    · have hd : a > 0 → w.done a = false := by
        intro ha
        cases hda : w.done a with
        | false => rfl
        | true => exact absurd ⟨ha, hda⟩ hc
      cases hr : retryable (w.post a) with
      | true =>
        rw [loop_step_retry w key n a b le cb hd hr, loop_step_retry w key n a b le cb' hd hr]
        obtain ⟨h1, h2, h3⟩ := ih (a + 1) (if a > 0 then nextBackoff b else b)
          (some (attemptError (w.post a))) (cb.Failure (w.failNow a) key)
          (cb'.Failure (w.failNow a) key)
        refine ⟨?_, ?_, ?_⟩
        · rw [after_log, after_log, h1]
        · rw [after_resp, after_resp, h2]
        · rw [after_err, after_err, h3]
      | false =>
        cases hp : w.post a with
        | error e =>
          rw [hp] at hr
          exact absurd hr (by simp [retryable])
        | ok resp =>
          rw [loop_step_return w key n a b le cb resp hd hp hr,
            loop_step_return w key n a b le cb' resp hd hp hr]
          exact ⟨rfl, rfl, rfl⟩

/-- C24 as stated fails. With the default client configuration (3 retries)
and a breaker of threshold 2 whose cooldown is 30 seconds, a call to a
destination that answers 503 every time finds no record and is admitted; the
failures of attempts 0 and 1, recorded at seconds 2 and 3, open the circuit;
the loop goes on from there with the circuit Open, and issues attempts 2 and 3,
whose failures are recorded at seconds 4 and 5, less than the cooldown after
the last recorded failure at second 3, at a time when `Allow` would answer
false. -/
theorem attempt_issued_while_open :
    PostWithRetryAndCircuit (loadClientConfig unsetEnv) outageWorld
        (NewCircuitBreaker 2 (30 * Second) (30 * Second)) "svc"
      = (attemptLoop outageWorld "svc" 2 2
          (backoffAfter 2 0 (loadClientConfig unsetEnv).BackoffBase)
          (some (attemptError (outageWorld.post 1)))
          ((NewCircuitBreaker 2 (30 * Second) (30 * Second)).Failures "svc"
            [outageWorld.failNow 0, outageWorld.failNow 1])).after
          (retryLog 2 0 (loadClientConfig unsetEnv).BackoffBase) ∧
    ((NewCircuitBreaker 2 (30 * Second) (30 * Second)).Failures "svc"
        [outageWorld.failNow 0, outageWorld.failNow 1]).byKey "svc"
      = some { state := stateOpen, failures := 2, lastFailure := 3 * Second,
               lastTry := 3 * Second } ∧
    attempts (PostWithRetryAndCircuit (loadClientConfig unsetEnv) outageWorld
        (NewCircuitBreaker 2 (30 * Second) (30 * Second)) "svc").log = [0, 1, 2, 3] ∧
    outageWorld.failNow 2 = 4 * Second ∧ outageWorld.failNow 3 = 5 * Second ∧
    Time.Sub (5 * Second) (3 * Second) < 30 * Second ∧
    (((NewCircuitBreaker 2 (30 * Second) (30 * Second)).Failures "svc"
        [outageWorld.failNow 0, outageWorld.failNow 1]).Allow (5 * Second) "svc").1 = false := by
  refine ⟨?_, by decide, by decide, by decide, by decide, by decide, by decide⟩
  rw [Post_of_allowed _ _ _ _ (by decide)]
  have hn : ((loadClientConfig unsetEnv).MaxRetries + 1).toNat = 2 + 2 := by decide
  rw [hn]
  exact loop_retry_run outageWorld "svc" 2 2 0 _ none _
    (fun _ _ _ => rfl) (fun _ _ _ _ => rfl)

/-- C24, amended. The breaker gates a call once, at its start. A call that
starts while the record of the destination is Open and less than the cooldown
has passed since its last recorded failure issues no attempt; a call that is
admitted issues the same attempts, waits and reports, and returns the same
response and error, whatever the breaker holds, so none of its attempts is
held back when the circuit opens during the call. -/
theorem attempts_gated_at_call_start (cfg : ClientConfig) (w : World) (cb : CircuitBreaker)
    (key : String) :
    ((∃ c, cb.byKey key = some c ∧ c.state = stateOpen ∧
        Time.Sub w.allowNow c.lastFailure < cb.cooldown) →
      attempts (PostWithRetryAndCircuit cfg w cb key).log = [] ∧
      (PostWithRetryAndCircuit cfg w cb key).err = some Error.circuitOpenError) ∧
    (∀ cb' : CircuitBreaker, (cb.Allow w.allowNow key).1 = true →
      (cb'.Allow w.allowNow key).1 = true →
      (PostWithRetryAndCircuit cfg w cb key).log = (PostWithRetryAndCircuit cfg w cb' key).log ∧
      (PostWithRetryAndCircuit cfg w cb key).resp
        = (PostWithRetryAndCircuit cfg w cb' key).resp ∧
      (PostWithRetryAndCircuit cfg w cb key).err
        = (PostWithRetryAndCircuit cfg w cb' key).err) := by
  constructor
  · rintro ⟨c, hc, hs, hlt⟩
    have hrej : (cb.Allow w.allowNow key).1 = false := by
      rw [Allow_fst_of_some cb w.allowNow key c hc]
      simp [hs, hlt]
    rw [Post_of_rejected cfg w cb key hrej]
    exact ⟨rfl, rfl⟩
  · intro cb' h h'
    rw [Post_of_allowed cfg w cb key h, Post_of_allowed cfg w cb' key h']
    exact loop_independent_of_breaker w key _ _ _ _ _ _

theorem attempts_gated_at_call_start_witness :
    attempts (PostWithRetryAndCircuit (loadClientConfig unsetEnv) outageWorld
        ((NewCircuitBreaker 2 (30 * Second) (30 * Second)).Failures "svc" [1, 2]) "svc").log
      = [] ∧
    (PostWithRetryAndCircuit (loadClientConfig unsetEnv) outageWorld
        (NewCircuitBreaker 2 (30 * Second) (30 * Second)) "svc").log
      = (PostWithRetryAndCircuit (loadClientConfig unsetEnv) outageWorld
        ((NewCircuitBreaker 2 (30 * Second) (30 * Second)).Failures "svc" [1]) "svc").log :=
  ⟨((attempts_gated_at_call_start (loadClientConfig unsetEnv) outageWorld
      ((NewCircuitBreaker 2 (30 * Second) (30 * Second)).Failures "svc" [1, 2]) "svc").1
      ⟨{ state := stateOpen, failures := 2, lastFailure := 2, lastTry := 2 },
        by decide, rfl, by decide⟩).1,
   ((attempts_gated_at_call_start (loadClientConfig unsetEnv) outageWorld
      (NewCircuitBreaker 2 (30 * Second) (30 * Second)) "svc").2
      ((NewCircuitBreaker 2 (30 * Second) (30 * Second)).Failures "svc" [1])
      (by decide) (by decide)).1⟩

end Gate

/-! ## The window of the breaker -/

section Window

theorem call_window (cb : CircuitBreaker) (op : BreakerCall) :
    (cb.call op).window = cb.window := by
  cases op with
  | allow now key =>
    show (cb.Allow now key).2.window = cb.window
    rcases Allow_snd_cases cb now key with h | ⟨c, -, -, h⟩ <;> simp [h]
  | success key =>
    show (cb.Success key).window = cb.window
    rcases Success_cases cb key with h | ⟨c, -, h⟩ <;> simp [h]
  | failure now key => exact (Failure_config cb now key).2.1

/-- A failure that resets the count, or finds none, starts a run of one. -/
theorem countFollows_single (window : Duration) (acc : List Time) (now lastTry : Time)
    (st : circuitState) :
    countFollows window
      { state := st, failures := 1, lastFailure := now, lastTry := lastTry }
      (acc ++ [now]) := by
  refine ⟨Int.one_nonneg, ?_, fun _ => List.getLast?_concat acc, ?_⟩
  · rw [List.length_append]
    show 1 ≤ acc.length + 1
    omega
  · have h1 : (acc ++ [now]).length - (1 : Int).toNat = acc.length := by
      rw [List.length_append]
      show acc.length + 1 - 1 = acc.length
      omega
    show List.Chain' _ ((acc ++ [now]).drop ((acc ++ [now]).length - (1 : Int).toNat))
    rw [h1, List.drop_left]
    exact List.chain'_singleton _

/-- A failure within the window of the one before extends the run by one. -/
theorem countFollows_push (window : Duration) (acc : List Time) (c : circuit)
    (now lastTry : Time) (st : circuitState) (h : countFollows window c acc)
    (hk : withinWindow window c.lastFailure now) :
    countFollows window
      { state := st, failures := c.failures + 1, lastFailure := now, lastTry := lastTry }
      (acc ++ [now]) := by
  obtain ⟨h0, hlen, hlast, hchain⟩ := h
  have hn : (c.failures + 1).toNat = c.failures.toNat + 1 := by omega
  refine ⟨by show 0 ≤ c.failures + 1; omega, ?_, fun _ => List.getLast?_concat acc, ?_⟩
  · show (c.failures + 1).toNat ≤ (acc ++ [now]).length
    rw [hn, List.length_append]
    show c.failures.toNat + 1 ≤ acc.length + 1
    omega
  · show List.Chain' _ ((acc ++ [now]).drop ((acc ++ [now]).length - (c.failures + 1).toNat))
    have hd : (acc ++ [now]).length - (c.failures + 1).toNat
        = acc.length - c.failures.toNat := by
      rw [hn, List.length_append]
      show acc.length + 1 - (c.failures.toNat + 1) = acc.length - c.failures.toNat
      omega
    rw [hd, List.drop_append_of_le_length (Nat.sub_le _ _), List.chain'_append]
    refine ⟨hchain, List.chain'_singleton _, ?_⟩
    intro x hx y hy
    rw [List.getLast?_drop] at hx
    have hy2 : y = now := by
      simp at hy
      exact hy.symm
    by_cases hz : acc.length ≤ acc.length - c.failures.toNat
    · rw [if_pos hz] at hx
      cases hx
    · rw [if_neg hz] at hx
      have h1 : 1 ≤ c.failures := by omega
      rw [hlast h1] at hx
      have hx2 : x = c.lastFailure := by
        simp at hx
        exact hx.symm
      rw [hx2, hy2]
      exact hk

/-- One call keeps the count of a Closed record of `key` in step with the
failure times recorded for the key. -/
theorem call_countFollows (key : String) (cb : CircuitBreaker) (op : BreakerCall)
    (acc : List Time)
    (h : ∀ c, cb.byKey key = some c → c.state = stateClosed →
      countFollows cb.window c acc) :
    ∀ c, (cb.call op).byKey key = some c → c.state = stateClosed →
      countFollows cb.window c (recentFailuresStep key acc op) := by
  intro r hr hcl
  cases op with
  | allow now k =>
    have hr2 : (cb.Allow now k).2.byKey key = some r := hr
    show countFollows cb.window r acc
    rcases Allow_snd_cases cb now k with e | ⟨c, -, -, e⟩
    · rw [e] at hr2
      exact h r hr2 hcl
    · rw [e] at hr2
      rcases store_byKey_cases cb k key _ r hr2 with ⟨-, rfl⟩ | ⟨-, hold⟩
      · exact absurd hcl (by simp)
      · exact h r hold hcl
  | success k =>
    have hr2 : (cb.Success k).byKey key = some r := hr
    by_cases hk : k = key
    · subst hk
      show countFollows cb.window r (if k = k then [] else acc)
      rw [if_pos rfl]
      cases hb : cb.byKey k with
      | none =>
        have e : cb.Success k = cb := by
          unfold CircuitBreaker.Success
          rw [hb]
        rw [e, hb] at hr2
        cases hr2
      | some c =>
        have e : cb.Success k = cb.store k { c with state := stateClosed, failures := 0 } := by
          unfold CircuitBreaker.Success
          rw [hb]
        rw [e, store_byKey_self] at hr2
        have hr3 := Option.some.inj hr2
        rw [← hr3]
        refine ⟨le_refl _, Nat.zero_le _, fun h1 => ?_, List.chain'_nil⟩
        have h2 : (1 : Int) ≤ 0 := h1
        exact absurd h2 (by decide)
    · show countFollows cb.window r (if k = key then [] else acc)
      rw [if_neg hk]
      rcases Success_cases cb k with e | ⟨c, -, e⟩
      · rw [e] at hr2
        exact h r hr2 hcl
      · rw [e, store_byKey_other cb k key _ (fun hh => hk hh.symm)] at hr2
        exact h r hr2 hcl
  | failure now k =>
    have hr2 : (cb.Failure now k).byKey key = some r := hr
    by_cases hk : k = key
    · subst hk
      show countFollows cb.window r (if k = k then acc ++ [now] else acc)
      rw [if_pos rfl]
      cases hb : cb.byKey k with
      | none =>
        rw [Failure_of_none cb k now hb, store_byKey_self] at hr2
        rw [← Option.some.inj hr2]
        exact countFollows_single _ _ _ _ _
      | some c =>
        cases hs : c.state with
        | stateClosed =>
          by_cases hreset : c.lastFailure ≠ 0 ∧ Time.Sub now c.lastFailure > cb.window
          · rw [Failure_of_closed_reset cb k c now hb hs hreset.1 hreset.2,
              store_byKey_self] at hr2
            rw [← Option.some.inj hr2]
            exact countFollows_single _ _ _ _ _
          · have hkeep : c.lastFailure = 0 ∨ Time.Sub now c.lastFailure ≤ cb.window := by
              by_cases hz : c.lastFailure = 0
              · exact Or.inl hz
              · exact Or.inr (not_lt.mp (fun hw => hreset ⟨hz, hw⟩))
            rw [Failure_of_closed_keep cb k c now hb hs hkeep, store_byKey_self] at hr2
            rw [← Option.some.inj hr2]
            exact countFollows_push _ _ c _ _ _ (h c hb hs) hkeep
        | stateOpen =>
          rw [Failure_of_open cb k c now hb hs, store_byKey_self] at hr2
          rw [← Option.some.inj hr2] at hcl
          exact absurd hcl (by simp)
        | stateHalfOpen =>
          rw [Failure_of_halfOpen cb k c now hb hs, store_byKey_self] at hr2
          rw [← Option.some.inj hr2] at hcl
          exact absurd hcl (by simp)
    · show countFollows cb.window r (if k = key then acc ++ [now] else acc)
      rw [if_neg hk]
      obtain ⟨c', e, -, -⟩ := Failure_cases cb now k
      rw [e, store_byKey_other cb k key _ (fun hh => hk hh.symm)] at hr2
      exact h r hr2 hcl

/-- Every sequence of calls keeps the count of a Closed record of `key` in
step with the failure times recorded for the key. -/
theorem calls_countFollows (key : String) (ops : List BreakerCall) :
    ∀ (cb : CircuitBreaker) (acc : List Time),
      (∀ c, cb.byKey key = some c → c.state = stateClosed →
        countFollows cb.window c acc) →
      ∀ c, (cb.calls ops).byKey key = some c → c.state = stateClosed →
        countFollows cb.window c (ops.foldl (recentFailuresStep key) acc) := by
  induction ops with
  | nil => intro cb acc h; exact h
  | cons op ops ih =>
    intro cb acc h c hc hcl
    have hstep := call_countFollows key cb op acc h
    rw [← call_window cb op] at hstep
    have := ih (cb.call op) (recentFailuresStep key acc op) hstep c hc hcl
    rw [call_window] at this
    exact this

/-- C25, as stated, fails. With threshold 3 and a window of 10, failures of
one key at times 100, 108 and 116, with no success between them, leave the
record Closed with two failures after the second and open the circuit at the
third, at time 116, although the first of the three most recent failures
occurred at 100, before `116 - 10`: the count is reset only when a failure
comes more than a window after the one before it. -/
theorem circuit_opens_on_spread_failures :
    ((NewCircuitBreaker 3 10 30).Failures "svc" [100, 108]).byKey "svc"
      = some { state := stateClosed, failures := 2, lastFailure := 108, lastTry := 108 } ∧
    ((NewCircuitBreaker 3 10 30).Failures "svc" [100, 108, 116]).byKey "svc"
      = some { state := stateOpen, failures := 3, lastFailure := 116, lastTry := 116 } ∧
    (NewCircuitBreaker 3 10 30).window = 10 ∧ (100 : Time) < 116 - 10 := by
  refine ⟨by decide, by decide, rfl, by decide⟩

/-- C25, amended. Let a breaker built with `threshold >= 1` have received any
sequence of calls, and let a `Failure` at time `t` then move the circuit of a
key from Closed (or from no record) to Open. Then at least `threshold` failures
were recorded for that key since its last `Success`, this one included, and
each of the `threshold` most recent of them, from the second on, came within
the window of the one before it: the time before is the zero time, or the
`Sub` of the two times is at most `window`. -/
theorem circuit_opens_on_chain (threshold : Int) (window cooldown : Duration)
    (hthr : 1 ≤ threshold) (ops : List BreakerCall) (key : String) (t : Time) (c' : circuit)
    (hclosed : ∀ c, ((NewCircuitBreaker threshold window cooldown).calls ops).byKey key = some c →
      c.state = stateClosed)
    (hafter : (((NewCircuitBreaker threshold window cooldown).calls ops).Failure t key).byKey key
      = some c')
    (hopen : c'.state = stateOpen) :
    threshold.toNat ≤ (recentFailures key ops ++ [t]).length ∧
    ((recentFailures key ops ++ [t]).drop
      ((recentFailures key ops ++ [t]).length - threshold.toNat)).length = threshold.toNat ∧
    List.Chain' (withinWindow window)
      ((recentFailures key ops ++ [t]).drop
        ((recentFailures key ops ++ [t]).length - threshold.toNat)) := by
  have hthr' : ((NewCircuitBreaker threshold window cooldown).calls ops).threshold = threshold :=
    calls_threshold ops _
  have hwin : ∀ (ops : List BreakerCall) (cb : CircuitBreaker),
      (cb.calls ops).window = cb.window := by
    intro ops
    induction ops with
    | nil => intro cb; rfl
    | cons op ops ih =>
      intro cb
      show ((cb.call op).calls ops).window = cb.window
      rw [ih, call_window]
  have hwin' : ((NewCircuitBreaker threshold window cooldown).calls ops).window = window :=
    hwin ops _
  have hinv := calls_countFollows key ops (NewCircuitBreaker threshold window cooldown) []
    (fun c hc => by simp [NewCircuitBreaker] at hc)
  have hbound := calls_bounds ops (NewCircuitBreaker threshold window cooldown) hthr
    (fun k r hr => by simp [NewCircuitBreaker] at hr)
  have hfin : ∀ r : circuit, r.state = stateOpen →
      countFollows window r (recentFailures key ops ++ [t]) → r.failures = threshold →
      threshold.toNat ≤ (recentFailures key ops ++ [t]).length ∧
      ((recentFailures key ops ++ [t]).drop
        ((recentFailures key ops ++ [t]).length - threshold.toNat)).length = threshold.toNat ∧
      List.Chain' (withinWindow window)
        ((recentFailures key ops ++ [t]).drop
          ((recentFailures key ops ++ [t]).length - threshold.toNat)) := by
    intro r _ hfol hf
    obtain ⟨_, hlen, _, hchain⟩ := hfol
    rw [hf] at hlen hchain
    refine ⟨hlen, ?_, hchain⟩
    rw [List.length_drop]
    omega
  generalize hcb : (NewCircuitBreaker threshold window cooldown).calls ops = cb at *
  have hone : ∀ st : circuitState,
      (if (1 : Int) ≥ cb.threshold then stateOpen else stateClosed) = stateOpen →
      countFollows window
        { state := st, failures := 1, lastFailure := t, lastTry := t }
        (recentFailures key ops ++ [t]) ∧ (1 : Int) = threshold := by
    intro st hst
    refine ⟨countFollows_single _ _ _ _ _, ?_⟩
    by_cases h1 : (1 : Int) ≥ cb.threshold
    · rw [hthr'] at h1
      omega
    · rw [if_neg h1] at hst
      cases hst
  cases hb : cb.byKey key with
  | none =>
    rw [Failure_of_none cb key t hb, store_byKey_self] at hafter
    have hc' := Option.some.inj hafter
    rw [← hc'] at hopen
    obtain ⟨hfol, h1⟩ := hone stateOpen hopen
    exact hfin _ rfl hfol h1
  | some c =>
    have hs := hclosed c hb
    by_cases hreset : c.lastFailure ≠ 0 ∧ Time.Sub t c.lastFailure > cb.window
    · rw [Failure_of_closed_reset cb key c t hb hs hreset.1 hreset.2,
        store_byKey_self] at hafter
      have hc' := Option.some.inj hafter
      rw [← hc'] at hopen
      obtain ⟨hfol, h1⟩ := hone stateOpen hopen
      exact hfin _ rfl hfol h1
    · have hkeep : c.lastFailure = 0 ∨ Time.Sub t c.lastFailure ≤ cb.window := by
        by_cases hz : c.lastFailure = 0
        · exact Or.inl hz
        · exact Or.inr (not_lt.mp (fun hw => hreset ⟨hz, hw⟩))
      rw [Failure_of_closed_keep cb key c t hb hs hkeep, store_byKey_self] at hafter
      have hc' := Option.some.inj hafter
      rw [← hc'] at hopen
      have hlt : c.failures < threshold := by
        have := (hbound key c hb).2.1 hs
        exact this
      have hge : c.failures + 1 ≥ cb.threshold := by
        by_contra hno
        have hopen2 : (if c.failures + 1 ≥ cb.threshold then stateOpen else stateClosed)
            = stateOpen := hopen
        rw [if_neg hno] at hopen2
        cases hopen2
      rw [hthr'] at hge
      have heq : c.failures + 1 = threshold := by omega
      have hfol0 : countFollows window c (recentFailures key ops) := hinv c hb hs
      rw [hwin'] at hkeep
      have hfol := countFollows_push window (recentFailures key ops) c t t stateOpen
        hfol0 hkeep
      exact hfin _ rfl hfol heq

theorem circuit_opens_on_chain_witness :
    (1 : Int) ≤ 3 ∧
    (((NewCircuitBreaker 3 10 30).calls
        [BreakerCall.failure 100 "svc", BreakerCall.failure 108 "svc"]).Failure 116 "svc").byKey
        "svc"
      = some { state := stateOpen, failures := 3, lastFailure := 116, lastTry := 116 } ∧
    recentFailures "svc" [BreakerCall.failure 100 "svc", BreakerCall.failure 108 "svc"] ++ [116]
      = [100, 108, 116] ∧
    List.Chain' (withinWindow 10)
      ((recentFailures "svc" [BreakerCall.failure 100 "svc", BreakerCall.failure 108 "svc"]
          ++ [116]).drop
        ((recentFailures "svc" [BreakerCall.failure 100 "svc", BreakerCall.failure 108 "svc"]
          ++ [116]).length - (3 : Int).toNat)) :=
  ⟨by decide, by decide, by decide,
    (circuit_opens_on_chain 3 10 30 (by decide)
      [BreakerCall.failure 100 "svc", BreakerCall.failure 108 "svc"] "svc" 116
      { state := stateOpen, failures := 3, lastFailure := 116, lastTry := 116 }
      (by
        intro c hc
        have h : ((NewCircuitBreaker 3 10 30).calls
            [BreakerCall.failure 100 "svc", BreakerCall.failure 108 "svc"]).byKey "svc"
            = some { state := stateClosed, failures := 2, lastFailure := 108, lastTry := 108 } :=
          by decide
        rw [h] at hc
        rw [← Option.some.inj hc])
      (by decide) rfl).2.2⟩


end Window

end Gateway
